import Mathlib

/-!
# Pose Editor: the bone graph model, its command layer and the reading of pose files

A shallow embedding of `PoseData.h`, `model/PoseDataUtil.cxx`,
`model/PoseDataModel.cxx` and the file commands of
`controller/PoseController.cxx`.

* `std::vector<BoneData>` is a `List BoneData`; positions returned as C++ `int`
  are `Int` (with `-1` for "not found"), and comparisons against
  `size_t` values go through `toSizeT`.
* `float` values are carried as bit patterns (`Float32`); every operation that
  computes with them (GLM, `std::stof`, stream output) is a field of `Lib`.
* A `std::string` is a `String` read byte by byte: each `Char` stands for one
  `char` of the C++ string and has a code from 0 to 255 (`ByteText`), so that
  `substr`, `find_last_of` and `getline` count and cut characters of the `String`
  as they count and cut bytes. A `String` with a character of code 256 or more
  stands for no C++ string.
* `throw std::runtime_error` is `Except.error`, carrying the model as it stood
  when the exception left the command.
-/

namespace PoseEditor

/-! ## Data model (`PoseData.h`) -/

/-- The C++ typedef `ID` (an `int`). -/
abbrev ID := Int

/-- A C++ `float`, kept as its IEEE-754 bit pattern. -/
structure Float32 where
  bits : Nat
deriving DecidableEq

/-- The float `0.0f` (the literal `0` converted to `float`). -/
def Float32.zero : Float32 := ⟨0⟩

/-- The float `1.0f` (the literal `1` converted to `float`). -/
def Float32.one : Float32 := ⟨0x3F800000⟩

/-- The type `glm::vec3`. -/
structure Vec3 where
  x : Float32
  y : Float32
  z : Float32
deriving DecidableEq

/-- The type `glm::quat`; the fields are listed in `operator[]` order 0, 1, 2, 3. -/
structure Quat where
  x : Float32
  y : Float32
  z : Float32
  w : Float32
deriving DecidableEq

/-- Library operations the sources call but do not define (GLM, `std::stof`,
`operator<<` on floats). -/
structure Lib where
  /-- The constructor call `glm::quat(a, b, c, d)`, arguments in call order. -/
  quat : Float32 → Float32 → Float32 → Float32 → Quat
  /-- The function `glm::radians` on a `vec3`. -/
  radians : Vec3 → Vec3
  /-- The function `glm::degrees` on a `vec3`. -/
  degrees : Vec3 → Vec3
  /-- The constructor `glm::quat(vec3)` from Euler angles in radians. -/
  quatOfEuler : Vec3 → Quat
  /-- The function `glm::normalize` on a quaternion. -/
  normalize : Quat → Quat
  /-- The function `glm::eulerAngles`. -/
  eulerAngles : Quat → Vec3
  /-- The function `std::stof`; `none` when it throws. -/
  stof : String → Option Float32
  /-- The text `operator<<` writes for a `float`. -/
  showFloat : Float32 → String

/-- The struct `PoseData::BoneData`. -/
structure BoneData where
  id : ID
  parent : ID
  quaternion : Quat
  eulerRotation : Vec3
  displayName : String
deriving DecidableEq

/-- A value-initialised `BoneData` (`bone = {}`): the default member
initialisers `glm::quat(0, 0, 0, 1)` and `glm::vec3(0, 0, 0)`, zero ids and the
empty name. -/
def BoneData.init (L : Lib) : BoneData :=
  { id := 0
    parent := 0
    quaternion := L.quat Float32.zero Float32.zero Float32.zero Float32.one
    eulerRotation := ⟨Float32.zero, Float32.zero, Float32.zero⟩
    displayName := "" }

/-- The struct `PoseData::BonePawn`. -/
structure BonePawn where
  bones : List BoneData := []
  originalFilePath : String := ""
  originalFileName : String := ""
  loaded : Bool := false
  saved : Bool := false
deriving DecidableEq

/-- The state of `PoseModel::PoseModel`: the pawn and the dirty flag. -/
structure PoseModel where
  m_BonePawn : BonePawn := { bones := [], originalFilePath := "", originalFileName := "", loaded := false }
  m_Delta : Bool := false
deriving DecidableEq

/-! ## Utilities (`PoseDataUtil.cxx`) -/

/-- The macro `MAX_BONE_LIMIT`. -/
def MAX_BONE_LIMIT : Nat := 1000000

/-- Conversion of an `int` to `size_t` (64 bits), as done by the usual
arithmetic conversions when an `int` meets `vector::size()`. -/
def toSizeT (i : Int) : Nat := (i % 2 ^ 64).toNat

/-- The expression `v.size() - 1` in `size_t` arithmetic. -/
def sizeMinusOne (n : Nat) : Nat := (n + 2 ^ 64 - 1) % 2 ^ 64

/-- Element access `bones[i]` with an `int` index; `none` outside the vector
(where the C++ behaviour is undefined). -/
def boneAt (bones : List BoneData) (i : Int) : Option BoneData :=
  if i < 0 then none else bones[i.toNat]?

/-- The loop of `pawnFindBoneId`, with `pos` the running position. -/
def findIdFrom (id : ID) : List BoneData → Int → Int
  | [], _ => -1
  | b :: bs, pos => if b.id = id then pos else findIdFrom id bs (pos + 1)

/-- The function `PoseDataUtil::pawnFindBoneId`. -/
def pawnFindBoneId (pawn : BonePawn) (id : ID) : Int :=
  findIdFrom id pawn.bones 0

/-- The loop of `pawnFindBoneName`, with `pos` the running position. -/
def findNameFrom (boneName : String) : List BoneData → Int → Int
  | [], _ => -1
  | b :: bs, pos => if boneName = b.displayName then pos else findNameFrom boneName bs (pos + 1)

/-- The function `PoseDataUtil::pawnFindBoneName`. -/
def pawnFindBoneName (pawn : BonePawn) (boneName : String) : Int :=
  findNameFrom boneName pawn.bones 0

/-- The default name tried for candidate `id`: `"bone (" + std::to_string(id) + ")"`. -/
def defaultName (id : Int) : String :=
  "bone (" ++ toString id ++ ")"

/-- The `for` loop of `getUniqueBoneName`: `fuel` iterations remain, the
candidate is `id`; `none` when the loop runs out (the function then throws). -/
def uniqueNameLoop (pawn : BonePawn) : Nat → Int → Option String
  | 0, _ => none
  | fuel + 1, id =>
    if pawnFindBoneName pawn (defaultName id) < 0 then some (defaultName id)
    else uniqueNameLoop pawn fuel (id + 1)

/-- The function `PoseDataUtil::getUniqueBoneName`: candidates `1 .. MAX_BONE_LIMIT - 1`. -/
def getUniqueBoneName (pawn : BonePawn) : Option String :=
  uniqueNameLoop pawn (MAX_BONE_LIMIT - 1) 1

/-- The `for` loop of `getUniqueBoneId`: `fuel` iterations remain, the
candidate is `id`; `none` when the loop runs out (the function then throws). -/
def uniqueIdLoop (pawn : BonePawn) : Nat → Int → Option ID
  | 0, _ => none
  | fuel + 1, id =>
    if pawnFindBoneId pawn id < 0 then some id
    else uniqueIdLoop pawn fuel (id + 1)

/-- The function `PoseDataUtil::getUniqueBoneId`: candidates `1 .. MAX_BONE_LIMIT - 1`. -/
def getUniqueBoneId (pawn : BonePawn) : Option ID :=
  uniqueIdLoop pawn (MAX_BONE_LIMIT - 1) 1

/-- The loop of `pawnTestBoneParentLoop`: `fuel` iterations remain, the pointer
is `current`. Returns `true` as soon as the pointer names no bone. -/
def parentLoopFrom (pawn : BonePawn) : Nat → ID → Bool
  | 0, _ => false
  | fuel + 1, current =>
    let idx := pawnFindBoneId pawn current
    if idx < 0 then true
    else
      match boneAt pawn.bones idx with
      | some b => parentLoopFrom pawn fuel b.parent
      | none => true

/-- The function `PoseDataUtil::pawnTestBoneParentLoop`: the loop runs for
`i = 0 .. size`, that is `size + 1` times. -/
def pawnTestBoneParentLoop (pawn : BonePawn) (startBone : ID) : Bool :=
  parentLoopFrom pawn (pawn.bones.length + 1) startBone

/-- The loop of `pawnGetBoneChildren`, with `pos` the running position. -/
def childrenFrom (parent : ID) : List BoneData → Int → List Int
  | [], _ => []
  | b :: bs, pos =>
    if b.parent = parent then pos :: childrenFrom parent bs (pos + 1)
    else childrenFrom parent bs (pos + 1)

/-- The function `PoseDataUtil::pawnGetBoneChildren`. -/
def pawnGetBoneChildren (pawn : BonePawn) (parent : ID) : List Int :=
  childrenFrom parent pawn.bones 0

/-- The function `PoseDataUtil::eulerToQuat`. -/
def eulerToQuat (L : Lib) (euler : Vec3) : Quat :=
  L.quatOfEuler (L.radians euler)

/-- The function `PoseDataUtil::quatToEuler`. -/
def quatToEuler (L : Lib) (quat : Quat) : Vec3 :=
  L.degrees (L.eulerAngles (L.normalize quat))

/-- The call `v.insert(v.begin() + index, bone)`. -/
def insertAt (bones : List BoneData) (index : Nat) (bone : BoneData) : List BoneData :=
  bones.take index ++ bone :: bones.drop index

/-- The function `PoseDataUtil::pawnInsertBone` (`index = -1` is the default argument). -/
def pawnInsertBone (pawn : BonePawn) (bone : BoneData) (index : Int) : BonePawn :=
  if index < 0 then { pawn with bones := pawn.bones ++ [bone] }
  else { pawn with bones := insertAt pawn.bones index.toNat bone }

/-! ## The codec: reading (`PoseDataUtil::openFile`) -/

/-- The macro `ARG_COUNT`. -/
def ARG_COUNT : Nat := 7

/-- The characters `std::isspace` accepts in the "C" locale. -/
def isSpaceChar (c : Char) : Bool :=
  c.toNat = 32 || (9 ≤ c.toNat && c.toNat ≤ 13)

/-- The value of a run of decimal digits. -/
def digitsValue (ds : List Char) : Nat :=
  ds.foldl (fun acc c => 10 * acc + (c.toNat - 48)) 0

/-- The library function `std::stoi` (base 10): leading white space is skipped,
one sign is accepted, the longest run of digits is read and what follows is
ignored; `none` when it throws (no digit, or a value outside `int`). -/
def stoi (value : String) : Option Int :=
  let body := value.toList.dropWhile isSpaceChar
  let signed : Bool × List Char :=
    match body with
    | c :: rest =>
      if c = '-' then (true, rest) else if c = '+' then (false, rest) else (false, body)
    | [] => (false, body)
  let ds := signed.2.takeWhile Char.isDigit
  if ds.isEmpty then none
  else
    let v : Int := if signed.1 then -(digitsValue ds : Int) else (digitsValue ds : Int)
    if -(2 : Int) ^ 31 ≤ v ∧ v < (2 : Int) ^ 31 then some v else none

/-- The assignment `quaternion[i] = v` for `i = 0 .. 3`. -/
def Quat.setIdx (q : Quat) (i : Nat) (v : Float32) : Quat :=
  match i with
  | 0 => { q with x := v }
  | 1 => { q with y := v }
  | 2 => { q with z := v }
  | 3 => { q with w := v }
  | _ => q

/-- The read `quaternion[i]` for `i = 0 .. 3`. -/
def Quat.getIdx (q : Quat) (i : Nat) : Float32 :=
  match i with
  | 0 => q.x
  | 1 => q.y
  | 2 => q.z
  | _ => q.w

/-- The function `PoseDataUtil::boneParseCSVField`: the bone with the field
stored, or `none` where the C++ returns `false`. For the name, `value.substr(1)`
throws on the empty string and otherwise drops the first byte, which is the
first `Char` of `value` since each `Char` stands for one byte. -/
def boneParseCSVField (L : Lib) (bone : BoneData) (line_counter : Nat) (value : String) :
    Option BoneData :=
  match line_counter with
  | 0 => (stoi value).map (fun v => { bone with id := v })
  | 1 => (stoi value).map (fun v => { bone with parent := v })
  | 2 | 3 | 4 | 5 =>
    (L.stof value).map (fun v => { bone with quaternion := bone.quaternion.setIdx (line_counter - 2) v })
  | 6 =>
    match value.toList with
    | [] => none
    | _ :: rest => some { bone with displayName := String.mk rest }
  | _ => none

/-- One `std::getline(lineStream, field, ',')` on a stream that is `good()`:
the field read and the text left, or `none` for the text when the end of the
line was reached (the stream is no longer `good()`). -/
def getField : List Char → List Char × Option (List Char)
  | [] => ([], none)
  | c :: cs =>
    if c = ',' then ([], some cs)
    else ((c :: (getField cs).1), (getField cs).2)

/-- The inner `while (lineStream.good() && line_counter < ARG_COUNT)` loop:
`remaining` is `ARG_COUNT - line_counter`. Gives the bone and the final
`line_counter`, or `none` when a field could not be parsed. -/
def parseFields (L : Lib) : Nat → Nat → Option (List Char) → BoneData → Option (BoneData × Nat)
  | 0, line_counter, _, bone => some (bone, line_counter)
  | _ + 1, line_counter, none, bone => some (bone, line_counter)
  | remaining + 1, line_counter, some text, bone =>
    match boneParseCSVField L bone line_counter (String.mk (getField text).1) with
    | none => none
    | some bone1 => parseFields L remaining (line_counter + 1) (getField text).2 bone1

/-- The body of the outer loop for one line: the parsed bone with its Euler
angles derived from the quaternion, or `none` for `LOAD_FAILED`. -/
def parseLine (L : Lib) (line : List Char) : Option BoneData :=
  match parseFields L ARG_COUNT 0 (some line) (BoneData.init L) with
  | none => none
  | some (bone, line_counter) =>
    if line_counter < ARG_COUNT then none
    else some { bone with eulerRotation := quatToEuler L bone.quaternion }

/-- The lines delivered by `while (std::getline(ifile, line))`: the text is cut
at each newline, and a final piece is a line only if it is not empty. `acc`
holds the current line in reverse. -/
def readLines : List Char → List Char → List (List Char)
  | [], acc => if acc.isEmpty then [] else [acc.reverse]
  | c :: cs, acc =>
    if c = Char.ofNat 10 then acc.reverse :: readLines cs []
    else readLines cs (c :: acc)

/-- The outer loop of `openFile` over the lines still to read. -/
def parseLines (L : Lib) : List (List Char) → BonePawn → Option BonePawn
  | [], pawn => some pawn
  | line :: rest, pawn =>
    match parseLine L line with
    | none => none
    | some bone => parseLines L rest (pawnInsertBone pawn bone (-1))

/-- The call `arg.find_last_of(chars)`; `none` is `npos`. -/
def findLastOf (chars : List Char) (arg : List Char) : Option Nat :=
  (arg.reverse.findIdx? (fun c => chars.contains c)).map (fun k => arg.length - 1 - k)

/-- The function `PoseDataUtil::parseFilename`. -/
def parseFilename (arg : String) : String :=
  match findLastOf ['/', Char.ofNat 92] arg.toList with
  | some last => String.mk (arg.toList.drop (last + 1))
  | none => arg

/-- The function `PoseDataUtil::addExtension`. -/
def addExtension (arg : String) : String :=
  match findLastOf ['.'] arg.toList with
  | some last => String.mk (arg.toList.take last) ++ ".csv"
  | none => arg ++ ".csv"

/-- The macro `LOAD_FAILED`. -/
def LOAD_FAILED (path : String) : BonePawn :=
  { bones := [], originalFilePath := path, originalFileName := parseFilename path, loaded := false }

/-- The function `PoseDataUtil::openFile`; `file` is the content of the file at
`path`, or `none` when it cannot be opened. -/
def openFile (L : Lib) (file : Option String) (path : String) : BonePawn :=
  match file with
  | none => LOAD_FAILED path
  | some text =>
    let pawn : BonePawn :=
      { originalFilePath := path, originalFileName := parseFilename path, loaded := true }
    match parseLines L (readLines text.toList []) pawn with
    | none => LOAD_FAILED path
    | some pawn1 => { pawn1 with saved := true }

/-! ## The command layer (`PoseDataModel.cxx`) -/

/-- The method `PoseModel::delta`. -/
def delta (m : PoseModel) : PoseModel :=
  { m_BonePawn := { m.m_BonePawn with saved := false }, m_Delta := true }

/-- The method `PoseModel::isDelta`. -/
def isDelta (m : PoseModel) : Bool := m.m_Delta

/-- The method `PoseModel::resetDelta`. -/
def resetDelta (m : PoseModel) : PoseModel := { m with m_Delta := false }

/-- The method `PoseModel::getCurrentPawn`. -/
def getCurrentPawn (m : PoseModel) : BonePawn := m.m_BonePawn

/-- The method `PoseModel::cmdSetPawn`. -/
def cmdSetPawn (m : PoseModel) (pawn : BonePawn) : PoseModel :=
  delta { m with m_BonePawn := pawn }

/-- The method `PoseModel::cmdSetFilePath`. -/
def cmdSetFilePath (m : PoseModel) (path : String) : PoseModel :=
  delta { m with m_BonePawn := { m.m_BonePawn with originalFilePath := path } }

/-- The method `PoseModel::cmdSetFileName`. -/
def cmdSetFileName (m : PoseModel) (name : String) : PoseModel :=
  delta { m with m_BonePawn := { m.m_BonePawn with originalFileName := name } }

/-- The method `PoseModel::cmdSetLoaded`. -/
def cmdSetLoaded (m : PoseModel) (arg : Bool) : PoseModel :=
  delta { m with m_BonePawn := { m.m_BonePawn with loaded := arg } }

/-- The method `PoseModel::cmdSetSaved`. -/
def cmdSetSaved (m : PoseModel) (arg : Bool) : PoseModel :=
  { m_BonePawn := { m.m_BonePawn with saved := arg }, m_Delta := true }

/-- Replaces the bone vector of the held pawn. -/
def withBones (m : PoseModel) (bones : List BoneData) : PoseModel :=
  { m with m_BonePawn := { m.m_BonePawn with bones := bones } }

/-- The method `PoseModel::cmdBoneAdd`. `delta()` runs first; either unique-value
search may throw, which leaves the command with `Except.error`. -/
def cmdBoneAdd (L : Lib) (m : PoseModel) (parentid : ID) : Except PoseModel PoseModel :=
  let m1 := delta m
  match getUniqueBoneId m1.m_BonePawn with
  | none => .error m1
  | some id =>
    match getUniqueBoneName m1.m_BonePawn with
    | none => .error m1
    | some name =>
      let bone : BoneData := { BoneData.init L with id := id, parent := parentid, displayName := name }
      if parentid > 0 then
        let parentCoord := pawnFindBoneId m1.m_BonePawn parentid
        if parentCoord ≥ 0 then
          let parentCoord1 :=
            parentCoord + (if toSizeT parentCoord < m1.m_BonePawn.bones.length then 1 else 0)
          .ok (withBones m1 (insertAt m1.m_BonePawn.bones parentCoord1.toNat bone))
        else
          .ok (withBones m1 (m1.m_BonePawn.bones ++ [bone]))
      else
        .ok (withBones m1 (m1.m_BonePawn.bones ++ [bone]))

/-- The assignment `bones[child].parent = value` (no effect outside the vector). -/
def setParentAt (bones : List BoneData) (child : Int) (value : ID) : List BoneData :=
  match boneAt bones child with
  | some b => bones.set child.toNat { b with parent := value }
  | none => bones

/-- The value read by `bones[coord].parent` (`0` outside the vector, never reached). -/
def parentAt (bones : List BoneData) (coord : Int) : ID :=
  match boneAt bones coord with
  | some b => b.parent
  | none => 0

/-- The re-parenting loop of `cmdBoneRemove`: each child in turn receives the
parent currently stored at `coord`. -/
def reparentChildren (coord : Int) : List Int → List BoneData → List BoneData
  | [], bones => bones
  | child :: rest, bones =>
    reparentChildren coord rest (setParentAt bones child (parentAt bones coord))

/-- The method `PoseModel::cmdBoneRemove`. It raises `m_Delta` directly and
does not call `delta()`. -/
def cmdBoneRemove (m : PoseModel) (boneid : ID) : PoseModel :=
  let coord := pawnFindBoneId m.m_BonePawn boneid
  if coord ≥ 0 then
    let children := pawnGetBoneChildren m.m_BonePawn boneid
    let bones := reparentChildren coord children m.m_BonePawn.bones
    { withBones m (bones.eraseIdx coord.toNat) with m_Delta := true }
  else m

/-- The three assignments that exchange `bones[i]` and `bones[j]` through `tmp`. -/
def swapAt (bones : List BoneData) (i j : Int) : List BoneData :=
  match boneAt bones i, boneAt bones j with
  | some tmp, some other => (bones.set i.toNat other).set j.toNat tmp
  | _, _ => bones

/-- The method `PoseModel::cmdBoneMoveUp`. -/
def cmdBoneMoveUp (m : PoseModel) (boneid : ID) : PoseModel :=
  let coord := pawnFindBoneId m.m_BonePawn boneid
  if coord > 0 then
    delta (withBones m (swapAt m.m_BonePawn.bones coord (coord - 1)))
  else m

/-- The method `PoseModel::cmdBoneMoveDown`; the bound `size() - 1` is computed
in `size_t`. -/
def cmdBoneMoveDown (m : PoseModel) (boneid : ID) : PoseModel :=
  let coord := pawnFindBoneId m.m_BonePawn boneid
  if coord ≥ 0 ∧ toSizeT coord < sizeMinusOne m.m_BonePawn.bones.length then
    delta (withBones m (swapAt m.m_BonePawn.bones coord (coord + 1)))
  else m

/-- The method `PoseModel::cmdBoneSetRotation`. -/
def cmdBoneSetRotation (L : Lib) (m : PoseModel) (boneid : ID) (euler : Vec3) : PoseModel :=
  let coord := pawnFindBoneId m.m_BonePawn boneid
  if coord ≥ 0 then
    let m1 := delta m
    match boneAt m1.m_BonePawn.bones coord with
    | some b =>
      let b1 := { b with eulerRotation := euler }
      let b2 := { b1 with quaternion := eulerToQuat L b1.eulerRotation }
      let b3 := { b2 with eulerRotation := quatToEuler L b2.quaternion }
      withBones m1 (m1.m_BonePawn.bones.set coord.toNat b3)
    | none => m1
  else m

/-- The method `PoseModel::cmdBoneSetName`. -/
def cmdBoneSetName (m : PoseModel) (boneid : ID) (name : String) : PoseModel :=
  let coord := pawnFindBoneId m.m_BonePawn boneid
  let nameCoord := pawnFindBoneName m.m_BonePawn name
  if coord ≥ 0 ∧ nameCoord < 0 then
    let m1 := delta m
    match boneAt m1.m_BonePawn.bones coord with
    | some b => withBones m1 (m1.m_BonePawn.bones.set coord.toNat { b with displayName := name })
    | none => m1
  else m

/-- The method `PoseModel::cmdBoneSetParent`: the parent is written first, the
loop test runs on the written pawn, and a failed test restores the old value. -/
def cmdBoneSetParent (m : PoseModel) (boneid : ID) (parentid : ID) : PoseModel :=
  let coord := pawnFindBoneId m.m_BonePawn boneid
  if coord ≥ 0 then
    let originalParent := parentAt m.m_BonePawn.bones coord
    let m1 := withBones m (setParentAt m.m_BonePawn.bones coord parentid)
    if pawnTestBoneParentLoop m1.m_BonePawn boneid then delta m1
    else withBones m1 (setParentAt m1.m_BonePawn.bones coord originalParent)
  else m

/-- The commands of `PoseEditor::Model`. -/
inductive Cmd where
  | setPawn (pawn : BonePawn)
  | setFilePath (path : String)
  | setFileName (name : String)
  | setLoaded (arg : Bool)
  | setSaved (arg : Bool)
  | boneAdd (parentid : ID)
  | boneRemove (boneid : ID)
  | boneMoveUp (boneid : ID)
  | boneMoveDown (boneid : ID)
  | boneSetRotation (boneid : ID) (euler : Vec3)
  | boneSetName (boneid : ID) (name : String)
  | boneSetParent (boneid : ID) (parentid : ID)
deriving DecidableEq

/-- Runs one command; only `boneAdd` can end in `Except.error`. -/
def Cmd.exec (L : Lib) (m : PoseModel) : Cmd → Except PoseModel PoseModel
  | .setPawn pawn => .ok (cmdSetPawn m pawn)
  | .setFilePath path => .ok (cmdSetFilePath m path)
  | .setFileName name => .ok (cmdSetFileName m name)
  | .setLoaded arg => .ok (cmdSetLoaded m arg)
  | .setSaved arg => .ok (cmdSetSaved m arg)
  | .boneAdd parentid => cmdBoneAdd L m parentid
  | .boneRemove boneid => .ok (cmdBoneRemove m boneid)
  | .boneMoveUp boneid => .ok (cmdBoneMoveUp m boneid)
  | .boneMoveDown boneid => .ok (cmdBoneMoveDown m boneid)
  | .boneSetRotation boneid euler => .ok (cmdBoneSetRotation L m boneid euler)
  | .boneSetName boneid name => .ok (cmdBoneSetName m boneid name)
  | .boneSetParent boneid parentid => .ok (cmdBoneSetParent m boneid parentid)

/-- The seven bone commands (the ones the interface layer forwards unchanged). -/
def Cmd.isBoneCmd : Cmd → Bool
  | .boneAdd _ | .boneRemove _ | .boneMoveUp _ | .boneMoveDown _
  | .boneSetRotation _ _ | .boneSetName _ _ | .boneSetParent _ _ => true
  | _ => false

/-- Runs a sequence of commands from left to right; stops at the first one
that throws. -/
def runCmds (L : Lib) : PoseModel → List Cmd → Except PoseModel PoseModel
  | m, [] => .ok m
  | m, c :: cs =>
    match c.exec L m with
    | .ok m1 => runCmds L m1 cs
    | .error e => .error e

/-! ## The file commands (`PoseController.cxx`) -/

/-- The method `PoseController::cmdNewFile`. -/
def cmdNewFile (m : PoseModel) : PoseModel :=
  let blankPawn : BonePawn := { loaded := false, originalFileName := "Untitled" }
  cmdSetSaved (cmdSetPawn m blankPawn) true

/-- The model after `PoseController::init` on a freshly constructed `PoseModel`:
the empty Untitled graph. -/
def untitled : PoseModel := cmdNewFile {}

/-- The method `PoseController::cmdOpenFile`: the returned flag and the model. -/
def cmdOpenFile (L : Lib) (m : PoseModel) (file : Option String) (path : String) :
    Bool × PoseModel :=
  let filePawn := openFile L file path
  if filePawn.loaded then (filePawn.loaded, cmdSetSaved (cmdSetPawn m filePawn) true)
  else (filePawn.loaded, m)

/-- An operation of the interface that adds bones or opens files. -/
inductive FileOp where
  | addBone (parentid : ID)
  | openFile (file : Option String) (path : String)
deriving DecidableEq

/-- Runs a sequence of `add_bone` and `open_file` operations. -/
def runFileOps (L : Lib) : PoseModel → List FileOp → Except PoseModel PoseModel
  | m, [] => .ok m
  | m, .addBone parentid :: ops =>
    match cmdBoneAdd L m parentid with
    | .ok m1 => runFileOps L m1 ops
    | .error e => .error e
  | m, .openFile file path :: ops => runFileOps L (cmdOpenFile L m file path).2 ops

/-- A stand-in for the library, used to run the model on concrete inputs:
`stof` reads an integer with `stoi` and knows the bit patterns of `0` and `1`,
the conversions between angles and quaternions copy components. -/
def sampleLib : Lib :=
  { quat := fun a b c d => ⟨a, b, c, d⟩
    radians := id
    degrees := id
    quatOfEuler := fun e => ⟨e.x, e.y, e.z, Float32.one⟩
    normalize := id
    eulerAngles := fun q => ⟨q.x, q.y, q.z⟩
    stof := fun s =>
      (stoi s).map (fun v => if v = 0 then Float32.zero else if v = 1 then Float32.one
        else ⟨v.toNat⟩)
    showFloat := fun f => toString f.bits }

/-! ## Properties of a bone graph -/

/-- The parent link as the code follows it: the `parent` field of the first
bone whose id is `a`, if there is one. -/
def parentOf (pawn : BonePawn) (a : ID) : Option ID :=
  (boneAt pawn.bones (pawnFindBoneId pawn a)).map (fun b => b.parent)

/-- One step of the parent relation: a bone with id `a` exists and the lookup
by id leads from `a` to `b`. -/
def ParentStep (pawn : BonePawn) (a b : ID) : Prop :=
  parentOf pawn a = some b

/-- No id is reachable from itself by one or more parent steps. -/
def Acyclic (pawn : BonePawn) : Prop :=
  ∀ a : ID, ¬ Relation.TransGen (ParentStep pawn) a a

/-- Some bone of the graph has id `a`. -/
def HasId (pawn : BonePawn) (a : ID) : Prop :=
  ∃ b ∈ pawn.bones, b.id = a

instance instDecidableHasId (pawn : BonePawn) (a : ID) : Decidable (HasId pawn a) :=
  inferInstanceAs (Decidable (∃ b ∈ pawn.bones, b.id = a))

/-- Some bone of the graph has display name `n`. -/
def HasName (pawn : BonePawn) (n : String) : Prop :=
  ∃ b ∈ pawn.bones, b.displayName = n

instance instDecidableHasName (pawn : BonePawn) (n : String) : Decidable (HasName pawn n) :=
  inferInstanceAs (Decidable (∃ b ∈ pawn.bones, b.displayName = n))

/-- All ids are pairwise distinct. -/
def DistinctIds (pawn : BonePawn) : Prop :=
  (pawn.bones.map (fun b => b.id)).Nodup

instance instDecidableDistinctIds (pawn : BonePawn) : Decidable (DistinctIds pawn) :=
  inferInstanceAs (Decidable (List.Nodup _))

/-- All display names are pairwise distinct. -/
def DistinctNames (pawn : BonePawn) : Prop :=
  (pawn.bones.map (fun b => b.displayName)).Nodup

instance instDecidableDistinctNames (pawn : BonePawn) : Decidable (DistinctNames pawn) :=
  inferInstanceAs (Decidable (List.Nodup _))

/-- Every parent is the sentinel `-1` or the id of a bone of the graph. -/
def ParentsClosed (pawn : BonePawn) : Prop :=
  ∀ b ∈ pawn.bones, b.parent = -1 ∨ HasId pawn b.parent

instance instDecidableParentsClosed (pawn : BonePawn) : Decidable (ParentsClosed pawn) :=
  inferInstanceAs (Decidable (∀ b ∈ pawn.bones, _))

/-- The pawn as `cmdBoneSetParent` holds it between the write of the new parent
and the loop test (the pawn itself when `boneid` is not found). -/
def writeParent (pawn : BonePawn) (boneid parentid : ID) : BonePawn :=
  let coord := pawnFindBoneId pawn boneid
  if coord ≥ 0 then { pawn with bones := setParentAt pawn.bones coord parentid } else pawn

/-- The parent argument of `add_bone` or `set_parent` is not positive or is the
id of a bone of the graph (no condition on the other commands). -/
def Cmd.parentKnown (pawn : BonePawn) : Cmd → Prop
  | .boneAdd parentid => parentid ≤ 0 ∨ HasId pawn parentid
  | .boneSetParent _ parentid => parentid ≤ 0 ∨ HasId pawn parentid
  | _ => True

instance instDecidableParentKnown (pawn : BonePawn) : (c : Cmd) → Decidable (c.parentKnown pawn)
  | .boneAdd parentid => inferInstanceAs (Decidable (parentid ≤ 0 ∨ HasId pawn parentid))
  | .boneSetParent _ parentid => inferInstanceAs (Decidable (parentid ≤ 0 ∨ HasId pawn parentid))
  | .setPawn _ => inferInstanceAs (Decidable True)
  | .setFilePath _ => inferInstanceAs (Decidable True)
  | .setFileName _ => inferInstanceAs (Decidable True)
  | .setLoaded _ => inferInstanceAs (Decidable True)
  | .setSaved _ => inferInstanceAs (Decidable True)
  | .boneRemove _ => inferInstanceAs (Decidable True)
  | .boneMoveUp _ => inferInstanceAs (Decidable True)
  | .boneMoveDown _ => inferInstanceAs (Decidable True)
  | .boneSetRotation _ _ => inferInstanceAs (Decidable True)
  | .boneSetName _ _ => inferInstanceAs (Decidable True)

/-- The parent argument of `add_bone` or `set_parent` is the sentinel `-1` or
the id of a bone of the graph (no condition on the other commands). -/
def Cmd.parentPresent (pawn : BonePawn) : Cmd → Prop
  | .boneAdd parentid => parentid = -1 ∨ HasId pawn parentid
  | .boneSetParent _ parentid => parentid = -1 ∨ HasId pawn parentid
  | _ => True

instance instDecidableParentPresent (pawn : BonePawn) : (c : Cmd) → Decidable (c.parentPresent pawn)
  | .boneAdd parentid => inferInstanceAs (Decidable (parentid = -1 ∨ HasId pawn parentid))
  | .boneSetParent _ parentid => inferInstanceAs (Decidable (parentid = -1 ∨ HasId pawn parentid))
  | .setPawn _ => inferInstanceAs (Decidable True)
  | .setFilePath _ => inferInstanceAs (Decidable True)
  | .setFileName _ => inferInstanceAs (Decidable True)
  | .setLoaded _ => inferInstanceAs (Decidable True)
  | .setSaved _ => inferInstanceAs (Decidable True)
  | .boneRemove _ => inferInstanceAs (Decidable True)
  | .boneMoveUp _ => inferInstanceAs (Decidable True)
  | .boneMoveDown _ => inferInstanceAs (Decidable True)
  | .boneSetRotation _ _ => inferInstanceAs (Decidable True)
  | .boneSetName _ _ => inferInstanceAs (Decidable True)

/-- The command is rejected by the validation of its method: the id names no
bone (for the six commands that look a bone up), the name is already held (for
`set_name`), or the written parent puts the bone on a cycle (for `set_parent`). -/
def Cmd.failsValidation (pawn : BonePawn) : Cmd → Prop
  | .boneRemove boneid => ¬ HasId pawn boneid
  | .boneMoveUp boneid => ¬ HasId pawn boneid
  | .boneMoveDown boneid => ¬ HasId pawn boneid
  | .boneSetRotation boneid _ => ¬ HasId pawn boneid
  | .boneSetName boneid name => ¬ HasId pawn boneid ∨ HasName pawn name
  | .boneSetParent boneid parentid =>
    ¬ HasId pawn boneid ∨
      Relation.TransGen (ParentStep (writeParent pawn boneid parentid)) boneid boneid
  | _ => False

/-- Along the run of `cmds` from `m`, every command satisfies `ok` in the model
it is issued on (a run that throws is cut there). -/
def AlongRun (L : Lib) (ok : BonePawn → Cmd → Prop) : PoseModel → List Cmd → Prop
  | _, [] => True
  | m, c :: cs =>
    ok m.m_BonePawn c ∧
      match c.exec L m with
      | .ok m1 => AlongRun L ok m1 cs
      | .error _ => True

/-- The new bone `cmdBoneAdd` builds when both searches succeed. -/
def newBone (L : Lib) (id : ID) (parentid : ID) (name : String) : BoneData :=
  { BoneData.init L with id := id, parent := parentid, displayName := name }

/-- The rewrite `cmdBoneRemove` applies to the bones it keeps: a parent equal
to `removed` becomes `grand`. -/
def spliceParent (removed grand : ID) (b : BoneData) : BoneData :=
  if b.parent = removed then { b with parent := grand } else b

/-- The `(id, parent)` pairs of the bones, in sequence order. -/
def links (pawn : BonePawn) : List (ID × ID) :=
  pawn.bones.map (fun b => (b.id, b.parent))

/-- The tree shape kept by commands whose parent arguments name known bones:
ids are pairwise distinct and at least 1, every parent is not positive or the id
of a bone of the graph, and the parent relation has no cycle. -/
def WellFormed (pawn : BonePawn) : Prop :=
  DistinctIds pawn ∧ (∀ b ∈ pawn.bones, 1 ≤ b.id) ∧
    (∀ b ∈ pawn.bones, b.parent ≤ 0 ∨ HasId pawn b.parent) ∧ Acyclic pawn

/-- One step of the parent relation read off a list of `(id, parent)` pairs. -/
def LinkStep (ls : List (ID × ID)) (a b : ID) : Prop := (a, b) ∈ ls

/-- The property `WellFormed` stated on the `(id, parent)` pairs alone. -/
def LinksWF (ls : List (ID × ID)) : Prop :=
  (ls.map Prod.fst).Nodup ∧ (∀ l ∈ ls, 1 ≤ l.1) ∧
    (∀ l ∈ ls, l.2 ≤ 0 ∨ ∃ q, (l.2, q) ∈ ls) ∧
    ∀ a : ID, ¬ Relation.TransGen (LinkStep ls) a a

/-- The property `ParentsClosed` stated on the `(id, parent)` pairs alone. -/
def LinksClosed (ls : List (ID × ID)) : Prop :=
  ∀ l ∈ ls, l.2 = -1 ∨ ∃ q, (l.2, q) ∈ ls

/-- The effect of `spliceParent` on an `(id, parent)` pair. -/
def spliceLink (removed grand : ID) (l : ID × ID) : ID × ID :=
  (l.1, if l.2 = removed then grand else l.2)

/-! ## The codec: writing (`PoseDataUtil::saveFile`) -/

/-- The newline character as a string (the literal `"\n"` of `saveFile`). -/
def newline : String := String.singleton (Char.ofNat 10)

/-- What one pass of the `for` loop of `saveFile` streams before the line end:
`bone.id << ", " << bone.parent << ", " << quaternion[0] << ... << displayName`. -/
def boneText (L : Lib) (bone : BoneData) : String :=
  toString bone.id ++ ", " ++ toString bone.parent ++ ", " ++
    L.showFloat (bone.quaternion.getIdx 0) ++ ", " ++
    L.showFloat (bone.quaternion.getIdx 1) ++ ", " ++
    L.showFloat (bone.quaternion.getIdx 2) ++ ", " ++
    L.showFloat (bone.quaternion.getIdx 3) ++ ", " ++
    bone.displayName

/-- The `for` loop of `saveFile` from index `i` on, `bones` being the elements
still to write: each pass streams the bone and then
`(i < (pawn.bones.size() - 1) ? "\n" : "")`, compared in `size_t`. -/
def saveLoop (L : Lib) (size : Nat) : List BoneData → Int → String
  | [], _ => ""
  | bone :: rest, i =>
    boneText L bone ++ (if toSizeT i < sizeMinusOne size then newline else "") ++
      saveLoop L size rest (i + 1)

/-- The text `saveFile` streams into the file once it is open. -/
def saveFileText (L : Lib) (pawn : BonePawn) : String :=
  saveLoop L pawn.bones.length pawn.bones 0

/-- The function `PoseDataUtil::saveFile`; `writable` tells whether the file at
`path` can be opened for writing. Gives the returned flag and the text the file
then holds (`none` when nothing was written). -/
def saveFile (L : Lib) (writable : Bool) (pawn : BonePawn) (_path : String) :
    Bool × Option String :=
  if writable then (true, some (saveFileText L pawn)) else (false, none)

/-! ## Properties of lines and texts -/

/-- The comma-delimited fields of a line: the pieces between commas (a line
without comma is one field, the empty line is one empty field). -/
def splitComma : List Char → List (List Char)
  | [] => [[]]
  | c :: cs =>
    if c = ',' then [] :: splitComma cs
    else
      match splitComma cs with
      | f :: fs => (c :: f) :: fs
      | [] => [[c]]

/-- The text after the `n`-th comma of a line (empty when the line has fewer
commas). -/
def afterCommas : Nat → List Char → List Char
  | 0, line => line
  | _ + 1, [] => []
  | n + 1, c :: cs => if c = ',' then afterCommas n cs else afterCommas (n + 1) cs

/-- The remainder of the line after the sixth comma with its first character
removed: the display name as the format description words it. -/
def nameAsRemainder (line : List Char) : String :=
  String.mk ((afterCommas 6 line).drop 1)

/-- The calls of `boneParseCSVField` on successive fields, `line_counter`
running from the given value; `none` as soon as one returns `false`. -/
def parseFieldList (L : Lib) : List (List Char) → Nat → BoneData → Option BoneData
  | [], _, bone => some bone
  | f :: fs, line_counter, bone =>
    match boneParseCSVField L bone line_counter (String.mk f) with
    | none => none
    | some bone1 => parseFieldList L fs (line_counter + 1) bone1

/-- The line says what the bone holds: its first seven fields read, in order,
as the id, the parent, the four quaternion components and, after one leading
character, the display name; the Euler angles are those of the quaternion. -/
def LineDecodes (L : Lib) (line : List Char) (bone : BoneData) : Prop :=
  ∃ f0 f1 f2 f3 f4 f5 f6 rest c,
    splitComma line = f0 :: f1 :: f2 :: f3 :: f4 :: f5 :: f6 :: rest ∧
    stoi (String.mk f0) = some bone.id ∧ stoi (String.mk f1) = some bone.parent ∧
    L.stof (String.mk f2) = some bone.quaternion.x ∧
    L.stof (String.mk f3) = some bone.quaternion.y ∧
    L.stof (String.mk f4) = some bone.quaternion.z ∧
    L.stof (String.mk f5) = some bone.quaternion.w ∧
    f6 = c :: bone.displayName.toList ∧
    bone.eulerRotation = quatToEuler L bone.quaternion

/-- The line has fewer than seven fields, or one of its first two fields is
not read as an integer, or one of the next four is not read as a float. -/
def LineMalformed (L : Lib) (line : List Char) : Prop :=
  (splitComma line).length < 7 ∨
  (∃ i f, i < 2 ∧ (splitComma line)[i]? = some f ∧ stoi (String.mk f) = none) ∨
  (∃ i f, 2 ≤ i ∧ i < 6 ∧ (splitComma line)[i]? = some f ∧ L.stof (String.mk f) = none)

/-- The value fits a C++ `int`. -/
def InIntRange (v : Int) : Prop := -(2 : Int) ^ 31 ≤ v ∧ v < (2 : Int) ^ 31

instance instDecidableInIntRange (v : Int) : Decidable (InIntRange v) :=
  inferInstanceAs (Decidable (_ ∧ _))

/-- The text holds neither a comma nor a newline. -/
def PlainText (s : String) : Prop :=
  ',' ∉ s.toList ∧ Char.ofNat 10 ∉ s.toList

instance instDecidablePlainText (s : String) : Decidable (PlainText s) :=
  inferInstanceAs (Decidable (_ ∧ _))

/-- The float is written as plain text that `std::stof` reads back (after the
separator blank) as `g`. -/
def ReadsBack (L : Lib) (f g : Float32) : Prop :=
  PlainText (L.showFloat f) ∧ L.stof (" " ++ L.showFloat f) = some g

/-- The bone can be written to a line and read back: ids fit an `int`, the
name is plain text, and each quaternion component is read back by
`std::stof`. -/
def BoneWritable (L : Lib) (b : BoneData) : Prop :=
  InIntRange b.id ∧ InIntRange b.parent ∧ PlainText b.displayName ∧
    ∀ i, i < 4 → ∃ g, ReadsBack L (b.quaternion.getIdx i) g

/-- The bone a written line is read back as: same id, parent and name, each
quaternion component as `std::stof` reads it, Euler angles from the quaternion. -/
def ReadBackOf (L : Lib) (b b1 : BoneData) : Prop :=
  b1.id = b.id ∧ b1.parent = b.parent ∧ b1.displayName = b.displayName ∧
    (∀ i, i < 4 → ReadsBack L (b.quaternion.getIdx i) (b1.quaternion.getIdx i)) ∧
    b1.eulerRotation = quatToEuler L b1.quaternion

/-! ## Saving (`PoseController.cxx`) -/

/-- The method `PoseController::cmdSaveFile`: the returned flag, the model, and
the file written (its path and text; `none` when nothing is written).
`canWrite` tells which paths `ofstream::open` opens for writing. -/
def cmdSaveFile (L : Lib) (canWrite : String → Bool) (m : PoseModel) (_path : String) :
    Bool × PoseModel × Option (String × String) :=
  let path := addExtension _path
  let written := saveFile L (canWrite path) (getCurrentPawn m) path
  if written.1 then
    let m1 := cmdSetFilePath m path
    let m2 := cmdSetFileName m1 (parseFilename path)
    let m3 := cmdSetLoaded m2 true
    let m4 := cmdSetSaved m3 true
    (false, m4, written.2.map (fun text => (path, text)))
  else (false, m, none)

/-- The argument order of GLM's constructor `qua(T w, T x, T y, T z)`: the first
argument is the scalar part, stored as the member `operator[]` reads at 3. -/
def GlmCtorOrder (L : Lib) : Prop :=
  ∀ w x y z : Float32, L.quat w x y z = ⟨x, y, z, w⟩

/-- The command raises no `saved` flag: after it, from a model with
`saved = false`, the flag is still `false` (also when the command throws). -/
def Cmd.keepsUnsaved (L : Lib) (m : PoseModel) (c : Cmd) : Prop :=
  match c.exec L m with
  | .ok m1 => m1.m_BonePawn.saved = false
  | .error m1 => m1.m_BonePawn.saved = false

/-! ## The parent walk step by step, and the dirty flag -/

/-- The pointer `current` of `pawnTestBoneParentLoop` after `k` iterations that
found a bone, or `none` when an earlier pointer named no bone. -/
def walkAfter (pawn : BonePawn) : Nat → ID → Option ID
  | 0, current => some current
  | k + 1, current =>
    match parentOf pawn current with
    | some p => walkAfter pawn k p
    | none => none

/-- The command leaves the dirty flag raised (also when it throws). -/
def Cmd.keepsDirty (L : Lib) (m : PoseModel) (c : Cmd) : Prop :=
  match c.exec L m with
  | .ok m1 => m1.m_Delta = true
  | .error m1 => m1.m_Delta = true

/-! ## Byte strings, and the accuracy of printing and reading floats -/

/-- Every character is a `char` value (a code from 0 to 255): the list stands
for a `std::string`, one character per byte. -/
def ByteText (s : List Char) : Prop :=
  ∀ c ∈ s, c.toNat < 256

instance instDecidableByteText (s : List Char) : Decidable (ByteText s) :=
  inferInstanceAs (Decidable (∀ c ∈ s, c.toNat < 256))

/-- A bone as `cmdBoneAdd` creates it, with the sample library. -/
def sampleBone (id parent : ID) : BoneData :=
  newBone sampleLib id parent (defaultName id)

/-- A model holding bone 1 (a root) and bone 2 (child of bone 1). -/
def sampleChain : PoseModel :=
  { m_BonePawn := { bones := [sampleBone 1 (-1), sampleBone 2 1], originalFileName := "Untitled" }
    m_Delta := false }

/-- A file with two bones that carry the same id. -/
def sampleTwinFile : String :=
  "1, -1, 0, 0, 0, 1, hip" ++ String.singleton (Char.ofNat 10) ++ "1, -1, 0, 0, 0, 1, knee"

/-- A file with two bones, the second a child of the first. -/
def sampleChainFile : String :=
  "1, -1, 0, 0, 0, 1, hip" ++ String.singleton (Char.ofNat 10) ++ "2, 1, 0, 0, 0, 1, knee"

/-- The model `cmdBoneAdd` and `cmdBoneRemove` leave with the given bones when
started from the Untitled graph: `saved = false`, dirty flag raised. -/
def editedUntitled (bones : List BoneData) : PoseModel :=
  withBones (delta untitled) bones

/-- A line whose name field is followed by a further comma. -/
def sampleCommaLine : String := "1, -1, 0, 0, 0, 1, a,b"

/-- A file whose second line has three fields only. -/
def sampleShortFile : String :=
  "1, -1, 0, 0, 0, 1, hip" ++ String.singleton (Char.ofNat 10) ++ "2, 1, 0"

/-- A model holding the bones `hip` (id 1) and `knee` (id 2, child of 1),
`saved = true`, dirty flag lowered. -/
def sampleNamed : PoseModel :=
  { m_BonePawn :=
      { bones := [newBone sampleLib 1 (-1) "hip", newBone sampleLib 2 1 "knee"]
        originalFilePath := "pose.csv", originalFileName := "pose.csv"
        loaded := true, saved := true }
    m_Delta := false }

/-- The sample library with the argument order of GLM's quaternion constructor,
`glm::quat(w, x, y, z)`. -/
def sampleGlmLib : Lib :=
  { sampleLib with quat := fun w x y z => ⟨x, y, z, w⟩ }

/-- A file system in which every path can be opened for writing. -/
def allWritable (_path : String) : Bool := true

/-- A file system in which no path can be opened for writing. -/
def noneWritable (_path : String) : Bool := false

/-! ## Lists: access at the end of a prefix -/

theorem getElem?_at_prefix (pre : List BoneData) (b : BoneData) (suf : List BoneData) :
    (pre ++ b :: suf)[pre.length]? = some b := by
  induction pre with
  | nil => simp
  | cons a t ih => simpa using ih

theorem set_at_prefix (pre : List BoneData) (b x : BoneData) (suf : List BoneData) :
    (pre ++ b :: suf).set pre.length x = pre ++ x :: suf := by
  induction pre with
  | nil => rfl
  | cons a t ih => simp

theorem eraseIdx_at_prefix (pre : List BoneData) (b : BoneData) (suf : List BoneData) :
    (pre ++ b :: suf).eraseIdx pre.length = pre ++ suf := by
  induction pre with
  | nil => rfl
  | cons a t ih => simpa using ih

theorem boneAt_at_prefix (pre : List BoneData) (b : BoneData) (suf : List BoneData) :
    boneAt (pre ++ b :: suf) (pre.length : Int) = some b := by
  unfold boneAt
  have h : ¬ ((pre.length : Int) < 0) := by omega
  rw [if_neg h, Int.toNat_ofNat]
  exact getElem?_at_prefix pre b suf

theorem boneAt_neg (bones : List BoneData) (i : Int) (h : i < 0) : boneAt bones i = none := by
  unfold boneAt
  rw [if_pos h]

/-! ## The lookups -/

theorem findIdFrom_split (id : ID) (bs : List BoneData) (pos : Int) :
    (findIdFrom id bs pos = -1 ∧ ∀ b ∈ bs, b.id ≠ id) ∨
    ∃ pre b suf, bs = pre ++ b :: suf ∧ b.id = id ∧ (∀ c ∈ pre, c.id ≠ id) ∧
      findIdFrom id bs pos = pos + pre.length := by
  induction bs generalizing pos with
  | nil => left; simp [findIdFrom]
  | cons a t ih =>
    by_cases ha : a.id = id
    · right
      exact ⟨[], a, t, rfl, ha, by simp, by simp [findIdFrom, ha]⟩
    · rcases ih (pos + 1) with ⟨h1, h2⟩ | ⟨pre, b, suf, h1, h2, h3, h4⟩
      · left
        refine ⟨by simp [findIdFrom, ha, h1], ?_⟩
        intro b hb
        rcases List.mem_cons.1 hb with rfl | hb
        · exact ha
        · exact h2 b hb
      · right
        refine ⟨a :: pre, b, suf, by simp [h1], h2, ?_, ?_⟩
        · intro c hc
          rcases List.mem_cons.1 hc with rfl | hc
          · exact ha
          · exact h3 c hc
        · simp only [findIdFrom, ha, if_false, h4, List.length_cons]
          push_cast
          ring

/-- The two outcomes of `pawnFindBoneId`: `-1` and no bone has the id, or the
length of the prefix before the first bone with the id. -/
theorem pawnFindBoneId_split (pawn : BonePawn) (id : ID) :
    (pawnFindBoneId pawn id = -1 ∧ ¬ HasId pawn id) ∨
    ∃ pre b suf, pawn.bones = pre ++ b :: suf ∧ b.id = id ∧ (∀ c ∈ pre, c.id ≠ id) ∧
      pawnFindBoneId pawn id = (pre.length : Int) := by
  rcases findIdFrom_split id pawn.bones 0 with ⟨h1, h2⟩ | ⟨pre, b, suf, h1, h2, h3, h4⟩
  · left
    refine ⟨h1, ?_⟩
    rintro ⟨b, hb, hid⟩
    exact h2 b hb hid
  · right
    exact ⟨pre, b, suf, h1, h2, h3, by simpa [pawnFindBoneId] using h4⟩

theorem pawnFindBoneId_neg_iff (pawn : BonePawn) (id : ID) :
    pawnFindBoneId pawn id < 0 ↔ ¬ HasId pawn id := by
  rcases pawnFindBoneId_split pawn id with ⟨h1, h2⟩ | ⟨pre, b, suf, h1, h2, _, h4⟩
  · simp [h1, h2]
  · have hin : HasId pawn id := ⟨b, by simp [h1], h2⟩
    constructor
    · intro h; omega
    · intro h; exact absurd hin h

theorem pawnFindBoneId_nonneg_iff (pawn : BonePawn) (id : ID) :
    0 ≤ pawnFindBoneId pawn id ↔ HasId pawn id := by
  have := pawnFindBoneId_neg_iff pawn id
  constructor
  · intro h
    by_contra hc
    have := this.2 hc
    omega
  · intro h
    by_contra hc
    exact (this.1 (by omega)) h

theorem findNameFrom_split (n : String) (bs : List BoneData) (pos : Int) :
    (findNameFrom n bs pos = -1 ∧ ∀ b ∈ bs, b.displayName ≠ n) ∨
    ∃ pre b suf, bs = pre ++ b :: suf ∧ b.displayName = n ∧ (∀ c ∈ pre, c.displayName ≠ n) ∧
      findNameFrom n bs pos = pos + pre.length := by
  induction bs generalizing pos with
  | nil => left; simp [findNameFrom]
  | cons a t ih =>
    by_cases ha : n = a.displayName
    · right
      exact ⟨[], a, t, rfl, ha.symm, by simp, by simp [findNameFrom, ha]⟩
    · have ha2 : a.displayName ≠ n := fun h => ha h.symm
      rcases ih (pos + 1) with ⟨h1, h2⟩ | ⟨pre, b, suf, h1, h2, h3, h4⟩
      · left
        refine ⟨by simp [findNameFrom, ha, h1], ?_⟩
        intro b hb
        rcases List.mem_cons.1 hb with rfl | hb
        · exact ha2
        · exact h2 b hb
      · right
        refine ⟨a :: pre, b, suf, by simp [h1], h2, ?_, ?_⟩
        · intro c hc
          rcases List.mem_cons.1 hc with rfl | hc
          · exact ha2
          · exact h3 c hc
        · simp only [findNameFrom, ha, if_false, h4, List.length_cons]
          push_cast
          ring

theorem pawnFindBoneName_split (pawn : BonePawn) (n : String) :
    (pawnFindBoneName pawn n = -1 ∧ ¬ HasName pawn n) ∨
    ∃ pre b suf, pawn.bones = pre ++ b :: suf ∧ b.displayName = n ∧
      (∀ c ∈ pre, c.displayName ≠ n) ∧ pawnFindBoneName pawn n = (pre.length : Int) := by
  rcases findNameFrom_split n pawn.bones 0 with ⟨h1, h2⟩ | ⟨pre, b, suf, h1, h2, h3, h4⟩
  · left
    refine ⟨h1, ?_⟩
    rintro ⟨b, hb, hid⟩
    exact h2 b hb hid
  · right
    exact ⟨pre, b, suf, h1, h2, h3, by simpa [pawnFindBoneName] using h4⟩

theorem pawnFindBoneName_neg_iff (pawn : BonePawn) (n : String) :
    pawnFindBoneName pawn n < 0 ↔ ¬ HasName pawn n := by
  rcases pawnFindBoneName_split pawn n with ⟨h1, h2⟩ | ⟨pre, b, suf, h1, h2, _, h4⟩
  · simp [h1, h2]
  · have hin : HasName pawn n := ⟨b, by simp [h1], h2⟩
    constructor
    · intro h; omega
    · intro h; exact absurd hin h

/-- The parent link of `a` is the parent of the first bone with id `a`. -/
theorem parentOf_eq_some (pawn : BonePawn) (a p : ID) :
    parentOf pawn a = some p ↔
      ∃ pre b suf, pawn.bones = pre ++ b :: suf ∧ b.id = a ∧ (∀ c ∈ pre, c.id ≠ a) ∧
        b.parent = p := by
  unfold parentOf
  rcases pawnFindBoneId_split pawn a with ⟨h1, h2⟩ | ⟨pre, b, suf, h1, h2, h3, h4⟩
  · rw [h1, boneAt_neg _ _ (by omega)]
    constructor
    · intro h; simp at h
    · rintro ⟨pre, b, suf, e, hb, _, _⟩
      exact absurd ⟨b, by simp [e], hb⟩ h2
  · rw [h4, h1, boneAt_at_prefix]
    constructor
    · intro h
      exact ⟨pre, b, suf, rfl, h2, h3, by simpa using h⟩
    · rintro ⟨pre2, b2, suf2, e, hb2, hpre2, hp⟩
      have := List.append_eq_append_iff.1 e
      rcases this with ⟨t, ht1, ht2⟩ | ⟨t, ht1, ht2⟩
      · cases t with
        | nil =>
          simp at ht1 ht2
          rw [ht2.1]; simpa using hp
        | cons x t =>
          have hx : x = b := (List.cons.inj ht2).1.symm
          have : b ∈ pre2 := by rw [ht1]; simp [hx]
          exact absurd h2 (hpre2 b this)
      · cases t with
        | nil =>
          simp at ht1 ht2
          rw [← ht2.1]; simpa using hp
        | cons x t =>
          have hx : x = b2 := (List.cons.inj ht2).1.symm
          have : b2 ∈ pre := by rw [ht1]; simp [hx]
          exact absurd hb2 (h3 b2 this)

theorem parentOf_isSome_iff (pawn : BonePawn) (a : ID) :
    (∃ p, parentOf pawn a = some p) ↔ HasId pawn a := by
  constructor
  · rintro ⟨p, hp⟩
    obtain ⟨pre, b, suf, e, hb, _, _⟩ := (parentOf_eq_some pawn a p).1 hp
    exact ⟨b, by simp [e], hb⟩
  · intro h
    rcases pawnFindBoneId_split pawn a with ⟨_, h2⟩ | ⟨pre, b, suf, h1, h2, h3, _⟩
    · exact absurd h h2
    · exact ⟨b.parent, (parentOf_eq_some pawn a b.parent).2 ⟨pre, b, suf, h1, h2, h3, rfl⟩⟩

/-! ## The parent walk and the loop test -/

theorem parentStep_functional (pawn : BonePawn) {a b c : ID}
    (h1 : ParentStep pawn a b) (h2 : ParentStep pawn a c) : b = c := by
  unfold ParentStep at h1 h2
  rw [h1] at h2
  exact Option.some.inj h2

theorem parentLoopFrom_step (pawn : BonePawn) (n : Nat) (y z : ID)
    (h : parentOf pawn y = some z) :
    parentLoopFrom pawn (n + 1) y = parentLoopFrom pawn n z := by
  unfold parentOf at h
  rw [parentLoopFrom]
  by_cases hneg : pawnFindBoneId pawn y < 0
  · rw [boneAt_neg _ _ hneg] at h
    simp at h
  · simp only [hneg, if_false]
    cases hb : boneAt pawn.bones (pawnFindBoneId pawn y) with
    | none => rw [hb] at h; simp at h
    | some b =>
      rw [hb] at h
      have : b.parent = z := by simpa using h
      simp [this]

theorem parentLoopFrom_stop (pawn : BonePawn) (n : Nat) (y : ID)
    (h : parentOf pawn y = none) :
    parentLoopFrom pawn (n + 1) y = true := by
  unfold parentOf at h
  rw [parentLoopFrom]
  by_cases hneg : pawnFindBoneId pawn y < 0
  · simp [hneg]
  · simp only [hneg, if_false]
    cases hb : boneAt pawn.bones (pawnFindBoneId pawn y) with
    | none => rfl
    | some b => rw [hb] at h; simp at h

/-- On a cycle of a functional relation every reachable point leads back. -/
theorem back_to_cycle (pawn : BonePawn) {x y : ID}
    (hx : Relation.TransGen (ParentStep pawn) x x)
    (hy : Relation.ReflTransGen (ParentStep pawn) x y) :
    Relation.TransGen (ParentStep pawn) y x := by
  induction hy with
  | refl => exact hx
  | tail _ hyz ih =>
    obtain ⟨w, hw, hwx⟩ := Relation.TransGen.head'_iff.1 ih
    have := parentStep_functional pawn hw hyz
    subst this
    exact Relation.TransGen.trans_right hwx hx

/-- From an id that lies on a cycle the loop of `pawnTestBoneParentLoop` never
meets an absent id, whatever the number of iterations. -/
theorem parentLoopFrom_on_cycle (pawn : BonePawn) {x : ID}
    (hx : Relation.TransGen (ParentStep pawn) x x) (n : Nat) :
    ∀ y, Relation.ReflTransGen (ParentStep pawn) x y → parentLoopFrom pawn n y = false := by
  induction n with
  | zero => intro y _; rfl
  | succ n ih =>
    intro y hy
    obtain ⟨z, hz, _⟩ := Relation.TransGen.head'_iff.1 (back_to_cycle pawn hx hy)
    rw [parentLoopFrom_step pawn n y z hz]
    exact ih z (hy.tail hz)

theorem test_false_of_cycle (pawn : BonePawn) {x : ID}
    (hx : Relation.TransGen (ParentStep pawn) x x) :
    pawnTestBoneParentLoop pawn x = false :=
  parentLoopFrom_on_cycle pawn hx _ x Relation.ReflTransGen.refl

/-! ## The tentative write of `cmdBoneSetParent` -/

theorem findIdFrom_congr (a : ID) (bs cs : List BoneData) (pos : Int)
    (h : bs.map (fun b => b.id) = cs.map (fun b => b.id)) :
    findIdFrom a bs pos = findIdFrom a cs pos := by
  induction bs generalizing cs pos with
  | nil =>
    cases cs with
    | nil => rfl
    | cons c cs => simp at h
  | cons b bs ih =>
    cases cs with
    | nil => simp at h
    | cons c cs =>
      simp only [List.map_cons, List.cons.injEq] at h
      simp only [findIdFrom, h.1]
      rw [ih cs (pos + 1) h.2]

theorem writeParent_bones (pawn : BonePawn) (boneid parentid : ID)
    (pre : List BoneData) (b : BoneData) (suf : List BoneData)
    (e : pawn.bones = pre ++ b :: suf) (hfind : pawnFindBoneId pawn boneid = (pre.length : Int)) :
    (writeParent pawn boneid parentid).bones = pre ++ { b with parent := parentid } :: suf := by
  unfold writeParent
  have h0 : (pre.length : Int) ≥ 0 := by omega
  simp only [hfind, h0, if_true, setParentAt, e, boneAt_at_prefix, Int.toNat_ofNat,
    set_at_prefix]

theorem writeParent_absent (pawn : BonePawn) (boneid parentid : ID)
    (h : ¬ HasId pawn boneid) : writeParent pawn boneid parentid = pawn := by
  unfold writeParent
  have := (pawnFindBoneId_neg_iff pawn boneid).2 h
  have h2 : ¬ pawnFindBoneId pawn boneid ≥ 0 := by omega
  simp [h2]

/-- After the write, the parent link of `boneid` is `parentid` and every other
link is as before. -/
theorem parentOf_writeParent (pawn : BonePawn) (boneid parentid : ID)
    (h : HasId pawn boneid) (a : ID) :
    parentOf (writeParent pawn boneid parentid) a =
      if a = boneid then some parentid else parentOf pawn a := by
  rcases pawnFindBoneId_split pawn boneid with ⟨_, h2⟩ | ⟨pre, b, suf, e, hb, hpre, hfind⟩
  · exact absurd h h2
  · have hw := writeParent_bones pawn boneid parentid pre b suf e hfind
    by_cases ha : a = boneid
    · subst ha
      rw [if_pos rfl]
      exact (parentOf_eq_some _ _ _).2 ⟨pre, _, suf, hw, hb, hpre, rfl⟩
    · rw [if_neg ha]
      cases hold : parentOf pawn a with
      | none =>
        cases hnew : parentOf (writeParent pawn boneid parentid) a with
        | none => rfl
        | some q =>
          exfalso
          have h1 : HasId (writeParent pawn boneid parentid) a :=
            (parentOf_isSome_iff _ a).1 ⟨q, hnew⟩
          have h3 : HasId pawn a := by
            obtain ⟨c, hc, hca⟩ := h1
            rw [hw] at hc
            rcases List.mem_append.1 hc with hc | hc
            · exact ⟨c, by rw [e]; exact List.mem_append_left _ hc, hca⟩
            · rcases List.mem_cons.1 hc with rfl | hc
              · exact absurd (hca.symm.trans hb) ha
              · exact ⟨c, by rw [e]; simp [hc], hca⟩
          obtain ⟨q2, hq2⟩ := (parentOf_isSome_iff _ a).2 h3
          rw [hold] at hq2
          cases hq2
      | some q =>
        obtain ⟨pre2, b2, suf2, e2, hb2, hpre2, hq⟩ := (parentOf_eq_some pawn a q).1 hold
        refine (parentOf_eq_some _ a q).2 ?_
        rw [e] at e2
        rcases List.append_eq_append_iff.1 e2 with ⟨t, ht1, ht2⟩ | ⟨t, ht1, ht2⟩
        · cases t with
          | nil =>
            simp at ht2
            exact absurd (by rw [← ht2.1] at hb2; exact hb2.symm.trans hb) ha
          | cons x t =>
            have hx : x = b := (List.cons.inj ht2).1.symm
            have ht : suf = t ++ b2 :: suf2 := (List.cons.inj ht2).2
            subst hx
            refine ⟨pre ++ { x with parent := parentid } :: t, b2, suf2, ?_, hb2, ?_, hq⟩
            · rw [hw, ht]; simp
            · intro c hc
              rcases List.mem_append.1 hc with hc | hc
              · exact hpre2 c (by rw [ht1]; simp [hc])
              · rcases List.mem_cons.1 hc with rfl | hc
                · exact fun hh => ha (hh.symm.trans hb)
                · exact hpre2 c (by rw [ht1]; simp [hc])
        · cases t with
          | nil =>
            simp at ht2
            exact absurd (by rw [ht2.1] at hb2; exact hb2.symm.trans hb) ha
          | cons x t =>
            have hx : x = b2 := (List.cons.inj ht2).1.symm
            have ht : suf2 = t ++ b :: suf := (List.cons.inj ht2).2
            subst hx
            refine ⟨pre2, x, t ++ { b with parent := parentid } :: suf, ?_, hb2, hpre2, hq⟩
            rw [hw, ht1]; simp

/-- A path of the written graph is a path of the old graph or passes through
the rewritten id. -/
theorem path_writeParent (pawn : BonePawn) (boneid parentid : ID) (h : HasId pawn boneid)
    {a b : ID} (hab : Relation.TransGen (ParentStep (writeParent pawn boneid parentid)) a b) :
    Relation.TransGen (ParentStep pawn) a b ∨
      (Relation.ReflTransGen (ParentStep (writeParent pawn boneid parentid)) a boneid ∧
        Relation.TransGen (ParentStep (writeParent pawn boneid parentid)) boneid b) := by
  have hstep : ∀ x y, x ≠ boneid → ParentStep (writeParent pawn boneid parentid) x y →
      ParentStep pawn x y := by
    intro x y hx hxy
    unfold ParentStep at hxy ⊢
    rw [parentOf_writeParent pawn boneid parentid h x, if_neg hx] at hxy
    exact hxy
  induction hab with
  | single hs =>
    rename_i b
    by_cases ha : a = boneid
    · right
      subst ha
      exact ⟨Relation.ReflTransGen.refl, Relation.TransGen.single hs⟩
    · left
      exact Relation.TransGen.single (hstep a b ha hs)
  | tail hac hcb ih =>
    rename_i c b
    by_cases hc : c = boneid
    · right
      subst hc
      exact ⟨hac.to_reflTransGen, Relation.TransGen.single hcb⟩
    · rcases ih with ih | ⟨ih1, ih2⟩
      · left
        exact ih.tail (hstep c b hc hcb)
      · right
        exact ⟨ih1, ih2.tail hcb⟩

theorem cycle_writeParent (pawn : BonePawn) (boneid parentid : ID)
    (hac : Acyclic pawn) (hnew : ¬ Acyclic (writeParent pawn boneid parentid)) :
    HasId pawn boneid ∧
      Relation.TransGen (ParentStep (writeParent pawn boneid parentid)) boneid boneid := by
  by_cases h : HasId pawn boneid
  · refine ⟨h, ?_⟩
    unfold Acyclic at hnew
    push_neg at hnew
    obtain ⟨a, ha⟩ := hnew
    rcases path_writeParent pawn boneid parentid h ha with h1 | ⟨h1, h2⟩
    · exact absurd h1 (hac a)
    · exact Relation.TransGen.trans_left h2 h1
  · rw [writeParent_absent pawn boneid parentid h] at hnew
    exact absurd hac hnew

/-! ## `cmdBoneSetParent` -/

theorem parentOf_congr (p q : BonePawn) (h : p.bones = q.bones) : parentOf p = parentOf q := by
  funext a
  unfold parentOf pawnFindBoneId
  rw [h]

theorem acyclic_congr (p q : BonePawn) (h : p.bones = q.bones) : Acyclic p ↔ Acyclic q := by
  unfold Acyclic ParentStep
  rw [parentOf_congr p q h]

theorem hasId_congr (p q : BonePawn) (h : p.bones = q.bones) (a : ID) : HasId p a ↔ HasId q a := by
  unfold HasId
  rw [h]

/-- A graph in which the loop test succeeds from every bone has no cycle. -/
theorem acyclic_of_tests (pawn : BonePawn)
    (h : ∀ b ∈ pawn.bones, pawnTestBoneParentLoop pawn b.id = true) : Acyclic pawn := by
  intro a ha
  obtain ⟨z, hz, _⟩ := Relation.TransGen.head'_iff.1 ha
  obtain ⟨b, hb, hba⟩ := (parentOf_isSome_iff pawn a).1 ⟨z, hz⟩
  have h1 := h b hb
  rw [hba, test_false_of_cycle pawn ha] at h1
  cases h1

theorem writeParent_meta (pawn : BonePawn) (boneid parentid : ID) :
    (writeParent pawn boneid parentid).originalFilePath = pawn.originalFilePath ∧
    (writeParent pawn boneid parentid).originalFileName = pawn.originalFileName ∧
    (writeParent pawn boneid parentid).loaded = pawn.loaded ∧
    (writeParent pawn boneid parentid).saved = pawn.saved := by
  unfold writeParent
  by_cases h : pawnFindBoneId pawn boneid ≥ 0 <;> simp [h]

theorem setParentAt_restore (pre : List BoneData) (b : BoneData) (suf : List BoneData)
    (parentid : ID) :
    setParentAt (setParentAt (pre ++ b :: suf) (pre.length : Int) parentid) (pre.length : Int)
      (parentAt (pre ++ b :: suf) (pre.length : Int)) = pre ++ b :: suf := by
  simp only [setParentAt, parentAt, boneAt_at_prefix, Int.toNat_ofNat, set_at_prefix]

/-- The two outcomes of `cmdBoneSetParent`: the written pawn with `delta()`
applied when the bone exists and the loop test succeeds, the untouched model
otherwise. -/
theorem cmdBoneSetParent_eq (m : PoseModel) (boneid parentid : ID) :
    cmdBoneSetParent m boneid parentid =
      if HasId m.m_BonePawn boneid ∧
          pawnTestBoneParentLoop (writeParent m.m_BonePawn boneid parentid) boneid = true then
        delta { m with m_BonePawn := writeParent m.m_BonePawn boneid parentid }
      else m := by
  rcases pawnFindBoneId_split m.m_BonePawn boneid with ⟨h1, h2⟩ | ⟨pre, b, suf, e, hb, hpre, hfind⟩
  · have : ¬ pawnFindBoneId m.m_BonePawn boneid ≥ 0 := by omega
    simp [cmdBoneSetParent, this, h2]
  · have hin : HasId m.m_BonePawn boneid := ⟨b, by simp [e], hb⟩
    have h0 : pawnFindBoneId m.m_BonePawn boneid ≥ 0 := by omega
    have hw : withBones m (setParentAt m.m_BonePawn.bones (pawnFindBoneId m.m_BonePawn boneid)
        parentid) = { m with m_BonePawn := writeParent m.m_BonePawn boneid parentid } := by
      simp [withBones, writeParent, h0]
    unfold cmdBoneSetParent
    simp only [h0, if_true, hw, hin, true_and]
    by_cases ht : pawnTestBoneParentLoop (writeParent m.m_BonePawn boneid parentid) boneid = true
    · simp [ht]
    · simp only [ht, if_false]
      have hwb := writeParent_bones m.m_BonePawn boneid parentid pre b suf e hfind
      have hr := setParentAt_restore pre b suf parentid
      simp only [setParentAt, parentAt, boneAt_at_prefix, Int.toNat_ofNat, set_at_prefix] at hr
      simp only [withBones, hwb, hfind, e, setParentAt, parentAt, boneAt_at_prefix,
        Int.toNat_ofNat, set_at_prefix]
      cases m with
      | mk pawn d =>
        cases pawn with
        | mk bones fp fn ld sv =>
          simp only at e
          subst e
          simpa using writeParent_meta _ boneid parentid

theorem acyclic_after_setParent (m : PoseModel) (boneid parentid : ID)
    (h : Acyclic m.m_BonePawn) : Acyclic (cmdBoneSetParent m boneid parentid).m_BonePawn := by
  rw [cmdBoneSetParent_eq]
  split
  · rename_i hc
    have hb : (delta { m with m_BonePawn := writeParent m.m_BonePawn boneid parentid }).m_BonePawn.bones
        = (writeParent m.m_BonePawn boneid parentid).bones := rfl
    rw [acyclic_congr _ _ hb]
    by_contra hn
    have := (cycle_writeParent m.m_BonePawn boneid parentid h hn).2
    rw [test_false_of_cycle _ this] at hc
    exact absurd hc.2 (by simp)
  · exact h

theorem setParent_rejects_cycle (m : PoseModel) (boneid parentid : ID)
    (hc : Relation.TransGen (ParentStep (writeParent m.m_BonePawn boneid parentid)) boneid boneid) :
    cmdBoneSetParent m boneid parentid = m := by
  rw [cmdBoneSetParent_eq, test_false_of_cycle _ hc]
  simp

/-! ## `cmdBoneAdd` -/

theorem uniqueIdLoop_some (pawn : BonePawn) (fuel : Nat) (start r : Int)
    (h : uniqueIdLoop pawn fuel start = some r) :
    start ≤ r ∧ r < start + fuel ∧ ¬ HasId pawn r ∧ ∀ j, start ≤ j → j < r → HasId pawn j := by
  induction fuel generalizing start with
  | zero => simp [uniqueIdLoop] at h
  | succ n ih =>
    rw [uniqueIdLoop] at h
    by_cases hf : pawnFindBoneId pawn start < 0
    · rw [if_pos hf] at h
      have : start = r := Option.some.inj h
      subst this
      refine ⟨le_refl _, by push_cast; omega, (pawnFindBoneId_neg_iff pawn start).1 hf, ?_⟩
      intro j h1 h2
      omega
    · rw [if_neg hf] at h
      obtain ⟨h1, h2, h3, h4⟩ := ih (start + 1) h
      refine ⟨by omega, by push_cast; omega, h3, ?_⟩
      intro j hj1 hj2
      by_cases hjs : j = start
      · subst hjs
        exact (pawnFindBoneId_nonneg_iff pawn j).1 (by omega)
      · exact h4 j (by omega) hj2

theorem uniqueIdLoop_none (pawn : BonePawn) (fuel : Nat) (start : Int) :
    uniqueIdLoop pawn fuel start = none ↔ ∀ j, start ≤ j → j < start + fuel → HasId pawn j := by
  induction fuel generalizing start with
  | zero =>
    simp only [uniqueIdLoop, true_iff]
    intro j h1 h2
    simp at h2
    omega
  | succ n ih =>
    rw [uniqueIdLoop]
    by_cases hf : pawnFindBoneId pawn start < 0
    · rw [if_pos hf]
      simp only [false_iff, reduceCtorEq]
      intro hall
      exact (pawnFindBoneId_neg_iff pawn start).1 hf (hall start (le_refl _) (by push_cast; omega))
    · rw [if_neg hf, ih (start + 1)]
      constructor
      · intro hall j h1 h2
        by_cases hjs : j = start
        · subst hjs
          exact (pawnFindBoneId_nonneg_iff pawn j).1 (by omega)
        · exact hall j (by omega) (by push_cast at h2 ⊢; omega)
      · intro hall j h1 h2
        exact hall j (by omega) (by push_cast at h2 ⊢; omega)

theorem uniqueNameLoop_some (pawn : BonePawn) (fuel : Nat) (start : Int) (r : String)
    (h : uniqueNameLoop pawn fuel start = some r) :
    ∃ N : Int, start ≤ N ∧ N < start + fuel ∧ r = defaultName N ∧
      ¬ HasName pawn (defaultName N) ∧ ∀ j, start ≤ j → j < N → HasName pawn (defaultName j) := by
  induction fuel generalizing start with
  | zero => simp [uniqueNameLoop] at h
  | succ n ih =>
    rw [uniqueNameLoop] at h
    by_cases hf : pawnFindBoneName pawn (defaultName start) < 0
    · rw [if_pos hf] at h
      refine ⟨start, le_refl _, by push_cast; omega, (Option.some.inj h).symm,
        (pawnFindBoneName_neg_iff pawn _).1 hf, ?_⟩
      intro j h1 h2
      omega
    · rw [if_neg hf] at h
      obtain ⟨N, h1, h2, h3, h4, h5⟩ := ih (start + 1) h
      refine ⟨N, by omega, by push_cast; omega, h3, h4, ?_⟩
      intro j hj1 hj2
      by_cases hjs : j = start
      · subst hjs
        by_contra hc
        exact hf ((pawnFindBoneName_neg_iff pawn _).2 hc)
      · exact h5 j (by omega) hj2

theorem uniqueNameLoop_none (pawn : BonePawn) (fuel : Nat) (start : Int) :
    uniqueNameLoop pawn fuel start = none ↔
      ∀ j, start ≤ j → j < start + fuel → HasName pawn (defaultName j) := by
  induction fuel generalizing start with
  | zero =>
    simp only [uniqueNameLoop, true_iff]
    intro j h1 h2
    simp at h2
    omega
  | succ n ih =>
    rw [uniqueNameLoop]
    by_cases hf : pawnFindBoneName pawn (defaultName start) < 0
    · rw [if_pos hf]
      simp only [false_iff, reduceCtorEq]
      intro hall
      exact (pawnFindBoneName_neg_iff pawn _).1 hf
        (hall start (le_refl _) (by push_cast; omega))
    · rw [if_neg hf, ih (start + 1)]
      constructor
      · intro hall j h1 h2
        by_cases hjs : j = start
        · subst hjs
          by_contra hc
          exact hf ((pawnFindBoneName_neg_iff pawn _).2 hc)
        · exact hall j (by omega) (by push_cast at h2 ⊢; omega)
      · intro hall j h1 h2
        exact hall j (by omega) (by push_cast at h2 ⊢; omega)

theorem insertAt_after_prefix (pre : List BoneData) (b nb : BoneData) (suf : List BoneData) :
    insertAt (pre ++ b :: suf) (pre.length + 1) nb = pre ++ b :: nb :: suf := by
  unfold insertAt
  induction pre with
  | nil => simp
  | cons a t ih => simpa using ih

theorem toSizeT_lt_of_lt (k n : Nat) (h : k < n) : toSizeT (k : Int) < n := by
  unfold toSizeT
  omega

theorem uniqueIdLoop_congr (p q : BonePawn) (h : p.bones = q.bones) (fuel : Nat) (start : Int) :
    uniqueIdLoop p fuel start = uniqueIdLoop q fuel start := by
  induction fuel generalizing start with
  | zero => rfl
  | succ n ih =>
    have e : pawnFindBoneId p start = pawnFindBoneId q start := by
      unfold pawnFindBoneId; rw [h]
    rw [uniqueIdLoop, uniqueIdLoop, e, ih]

theorem uniqueNameLoop_congr (p q : BonePawn) (h : p.bones = q.bones) (fuel : Nat) (start : Int) :
    uniqueNameLoop p fuel start = uniqueNameLoop q fuel start := by
  induction fuel generalizing start with
  | zero => rfl
  | succ n ih =>
    have e : pawnFindBoneName p (defaultName start) = pawnFindBoneName q (defaultName start) := by
      unfold pawnFindBoneName; rw [h]
    rw [uniqueNameLoop, uniqueNameLoop, e, ih]

theorem getUniqueBoneId_congr (p q : BonePawn) (h : p.bones = q.bones) :
    getUniqueBoneId p = getUniqueBoneId q := by
  unfold getUniqueBoneId
  exact uniqueIdLoop_congr p q h _ _

theorem getUniqueBoneName_congr (p q : BonePawn) (h : p.bones = q.bones) :
    getUniqueBoneName p = getUniqueBoneName q := by
  unfold getUniqueBoneName
  exact uniqueNameLoop_congr p q h _ _

/-- The shape of a completed `cmdBoneAdd`: both searches succeeded and the new
bone sits right after the first bone with id `parentid` when `parentid` is
positive and present, at the end otherwise. -/
theorem cmdBoneAdd_ok (L : Lib) (m m1 : PoseModel) (parentid : ID)
    (h : cmdBoneAdd L m parentid = .ok m1) :
    ∃ id name, getUniqueBoneId m.m_BonePawn = some id ∧
      getUniqueBoneName m.m_BonePawn = some name ∧
      ((0 < parentid ∧ ∃ pre b suf, m.m_BonePawn.bones = pre ++ b :: suf ∧ b.id = parentid ∧
          (∀ c ∈ pre, c.id ≠ parentid) ∧
          m1 = withBones (delta m) (pre ++ b :: newBone L id parentid name :: suf)) ∨
       ((parentid ≤ 0 ∨ ¬ HasId m.m_BonePawn parentid) ∧
          m1 = withBones (delta m) (m.m_BonePawn.bones ++ [newBone L id parentid name]))) := by
  unfold cmdBoneAdd at h
  have e1 : getUniqueBoneId (delta m).m_BonePawn = getUniqueBoneId m.m_BonePawn :=
    getUniqueBoneId_congr _ _ rfl
  have e2 : getUniqueBoneName (delta m).m_BonePawn = getUniqueBoneName m.m_BonePawn :=
    getUniqueBoneName_congr _ _ rfl
  simp only [e1, e2] at h
  cases hid : getUniqueBoneId m.m_BonePawn with
  | none => simp [hid] at h
  | some id =>
    cases hname : getUniqueBoneName m.m_BonePawn with
    | none => simp [hid, hname] at h
    | some name =>
      refine ⟨id, name, rfl, rfl, ?_⟩
      simp only [hid, hname] at h
      have e3 : pawnFindBoneId (delta m).m_BonePawn parentid = pawnFindBoneId m.m_BonePawn parentid :=
        rfl
      have e4 : (delta m).m_BonePawn.bones = m.m_BonePawn.bones := rfl
      simp only [e3, e4] at h
      by_cases hp : parentid > 0
      · simp only [hp, if_true] at h
        rcases pawnFindBoneId_split m.m_BonePawn parentid with
          ⟨h1, h2⟩ | ⟨pre, b, suf, e, hb, hpre, hfind⟩
        · right
          have : ¬ pawnFindBoneId m.m_BonePawn parentid ≥ 0 := by omega
          simp only [this, if_false] at h
          exact ⟨Or.inr h2, (Except.ok.inj h).symm⟩
        · left
          have h0 : pawnFindBoneId m.m_BonePawn parentid ≥ 0 := by omega
          have hlt : toSizeT (pre.length : Int) < m.m_BonePawn.bones.length :=
            toSizeT_lt_of_lt _ _ (by rw [e]; simp)
          simp only [h0, if_true, hfind, hlt] at h
          have hk : ((pre.length : Int) + 1).toNat = pre.length + 1 := by omega
          rw [hk, e, insertAt_after_prefix] at h
          exact ⟨hp, pre, b, suf, e, hb, hpre, (Except.ok.inj h).symm⟩
      · right
        simp only [hp, if_false] at h
        exact ⟨Or.inl (not_lt.mp hp), (Except.ok.inj h).symm⟩

/-! ## `cmdBoneRemove` -/

theorem spliceParent_parent_fixed (r q : ID) (b : BoneData) (h : b.parent = q) :
    (spliceParent r q b).parent = q := by
  unfold spliceParent
  split <;> simp [h]

theorem parentAt_partly_spliced (r q : ID) (pre suf : List BoneData) (coord : Int) (B : BoneData)
    (hB : boneAt (pre ++ suf) coord = some B) (hq : B.parent = q) :
    parentAt (pre.map (spliceParent r q) ++ suf) coord = q := by
  unfold parentAt
  unfold boneAt at hB ⊢
  by_cases hneg : coord < 0
  · simp [hneg] at hB
  · simp only [hneg, if_false] at hB ⊢
    by_cases hk : coord.toNat < pre.length
    · rw [List.getElem?_append_left (by simpa using hk)]
      rw [List.getElem?_append_left hk] at hB
      rw [List.getElem?_map, hB]
      exact spliceParent_parent_fixed r q B hq
    · have hk2 : pre.length ≤ coord.toNat := by omega
      rw [List.getElem?_append_right (by simpa using hk2)]
      rw [List.getElem?_append_right hk2] at hB
      simp only [List.length_map]
      rw [hB]
      exact hq

/-- The re-parenting loop of `cmdBoneRemove` rewrites exactly the bones whose
parent is the removed id, all to the same value. -/
theorem reparentChildren_eq (r q : ID) (coord : Int) (B : BoneData) (hq : B.parent = q)
    (suf : List BoneData) :
    ∀ pre : List BoneData, boneAt (pre ++ suf) coord = some B →
      reparentChildren coord (childrenFrom r suf (pre.length : Int))
        (pre.map (spliceParent r q) ++ suf) = (pre ++ suf).map (spliceParent r q) := by
  induction suf with
  | nil => intro pre _; simp [childrenFrom, reparentChildren]
  | cons b t ih =>
    intro pre hB
    have hB2 : boneAt ((pre ++ [b]) ++ t) coord = some B := by simpa using hB
    have hih := ih (pre ++ [b]) hB2
    have hlen : (((pre ++ [b]).length : Nat) : Int) = (pre.length : Int) + 1 := by simp
    rw [hlen] at hih
    by_cases hb : b.parent = r
    · have hval := parentAt_partly_spliced r q pre (b :: t) coord B hB hq
      have hat : boneAt (pre.map (spliceParent r q) ++ b :: t) (pre.length : Int) = some b := by
        have := boneAt_at_prefix (pre.map (spliceParent r q)) b t
        simpa using this
      have hset : (pre.map (spliceParent r q) ++ b :: t).set pre.length { b with parent := q }
          = pre.map (spliceParent r q) ++ { b with parent := q } :: t := by
        simp
      have hsp : spliceParent r q b = { b with parent := q } := by simp [spliceParent, hb]
      simp only [childrenFrom, hb, if_true, reparentChildren, hval, setParentAt, hat,
        Int.toNat_ofNat, hset]
      have : pre.map (spliceParent r q) ++ { b with parent := q } :: t
          = (pre ++ [b]).map (spliceParent r q) ++ t := by simp [hsp]
      rw [this, hih]
      simp
    · have hsp : spliceParent r q b = b := by simp [spliceParent, hb]
      simp only [childrenFrom, hb, if_false]
      have : pre.map (spliceParent r q) ++ b :: t
          = (pre ++ [b]).map (spliceParent r q) ++ t := by simp [hsp]
      rw [this, hih]
      simp

/-- The shape of `cmdBoneRemove` when the id is found: the first bone with the
id is dropped and the bones whose parent was the id take its parent. -/
theorem cmdBoneRemove_found (m : PoseModel) (boneid : ID)
    (pre : List BoneData) (B : BoneData) (suf : List BoneData)
    (e : m.m_BonePawn.bones = pre ++ B :: suf)
    (hfind : pawnFindBoneId m.m_BonePawn boneid = (pre.length : Int)) :
    cmdBoneRemove m boneid =
      { withBones m ((pre ++ suf).map (spliceParent boneid B.parent)) with m_Delta := true } := by
  unfold cmdBoneRemove
  have h0 : pawnFindBoneId m.m_BonePawn boneid ≥ 0 := by omega
  simp only [h0, if_true, hfind, pawnGetBoneChildren, e]
  have hB : boneAt ([] ++ (pre ++ B :: suf)) (pre.length : Int) = some B := by
    simpa using boneAt_at_prefix pre B suf
  have := reparentChildren_eq boneid B.parent (pre.length : Int) B rfl (pre ++ B :: suf) [] hB
  simp only [List.length_nil, List.map_nil, List.nil_append, Nat.cast_zero] at this
  rw [this]
  have h2 : (List.map (spliceParent boneid B.parent) (pre ++ B :: suf)).eraseIdx
      (pre.length : Int).toNat = (pre ++ suf).map (spliceParent boneid B.parent) := by
    have := eraseIdx_at_prefix (pre.map (spliceParent boneid B.parent))
      (spliceParent boneid B.parent B) (suf.map (spliceParent boneid B.parent))
    simpa using this
  have hpl : (pre.length : Int) ≥ 0 := by omega
  rw [h2, if_pos hpl]

theorem cmdBoneRemove_absent (m : PoseModel) (boneid : ID) (h : ¬ HasId m.m_BonePawn boneid) :
    cmdBoneRemove m boneid = m := by
  unfold cmdBoneRemove
  have := (pawnFindBoneId_neg_iff m.m_BonePawn boneid).2 h
  have h2 : ¬ pawnFindBoneId m.m_BonePawn boneid ≥ 0 := by omega
  simp [h2]

/-! ## `cmdBoneMoveUp`, `cmdBoneMoveDown` -/

theorem swapAt_adjacent (pre : List BoneData) (a b : BoneData) (suf : List BoneData) :
    swapAt (pre ++ a :: b :: suf) ((pre.length : Int) + 1) (pre.length : Int) = pre ++ b :: a :: suf ∧
    swapAt (pre ++ a :: b :: suf) (pre.length : Int) ((pre.length : Int) + 1) = pre ++ b :: a :: suf := by
  have h1 : boneAt (pre ++ a :: b :: suf) (pre.length : Int) = some a := boneAt_at_prefix pre a _
  have h2 : boneAt (pre ++ a :: b :: suf) ((pre.length : Int) + 1) = some b := by
    have := boneAt_at_prefix (pre ++ [a]) b suf
    simpa using this
  have k1 : ((pre.length : Int) + 1).toNat = pre.length + 1 := by omega
  have s2 : ∀ x y : BoneData, (pre ++ x :: y :: suf).set (pre.length + 1) a
      = pre ++ x :: a :: suf := by
    intro x y
    simp
  constructor
  · simp only [swapAt, h1, h2, k1, Int.toNat_ofNat, s2, set_at_prefix]
  · simp only [swapAt, h1, h2, k1, Int.toNat_ofNat, set_at_prefix]
    exact s2 b b

/-- The shape of `cmdBoneMoveUp`: nothing, or the first bone with the id
changes place with the bone before it. -/
theorem cmdBoneMoveUp_shape (m : PoseModel) (boneid : ID) :
    cmdBoneMoveUp m boneid = m ∨
    ∃ pre a b suf, m.m_BonePawn.bones = pre ++ a :: b :: suf ∧ b.id = boneid ∧
      pawnFindBoneId m.m_BonePawn boneid = (pre.length : Int) + 1 ∧
      cmdBoneMoveUp m boneid = delta (withBones m (pre ++ b :: a :: suf)) := by
  unfold cmdBoneMoveUp
  by_cases hc : pawnFindBoneId m.m_BonePawn boneid > 0
  · right
    rcases pawnFindBoneId_split m.m_BonePawn boneid with ⟨h1, _⟩ | ⟨P, b, suf, e, hb, _, hfind⟩
    · omega
    · rcases List.eq_nil_or_concat P with hP | ⟨pre, a, hP⟩
      · subst hP
        simp at hfind
        omega
      · subst hP
        have hf2 : pawnFindBoneId m.m_BonePawn boneid = (pre.length : Int) + 1 := by
          rw [hfind]; simp
        refine ⟨pre, a, b, suf, by simp [e], hb, hf2, ?_⟩
        have hpos : (pre.length : Int) + 1 > 0 := by omega
        have e2 : m.m_BonePawn.bones = pre ++ a :: b :: suf := by simp [e]
        simp only [hf2, hpos, if_true, e2, add_sub_cancel_right, (swapAt_adjacent pre a b suf).1]
  · left
    simp [hc]

/-- The shape of `cmdBoneMoveDown`: nothing, or the first bone with the id
changes place with the bone after it. -/
theorem cmdBoneMoveDown_shape (m : PoseModel) (boneid : ID) :
    cmdBoneMoveDown m boneid = m ∨
    ∃ pre a b suf, m.m_BonePawn.bones = pre ++ a :: b :: suf ∧ a.id = boneid ∧
      pawnFindBoneId m.m_BonePawn boneid = (pre.length : Int) ∧
      cmdBoneMoveDown m boneid = delta (withBones m (pre ++ b :: a :: suf)) := by
  unfold cmdBoneMoveDown
  by_cases hc : pawnFindBoneId m.m_BonePawn boneid ≥ 0 ∧
      toSizeT (pawnFindBoneId m.m_BonePawn boneid) < sizeMinusOne m.m_BonePawn.bones.length
  · right
    rcases pawnFindBoneId_split m.m_BonePawn boneid with ⟨h1, _⟩ | ⟨pre, a, S, e, ha, _, hfind⟩
    · omega
    · cases S with
      | nil =>
        exfalso
        have h2 := hc.2
        rw [hfind, e] at h2
        simp only [toSizeT, sizeMinusOne, List.length_append, List.length_cons, List.length_nil]
          at h2
        omega
      | cons b suf =>
        refine ⟨pre, a, b, suf, e, ha, hfind, ?_⟩
        simp only [hc, and_self, if_true]
        rw [hfind, e, (swapAt_adjacent pre a b suf).2]
  · left
    simp [hc]

/-! ## `cmdBoneSetName`, `cmdBoneSetRotation` -/

/-- The shape of `cmdBoneSetName`: nothing, or the first bone with the id takes
a name no bone held. -/
theorem cmdBoneSetName_shape (m : PoseModel) (boneid : ID) (name : String) :
    cmdBoneSetName m boneid name = m ∨
    ∃ pre b suf, m.m_BonePawn.bones = pre ++ b :: suf ∧ b.id = boneid ∧
      (∀ c ∈ pre, c.id ≠ boneid) ∧ ¬ HasName m.m_BonePawn name ∧
      cmdBoneSetName m boneid name =
        delta (withBones m (pre ++ { b with displayName := name } :: suf)) := by
  unfold cmdBoneSetName
  by_cases hc : pawnFindBoneId m.m_BonePawn boneid ≥ 0 ∧ pawnFindBoneName m.m_BonePawn name < 0
  · right
    rcases pawnFindBoneId_split m.m_BonePawn boneid with ⟨h1, _⟩ | ⟨pre, b, suf, e, hb, hpre, hfind⟩
    · omega
    · refine ⟨pre, b, suf, e, hb, hpre, (pawnFindBoneName_neg_iff _ _).1 hc.2, ?_⟩
      simp only [hc, and_self, if_true]
      have e2 : (delta m).m_BonePawn.bones = pre ++ b :: suf := e
      simp only [hfind, e2, boneAt_at_prefix, Int.toNat_ofNat, set_at_prefix]
      rfl
  · left
    simp [hc]

theorem cmdBoneSetName_rejected (m : PoseModel) (boneid : ID) (name : String)
    (h : ¬ HasId m.m_BonePawn boneid ∨ HasName m.m_BonePawn name) :
    cmdBoneSetName m boneid name = m := by
  unfold cmdBoneSetName
  have : ¬ (pawnFindBoneId m.m_BonePawn boneid ≥ 0 ∧ pawnFindBoneName m.m_BonePawn name < 0) := by
    rintro ⟨h1, h2⟩
    rcases h with h | h
    · exact h ((pawnFindBoneId_nonneg_iff _ _).1 h1)
    · exact (pawnFindBoneName_neg_iff _ _).1 h2 h
  simp [this]

/-- The shape of `cmdBoneSetRotation`: nothing when the id is absent, else the
first bone with the id gets the quaternion of the given angles and the angles
decoded from it. -/
theorem cmdBoneSetRotation_shape (L : Lib) (m : PoseModel) (boneid : ID) (euler : Vec3) :
    (¬ HasId m.m_BonePawn boneid ∧ cmdBoneSetRotation L m boneid euler = m) ∨
    ∃ pre b suf, m.m_BonePawn.bones = pre ++ b :: suf ∧ b.id = boneid ∧
      (∀ c ∈ pre, c.id ≠ boneid) ∧
      cmdBoneSetRotation L m boneid euler =
        delta (withBones m (pre ++ { b with quaternion := eulerToQuat L euler,
                                            eulerRotation := quatToEuler L (eulerToQuat L euler) }
                              :: suf)) := by
  unfold cmdBoneSetRotation
  rcases pawnFindBoneId_split m.m_BonePawn boneid with ⟨h1, h2⟩ | ⟨pre, b, suf, e, hb, hpre, hfind⟩
  · left
    have : ¬ pawnFindBoneId m.m_BonePawn boneid ≥ 0 := by omega
    exact ⟨h2, by simp [this]⟩
  · right
    refine ⟨pre, b, suf, e, hb, hpre, ?_⟩
    have h0 : pawnFindBoneId m.m_BonePawn boneid ≥ 0 := by omega
    have e2 : (delta m).m_BonePawn.bones = pre ++ b :: suf := e
    have hpl : (pre.length : Int) ≥ 0 := by omega
    simp only [h0, if_true, hfind, e2, boneAt_at_prefix, Int.toNat_ofNat, set_at_prefix]
    rw [if_pos hpl]
    rfl

/-! ## The graph as a list of `(id, parent)` pairs -/

theorem mem_links (pawn : BonePawn) (a p : ID) :
    (a, p) ∈ links pawn ↔ ∃ b ∈ pawn.bones, b.id = a ∧ b.parent = p := by
  unfold links
  simp only [List.mem_map, Prod.mk.injEq]

theorem hasId_iff_links (pawn : BonePawn) (a : ID) :
    HasId pawn a ↔ ∃ p, (a, p) ∈ links pawn := by
  constructor
  · rintro ⟨b, hb, hba⟩
    exact ⟨b.parent, (mem_links pawn a b.parent).2 ⟨b, hb, hba, rfl⟩⟩
  · rintro ⟨p, hp⟩
    obtain ⟨b, hb, hba, _⟩ := (mem_links pawn a p).1 hp
    exact ⟨b, hb, hba⟩

theorem links_map_fst (pawn : BonePawn) :
    (links pawn).map Prod.fst = pawn.bones.map (fun b => b.id) := by
  unfold links
  simp [List.map_map, Function.comp_def]

theorem parentStep_iff_links (pawn : BonePawn) (h : DistinctIds pawn) (a p : ID) :
    ParentStep pawn a p ↔ LinkStep (links pawn) a p := by
  unfold ParentStep LinkStep
  rw [parentOf_eq_some, mem_links]
  constructor
  · rintro ⟨pre, b, suf, e, hb, _, hp⟩
    exact ⟨b, by simp [e], hb, hp⟩
  · rintro ⟨b, hb, hba, hp⟩
    obtain ⟨pre, suf, e⟩ := List.append_of_mem hb
    refine ⟨pre, b, suf, e, hba, ?_, hp⟩
    intro c hc hca
    unfold DistinctIds at h
    rw [e, List.map_append, List.map_cons] at h
    have hd := (List.nodup_append.1 h).2.2
    exact hd (List.mem_map_of_mem (fun b => b.id) hc) (by simp [hca, hba])

theorem wellFormed_iff_links (pawn : BonePawn) : WellFormed pawn ↔ LinksWF (links pawn) := by
  unfold WellFormed LinksWF
  rw [links_map_fst]
  constructor
  · rintro ⟨h1, h2, h3, h4⟩
    refine ⟨h1, ?_, ?_, ?_⟩
    · rintro ⟨a, p⟩ hl
      obtain ⟨b, hb, hba, _⟩ := (mem_links pawn a p).1 hl
      simpa [hba] using h2 b hb
    · rintro ⟨a, p⟩ hl
      obtain ⟨b, hb, _, hbp⟩ := (mem_links pawn a p).1 hl
      rcases h3 b hb with h | h
      · left; simpa [hbp] using h
      · right
        rw [hbp] at h
        exact (hasId_iff_links pawn p).1 h
    · intro a ha
      apply h4 a
      exact Relation.TransGen.mono (fun x y hxy => (parentStep_iff_links pawn h1 x y).2 hxy) ha
  · rintro ⟨h1, h2, h3, h4⟩
    refine ⟨h1, ?_, ?_, ?_⟩
    · intro b hb
      exact h2 (b.id, b.parent) ((mem_links pawn _ _).2 ⟨b, hb, rfl, rfl⟩)
    · intro b hb
      rcases h3 (b.id, b.parent) ((mem_links pawn _ _).2 ⟨b, hb, rfl, rfl⟩) with h | h
      · left; exact h
      · right; exact (hasId_iff_links pawn _).2 h
    · intro a ha
      apply h4 a
      exact Relation.TransGen.mono (fun x y hxy => (parentStep_iff_links pawn h1 x y).1 hxy) ha

theorem parentsClosed_iff_links (pawn : BonePawn) :
    ParentsClosed pawn ↔ LinksClosed (links pawn) := by
  unfold ParentsClosed LinksClosed
  constructor
  · rintro h ⟨a, p⟩ hl
    obtain ⟨b, hb, _, hbp⟩ := (mem_links pawn a p).1 hl
    rcases h b hb with h | h
    · left; simpa [hbp] using h
    · right
      rw [hbp] at h
      exact (hasId_iff_links pawn p).1 h
  · intro h b hb
    rcases h (b.id, b.parent) ((mem_links pawn _ _).2 ⟨b, hb, rfl, rfl⟩) with h | h
    · left; exact h
    · right; exact (hasId_iff_links pawn _).2 h

theorem linkStep_perm {ls ms : List (ID × ID)} (h : ls.Perm ms) : LinkStep ls = LinkStep ms := by
  funext a b
  exact propext h.mem_iff

theorem linksWF_perm {ls ms : List (ID × ID)} (h : ls.Perm ms) (hw : LinksWF ls) : LinksWF ms := by
  obtain ⟨h1, h2, h3, h4⟩ := hw
  refine ⟨(h.map Prod.fst).nodup_iff.1 h1, ?_, ?_, ?_⟩
  · intro l hl
    exact h2 l (h.mem_iff.2 hl)
  · intro l hl
    rcases h3 l (h.mem_iff.2 hl) with h5 | ⟨q, hq⟩
    · left; exact h5
    · right; exact ⟨q, h.mem_iff.1 hq⟩
  · rw [← linkStep_perm h]
    exact h4

theorem linksClosed_perm {ls ms : List (ID × ID)} (h : ls.Perm ms) (hw : LinksClosed ls) :
    LinksClosed ms := by
  intro l hl
  rcases hw l (h.mem_iff.2 hl) with h5 | ⟨q, hq⟩
  · left; exact h5
  · right; exact ⟨q, h.mem_iff.1 hq⟩

/-! ### A new pair with a fresh id -/

theorem linksWF_cons (ls : List (ID × ID)) (n p : ID) (hw : LinksWF ls) (hn : 1 ≤ n)
    (hfresh : ∀ q, (n, q) ∉ ls) (hp : p ≤ 0 ∨ ∃ q, (p, q) ∈ ls) : LinksWF ((n, p) :: ls) := by
  obtain ⟨h1, h2, h3, h4⟩ := hw
  have hpn : p ≠ n := by
    rintro rfl
    rcases hp with hp | ⟨q, hq⟩
    · exact absurd (le_trans hn hp) (by decide)
    · exact hfresh q hq
  have hinto : ∀ x, ¬ LinkStep ((n, p) :: ls) x n := by
    intro x hx
    rcases List.mem_cons.1 hx with hx | hx
    · exact hpn (Prod.mk.inj hx).2.symm
    · rcases h3 (x, n) hx with h5 | ⟨q, hq⟩
      · exact absurd (le_trans hn h5) (by decide)
      · exact hfresh q hq
  have hold : ∀ a b, a ≠ n → Relation.TransGen (LinkStep ((n, p) :: ls)) a b →
      Relation.TransGen (LinkStep ls) a b := by
    intro a b ha hab
    induction hab with
    | single hs =>
      rcases List.mem_cons.1 hs with hs | hs
      · exact absurd (Prod.mk.inj hs).1 ha
      · exact Relation.TransGen.single hs
    | tail hac hcb ih =>
      rename_i c d
      have hc : c ≠ n := by
        rintro rfl
        obtain ⟨y, _, hy⟩ := Relation.TransGen.tail'_iff.1 hac
        exact hinto y hy
      rcases List.mem_cons.1 hcb with hs | hs
      · exact absurd (Prod.mk.inj hs).1 hc
      · exact ih.tail hs
  refine ⟨?_, ?_, ?_, ?_⟩
  · rw [List.map_cons, List.nodup_cons]
    refine ⟨?_, h1⟩
    intro hmem
    obtain ⟨l, hl, hln⟩ := List.mem_map.1 hmem
    apply hfresh l.2
    have : l = (n, l.2) := Prod.ext hln rfl
    rw [← this]
    exact hl
  · intro l hl
    rcases List.mem_cons.1 hl with rfl | hl
    · exact hn
    · exact h2 l hl
  · intro l hl
    rcases List.mem_cons.1 hl with rfl | hl
    · rcases hp with hp | ⟨q, hq⟩
      · left; exact hp
      · right; exact ⟨q, List.mem_cons_of_mem _ hq⟩
    · rcases h3 l hl with h5 | ⟨q, hq⟩
      · left; exact h5
      · right; exact ⟨q, List.mem_cons_of_mem _ hq⟩
  · intro a ha
    have han : a ≠ n := by
      rintro rfl
      obtain ⟨y, _, hy⟩ := Relation.TransGen.tail'_iff.1 ha
      exact hinto y hy
    exact h4 a (hold a a han ha)

theorem linksClosed_cons (ls : List (ID × ID)) (n p : ID) (hw : LinksClosed ls)
    (hp : p = -1 ∨ ∃ q, (p, q) ∈ ls) : LinksClosed ((n, p) :: ls) := by
  intro l hl
  rcases List.mem_cons.1 hl with rfl | hl
  · rcases hp with hp | ⟨q, hq⟩
    · left; exact hp
    · right; exact ⟨q, List.mem_cons_of_mem _ hq⟩
  · rcases hw l hl with h5 | ⟨q, hq⟩
    · left; exact h5
    · right; exact ⟨q, List.mem_cons_of_mem _ hq⟩

/-! ### Removing a pair and splicing its children -/

theorem linkStep_splice (ls : List (ID × ID)) (r q : ID) {x y : ID}
    (h : LinkStep (ls.map (spliceLink r q)) x y) :
    Relation.TransGen (LinkStep ((r, q) :: ls)) x y := by
  unfold LinkStep at h
  obtain ⟨l, hl, hxy⟩ := List.mem_map.1 h
  obtain ⟨a, p⟩ := l
  unfold spliceLink at hxy
  simp only [Prod.mk.injEq] at hxy
  obtain ⟨rfl, hy⟩ := hxy
  by_cases hp : p = r
  · rw [if_pos hp] at hy
    subst hp hy
    exact Relation.TransGen.tail (Relation.TransGen.single (List.mem_cons_of_mem _ hl))
      (List.mem_cons_self _ _)
  · rw [if_neg hp] at hy
    subst hy
    exact Relation.TransGen.single (List.mem_cons_of_mem _ hl)

theorem linksWF_splice (ls : List (ID × ID)) (r q : ID) (hw : LinksWF ((r, q) :: ls)) :
    LinksWF (ls.map (spliceLink r q)) := by
  obtain ⟨h1, h2, h3, h4⟩ := hw
  have hfst : (ls.map (spliceLink r q)).map Prod.fst = ls.map Prod.fst := by
    simp [List.map_map, Function.comp_def, spliceLink]
  have hqr : q ≠ r := by
    rintro rfl
    exact h4 q (Relation.TransGen.single (List.mem_cons_self _ _))
  have hr : ∀ p, (r, p) ∉ ls := by
    intro p hp
    rw [List.map_cons, List.nodup_cons] at h1
    exact h1.1 (List.mem_map.2 ⟨(r, p), hp, rfl⟩)
  have hkeep : ∀ a p, (a, p) ∈ ls → (a, if p = r then q else p) ∈ ls.map (spliceLink r q) := by
    intro a p hap
    exact List.mem_map.2 ⟨(a, p), hap, rfl⟩
  refine ⟨?_, ?_, ?_, ?_⟩
  · rw [hfst]
    rw [List.map_cons, List.nodup_cons] at h1
    exact h1.2
  · intro l hl
    obtain ⟨l0, hl0, rfl⟩ := List.mem_map.1 hl
    exact h2 l0 (List.mem_cons_of_mem _ hl0)
  · intro l hl
    obtain ⟨⟨a, p⟩, hl0, rfl⟩ := List.mem_map.1 hl
    have target : ∀ t, (t ≤ 0 ∨ ∃ q2, (t, q2) ∈ (r, q) :: ls) → t ≠ r →
        t ≤ 0 ∨ ∃ q2, (t, q2) ∈ ls.map (spliceLink r q) := by
      intro t ht htr
      rcases ht with ht | ⟨q2, hq2⟩
      · left; exact ht
      · right
        rcases List.mem_cons.1 hq2 with hq2 | hq2
        · exact absurd (Prod.mk.inj hq2).1 htr
        · exact ⟨_, hkeep t q2 hq2⟩
    simp only [spliceLink]
    by_cases hp : p = r
    · rw [if_pos hp]
      exact target q (h3 (r, q) (List.mem_cons_self _ _)) hqr
    · rw [if_neg hp]
      exact target p (h3 (a, p) (List.mem_cons_of_mem _ hl0)) hp
  · intro a ha
    apply h4 a
    have : ∀ x y, Relation.TransGen (LinkStep (ls.map (spliceLink r q))) x y →
        Relation.TransGen (LinkStep ((r, q) :: ls)) x y := by
      intro x y hxy
      induction hxy with
      | single hs => exact linkStep_splice ls r q hs
      | tail _ hs ih => exact ih.trans (linkStep_splice ls r q hs)
    exact this a a ha

theorem linksClosed_splice (ls : List (ID × ID)) (r q : ID) (hw : LinksWF ((r, q) :: ls))
    (hc : LinksClosed ((r, q) :: ls)) : LinksClosed (ls.map (spliceLink r q)) := by
  obtain ⟨_, _, _, h4⟩ := hw
  have hqr : q ≠ r := by
    rintro rfl
    exact h4 q (Relation.TransGen.single (List.mem_cons_self _ _))
  intro l hl
  obtain ⟨⟨a, p⟩, hl0, rfl⟩ := List.mem_map.1 hl
  have target : ∀ t, (t = -1 ∨ ∃ q2, (t, q2) ∈ (r, q) :: ls) → t ≠ r →
      t = -1 ∨ ∃ q2, (t, q2) ∈ ls.map (spliceLink r q) := by
    intro t ht htr
    rcases ht with ht | ⟨q2, hq2⟩
    · left; exact ht
    · right
      rcases List.mem_cons.1 hq2 with hq2 | hq2
      · exact absurd (Prod.mk.inj hq2).1 htr
      · exact ⟨_, List.mem_map.2 ⟨(t, q2), hq2, rfl⟩⟩
  simp only [spliceLink]
  by_cases hp : p = r
  · rw [if_pos hp]
    exact target q (hc (r, q) (List.mem_cons_self _ _)) hqr
  · rw [if_neg hp]
    exact target p (hc (a, p) (List.mem_cons_of_mem _ hl0)) hp

/-! ## What each bone command does to the `(id, parent)` pairs -/

theorem links_append_cons (pawn : BonePawn) (pre : List BoneData) (b : BoneData)
    (suf : List BoneData) (e : pawn.bones = pre ++ b :: suf) :
    links pawn = pre.map (fun b => (b.id, b.parent)) ++ (b.id, b.parent) ::
      suf.map (fun b => (b.id, b.parent)) := by
  unfold links
  rw [e]
  simp

theorem links_splice (bs : List BoneData) (r q : ID) :
    (bs.map (spliceParent r q)).map (fun b => (b.id, b.parent)) =
      (bs.map (fun b => (b.id, b.parent))).map (spliceLink r q) := by
  induction bs with
  | nil => rfl
  | cons b t ih =>
    simp only [List.map_cons, ih, List.cons.injEq, and_true]
    unfold spliceParent spliceLink
    by_cases h : b.parent = r <;> simp [h]

/-- The first bone with a given id splits the vector in one way only. -/
theorem first_split_unique (a : ID) (pre1 pre2 : List BoneData) (b1 b2 : BoneData)
    (suf1 suf2 : List BoneData) (e : pre1 ++ b1 :: suf1 = pre2 ++ b2 :: suf2)
    (h1 : b1.id = a) (h2 : b2.id = a) (hp1 : ∀ c ∈ pre1, c.id ≠ a) (hp2 : ∀ c ∈ pre2, c.id ≠ a) :
    pre1 = pre2 ∧ b1 = b2 ∧ suf1 = suf2 := by
  rcases List.append_eq_append_iff.1 e with ⟨t, ht1, ht2⟩ | ⟨t, ht1, ht2⟩
  · cases t with
    | nil =>
      simp at ht1 ht2
      exact ⟨ht1.symm, ht2.1, ht2.2⟩
    | cons x t =>
      have hx : x = b1 := (List.cons.inj ht2).1.symm
      have : b1 ∈ pre2 := by rw [ht1]; simp [hx]
      exact absurd h1 (hp2 b1 this)
  · cases t with
    | nil =>
      simp at ht1 ht2
      exact ⟨ht1, ht2.1.symm, ht2.2.symm⟩
    | cons x t =>
      have hx : x = b2 := (List.cons.inj ht2).1.symm
      have : b2 ∈ pre1 := by rw [ht1]; simp [hx]
      exact absurd h2 (hp1 b2 this)

/-- A completed `cmdBoneAdd` adds one pair whose id is fresh and at least 1. -/
theorem links_after_add (L : Lib) (m m1 : PoseModel) (parentid : ID)
    (h : cmdBoneAdd L m parentid = .ok m1) :
    ∃ n, 1 ≤ n ∧ ¬ HasId m.m_BonePawn n ∧
      (links m1.m_BonePawn).Perm ((n, parentid) :: links m.m_BonePawn) := by
  obtain ⟨id, name, hid, _, hshape⟩ := cmdBoneAdd_ok L m m1 parentid h
  unfold getUniqueBoneId at hid
  obtain ⟨h1, _, h3, _⟩ := uniqueIdLoop_some _ _ _ _ hid
  refine ⟨id, h1, h3, ?_⟩
  rcases hshape with ⟨_, pre, b, suf, e, _, _, hm1⟩ | ⟨_, hm1⟩
  · subst hm1
    rw [links_append_cons m.m_BonePawn pre b suf e]
    have : links (withBones (delta m) (pre ++ b :: newBone L id parentid name :: suf)).m_BonePawn
        = (pre.map (fun b => (b.id, b.parent)) ++ [(b.id, b.parent)]) ++ (id, parentid) ::
            suf.map (fun b => (b.id, b.parent)) := by
      simp [links, withBones, newBone]
    rw [this]
    refine List.perm_middle.trans ?_
    simp
  · subst hm1
    have : links (withBones (delta m) (m.m_BonePawn.bones ++ [newBone L id parentid name])).m_BonePawn
        = links m.m_BonePawn ++ [(id, parentid)] := by
      simp [links, withBones, newBone]
    rw [this]
    exact List.perm_append_singleton _ _

/-- The command `cmdBoneRemove` leaves the model alone or drops one pair and
splices the parents that named it. -/
theorem links_after_remove (m : PoseModel) (boneid : ID) :
    cmdBoneRemove m boneid = m ∨
    ∃ q ls, (links m.m_BonePawn).Perm ((boneid, q) :: ls) ∧
      links (cmdBoneRemove m boneid).m_BonePawn = ls.map (spliceLink boneid q) := by
  rcases pawnFindBoneId_split m.m_BonePawn boneid with ⟨_, h2⟩ | ⟨pre, B, suf, e, hb, _, hfind⟩
  · left
    exact cmdBoneRemove_absent m boneid h2
  · right
    refine ⟨B.parent, (pre ++ suf).map (fun b => (b.id, b.parent)), ?_, ?_⟩
    · rw [links_append_cons m.m_BonePawn pre B suf e, hb]
      simp
    · rw [cmdBoneRemove_found m boneid pre B suf e hfind]
      exact links_splice (pre ++ suf) boneid B.parent

theorem links_after_moveUp (m : PoseModel) (boneid : ID) :
    (links (cmdBoneMoveUp m boneid).m_BonePawn).Perm (links m.m_BonePawn) := by
  rcases cmdBoneMoveUp_shape m boneid with h | ⟨pre, a, b, suf, e, _, _, h⟩
  · rw [h]
  · rw [h]
    simp only [links, withBones, delta, e, List.map_append, List.map_cons]
    exact List.Perm.append_left _ (List.Perm.swap _ _ _)

theorem links_after_moveDown (m : PoseModel) (boneid : ID) :
    (links (cmdBoneMoveDown m boneid).m_BonePawn).Perm (links m.m_BonePawn) := by
  rcases cmdBoneMoveDown_shape m boneid with h | ⟨pre, a, b, suf, e, _, _, h⟩
  · rw [h]
  · rw [h]
    simp only [links, withBones, delta, e, List.map_append, List.map_cons]
    exact List.Perm.append_left _ (List.Perm.swap _ _ _)

theorem links_after_setName (m : PoseModel) (boneid : ID) (name : String) :
    links (cmdBoneSetName m boneid name).m_BonePawn = links m.m_BonePawn := by
  rcases cmdBoneSetName_shape m boneid name with h | ⟨pre, b, suf, e, _, _, _, h⟩
  · rw [h]
  · rw [h]
    simp [links, withBones, delta, e]

theorem links_after_setRotation (L : Lib) (m : PoseModel) (boneid : ID) (euler : Vec3) :
    links (cmdBoneSetRotation L m boneid euler).m_BonePawn = links m.m_BonePawn := by
  rcases cmdBoneSetRotation_shape L m boneid euler with ⟨_, h⟩ | ⟨pre, b, suf, e, _, _, h⟩
  · rw [h]
  · rw [h]
    simp [links, withBones, delta, e]

/-- The command `cmdBoneSetParent` leaves the model alone or replaces the
parent in the pair of the first bone with the id. -/
theorem links_after_setParent (m : PoseModel) (boneid parentid : ID) :
    cmdBoneSetParent m boneid parentid = m ∨
    ∃ lpre q lsuf, links m.m_BonePawn = lpre ++ (boneid, q) :: lsuf ∧
      links (cmdBoneSetParent m boneid parentid).m_BonePawn = lpre ++ (boneid, parentid) :: lsuf := by
  rw [cmdBoneSetParent_eq]
  by_cases hc : HasId m.m_BonePawn boneid ∧
      pawnTestBoneParentLoop (writeParent m.m_BonePawn boneid parentid) boneid = true
  · right
    rw [if_pos hc]
    rcases pawnFindBoneId_split m.m_BonePawn boneid with ⟨_, h2⟩ | ⟨pre, b, suf, e, hb, _, hfind⟩
    · exact absurd hc.1 h2
    · refine ⟨pre.map (fun b => (b.id, b.parent)), b.parent, suf.map (fun b => (b.id, b.parent)),
        ?_, ?_⟩
      · rw [links_append_cons m.m_BonePawn pre b suf e, hb]
      · have hw := writeParent_bones m.m_BonePawn boneid parentid pre b suf e hfind
        have : links (delta { m with m_BonePawn := writeParent m.m_BonePawn boneid parentid }).m_BonePawn
            = (writeParent m.m_BonePawn boneid parentid).bones.map (fun b => (b.id, b.parent)) := rfl
        rw [this, hw]
        simp [hb]
  · left
    rw [if_neg hc]

/-! ## Preservation of the tree shape -/

theorem linksWF_replace (lpre lsuf : List (ID × ID)) (r q p : ID)
    (hw : LinksWF (lpre ++ (r, q) :: lsuf))
    (hp : p ≤ 0 ∨ ∃ q2, (p, q2) ∈ lpre ++ (r, q) :: lsuf)
    (hac : ∀ a, ¬ Relation.TransGen (LinkStep (lpre ++ (r, p) :: lsuf)) a a) :
    LinksWF (lpre ++ (r, p) :: lsuf) := by
  obtain ⟨h1, h2, h3, _⟩ := hw
  have hfst : (lpre ++ (r, p) :: lsuf).map Prod.fst = (lpre ++ (r, q) :: lsuf).map Prod.fst := by
    simp
  have hmem : ∀ l, l ∈ lpre ++ (r, p) :: lsuf → l = (r, p) ∨ l ∈ lpre ++ (r, q) :: lsuf := by
    intro l hl
    rcases List.mem_append.1 hl with hl | hl
    · right; exact List.mem_append_left _ hl
    · rcases List.mem_cons.1 hl with hl | hl
      · left; exact hl
      · right; exact List.mem_append_right _ (List.mem_cons_of_mem _ hl)
  have hhas : ∀ t q2, (t, q2) ∈ lpre ++ (r, q) :: lsuf → ∃ q3, (t, q3) ∈ lpre ++ (r, p) :: lsuf := by
    intro t q2 ht
    rcases List.mem_append.1 ht with ht | ht
    · exact ⟨q2, List.mem_append_left _ ht⟩
    · rcases List.mem_cons.1 ht with ht | ht
      · refine ⟨p, List.mem_append_right _ ?_⟩
        rw [(Prod.mk.inj ht).1]
        exact List.mem_cons_self _ _
      · exact ⟨q2, List.mem_append_right _ (List.mem_cons_of_mem _ ht)⟩
  refine ⟨by rw [hfst]; exact h1, ?_, ?_, hac⟩
  · intro l hl
    rcases hmem l hl with rfl | hl
    · exact h2 (r, q) (by simp)
    · exact h2 l hl
  · intro l hl
    have key : ∀ t, (t ≤ 0 ∨ ∃ q2, (t, q2) ∈ lpre ++ (r, q) :: lsuf) →
        t ≤ 0 ∨ ∃ q3, (t, q3) ∈ lpre ++ (r, p) :: lsuf := by
      intro t ht
      rcases ht with ht | ⟨q2, hq2⟩
      · left; exact ht
      · right; exact hhas t q2 hq2
    rcases hmem l hl with rfl | hl
    · exact key p hp
    · exact key l.2 (h3 l hl)

theorem linksClosed_replace (lpre lsuf : List (ID × ID)) (r q p : ID)
    (hw : LinksClosed (lpre ++ (r, q) :: lsuf))
    (hp : p = -1 ∨ ∃ q2, (p, q2) ∈ lpre ++ (r, q) :: lsuf) :
    LinksClosed (lpre ++ (r, p) :: lsuf) := by
  have hmem : ∀ l, l ∈ lpre ++ (r, p) :: lsuf → l = (r, p) ∨ l ∈ lpre ++ (r, q) :: lsuf := by
    intro l hl
    rcases List.mem_append.1 hl with hl | hl
    · right; exact List.mem_append_left _ hl
    · rcases List.mem_cons.1 hl with hl | hl
      · left; exact hl
      · right; exact List.mem_append_right _ (List.mem_cons_of_mem _ hl)
  have hhas : ∀ t q2, (t, q2) ∈ lpre ++ (r, q) :: lsuf → ∃ q3, (t, q3) ∈ lpre ++ (r, p) :: lsuf := by
    intro t q2 ht
    rcases List.mem_append.1 ht with ht | ht
    · exact ⟨q2, List.mem_append_left _ ht⟩
    · rcases List.mem_cons.1 ht with ht | ht
      · refine ⟨p, List.mem_append_right _ ?_⟩
        rw [(Prod.mk.inj ht).1]
        exact List.mem_cons_self _ _
      · exact ⟨q2, List.mem_append_right _ (List.mem_cons_of_mem _ ht)⟩
  intro l hl
  have key : ∀ t, (t = -1 ∨ ∃ q2, (t, q2) ∈ lpre ++ (r, q) :: lsuf) →
      t = -1 ∨ ∃ q3, (t, q3) ∈ lpre ++ (r, p) :: lsuf := by
    intro t ht
    rcases ht with ht | ⟨q2, hq2⟩
    · left; exact ht
    · right; exact hhas t q2 hq2
  rcases hmem l hl with rfl | hl
  · exact key p hp
  · exact key l.2 (hw l hl)

/-- Each bone command whose parent argument is not positive or names a bone of
the graph keeps the graph well formed. -/
theorem wellFormed_exec (L : Lib) (m m1 : PoseModel) (c : Cmd) (hb : c.isBoneCmd = true)
    (hk : c.parentKnown m.m_BonePawn) (hw : WellFormed m.m_BonePawn)
    (he : c.exec L m = .ok m1) : WellFormed m1.m_BonePawn := by
  have hperm : ∀ p : BonePawn, (links p).Perm (links m.m_BonePawn) → WellFormed p := by
    intro p hp
    exact (wellFormed_iff_links p).2 (linksWF_perm hp.symm ((wellFormed_iff_links _).1 hw))
  cases c with
  | setPawn _ => simp [Cmd.isBoneCmd] at hb
  | setFilePath _ => simp [Cmd.isBoneCmd] at hb
  | setFileName _ => simp [Cmd.isBoneCmd] at hb
  | setLoaded _ => simp [Cmd.isBoneCmd] at hb
  | setSaved _ => simp [Cmd.isBoneCmd] at hb
  | boneAdd parentid =>
    obtain ⟨n, hn1, hn2, hp⟩ := links_after_add L m m1 parentid he
    refine (wellFormed_iff_links _).2 (linksWF_perm hp.symm ?_)
    refine linksWF_cons _ n parentid ((wellFormed_iff_links _).1 hw) hn1 ?_ ?_
    · intro q hq
      exact hn2 ((hasId_iff_links _ _).2 ⟨q, hq⟩)
    · rcases hk with h | h
      · left; exact h
      · right; exact (hasId_iff_links _ _).1 h
  | boneRemove boneid =>
    have he2 : m1 = cmdBoneRemove m boneid := (Except.ok.inj he).symm
    subst he2
    rcases links_after_remove m boneid with h | ⟨q, ls, hp, hl⟩
    · rw [h]; exact hw
    · refine (wellFormed_iff_links _).2 ?_
      rw [hl]
      exact linksWF_splice ls boneid q (linksWF_perm hp ((wellFormed_iff_links _).1 hw))
  | boneMoveUp boneid =>
    have he2 : m1 = cmdBoneMoveUp m boneid := (Except.ok.inj he).symm
    subst he2
    exact hperm _ (links_after_moveUp m boneid)
  | boneMoveDown boneid =>
    have he2 : m1 = cmdBoneMoveDown m boneid := (Except.ok.inj he).symm
    subst he2
    exact hperm _ (links_after_moveDown m boneid)
  | boneSetRotation boneid euler =>
    have he2 : m1 = cmdBoneSetRotation L m boneid euler := (Except.ok.inj he).symm
    subst he2
    exact hperm _ (by rw [links_after_setRotation])
  | boneSetName boneid name =>
    have he2 : m1 = cmdBoneSetName m boneid name := (Except.ok.inj he).symm
    subst he2
    exact hperm _ (by rw [links_after_setName])
  | boneSetParent boneid parentid =>
    have he2 : m1 = cmdBoneSetParent m boneid parentid := (Except.ok.inj he).symm
    subst he2
    have hac := acyclic_after_setParent m boneid parentid hw.2.2.2
    rcases links_after_setParent m boneid parentid with h | ⟨lpre, q, lsuf, e1, e2⟩
    · rw [h]; exact hw
    · have hwl := (wellFormed_iff_links _).1 hw
      rw [e1] at hwl
      have hfst : (cmdBoneSetParent m boneid parentid).m_BonePawn.bones.map (fun b => b.id)
          = m.m_BonePawn.bones.map (fun b => b.id) := by
        rw [← links_map_fst, ← links_map_fst, e1, e2]
        simp
      have hd : DistinctIds (cmdBoneSetParent m boneid parentid).m_BonePawn := by
        unfold DistinctIds
        rw [hfst]
        exact hw.1
      refine (wellFormed_iff_links _).2 ?_
      rw [e2]
      refine linksWF_replace lpre lsuf boneid q parentid hwl ?_ ?_
      · rcases hk with h | h
        · left; exact h
        · right
          rw [← e1]
          exact (hasId_iff_links _ _).1 h
      · intro a ha
        rw [← e2] at ha
        exact hac a (Relation.TransGen.mono
          (fun x y hxy => (parentStep_iff_links _ hd x y).2 hxy) ha)

/-- Each bone command whose parent argument is `-1` or names a bone of the graph
keeps every parent inside the graph, on a well-formed graph. -/
theorem parentsClosed_exec (L : Lib) (m m1 : PoseModel) (c : Cmd) (hb : c.isBoneCmd = true)
    (hk : c.parentPresent m.m_BonePawn) (hw : WellFormed m.m_BonePawn)
    (hc : ParentsClosed m.m_BonePawn) (he : c.exec L m = .ok m1) :
    ParentsClosed m1.m_BonePawn := by
  have hperm : ∀ p : BonePawn, (links p).Perm (links m.m_BonePawn) → ParentsClosed p := by
    intro p hp
    exact (parentsClosed_iff_links p).2
      (linksClosed_perm hp.symm ((parentsClosed_iff_links _).1 hc))
  cases c with
  | setPawn _ => simp [Cmd.isBoneCmd] at hb
  | setFilePath _ => simp [Cmd.isBoneCmd] at hb
  | setFileName _ => simp [Cmd.isBoneCmd] at hb
  | setLoaded _ => simp [Cmd.isBoneCmd] at hb
  | setSaved _ => simp [Cmd.isBoneCmd] at hb
  | boneAdd parentid =>
    obtain ⟨n, _, _, hp⟩ := links_after_add L m m1 parentid he
    refine (parentsClosed_iff_links _).2 (linksClosed_perm hp.symm ?_)
    refine linksClosed_cons _ n parentid ((parentsClosed_iff_links _).1 hc) ?_
    rcases hk with h | h
    · left; exact h
    · right; exact (hasId_iff_links _ _).1 h
  | boneRemove boneid =>
    have he2 : m1 = cmdBoneRemove m boneid := (Except.ok.inj he).symm
    subst he2
    rcases links_after_remove m boneid with h | ⟨q, ls, hp, hl⟩
    · rw [h]; exact hc
    · refine (parentsClosed_iff_links _).2 ?_
      rw [hl]
      exact linksClosed_splice ls boneid q (linksWF_perm hp ((wellFormed_iff_links _).1 hw))
        (linksClosed_perm hp ((parentsClosed_iff_links _).1 hc))
  | boneMoveUp boneid =>
    have he2 : m1 = cmdBoneMoveUp m boneid := (Except.ok.inj he).symm
    subst he2
    exact hperm _ (links_after_moveUp m boneid)
  | boneMoveDown boneid =>
    have he2 : m1 = cmdBoneMoveDown m boneid := (Except.ok.inj he).symm
    subst he2
    exact hperm _ (links_after_moveDown m boneid)
  | boneSetRotation boneid euler =>
    have he2 : m1 = cmdBoneSetRotation L m boneid euler := (Except.ok.inj he).symm
    subst he2
    exact hperm _ (by rw [links_after_setRotation])
  | boneSetName boneid name =>
    have he2 : m1 = cmdBoneSetName m boneid name := (Except.ok.inj he).symm
    subst he2
    exact hperm _ (by rw [links_after_setName])
  | boneSetParent boneid parentid =>
    have he2 : m1 = cmdBoneSetParent m boneid parentid := (Except.ok.inj he).symm
    subst he2
    rcases links_after_setParent m boneid parentid with h | ⟨lpre, q, lsuf, e1, e2⟩
    · rw [h]; exact hc
    · have hcl := (parentsClosed_iff_links _).1 hc
      rw [e1] at hcl
      refine (parentsClosed_iff_links _).2 ?_
      rw [e2]
      refine linksClosed_replace lpre lsuf boneid q parentid hcl ?_
      rcases hk with h | h
      · left; exact h
      · right
        rw [← e1]
        exact (hasId_iff_links _ _).1 h

/-! ## Display names under the bone commands -/

theorem hasName_iff_mem (pawn : BonePawn) (n : String) :
    HasName pawn n ↔ n ∈ pawn.bones.map (fun b => b.displayName) := by
  unfold HasName
  simp only [List.mem_map]

theorem names_splice (bs : List BoneData) (r q : ID) :
    (bs.map (spliceParent r q)).map (fun b => b.displayName) = bs.map (fun b => b.displayName) := by
  induction bs with
  | nil => rfl
  | cons b t ih =>
    simp only [List.map_cons, ih, List.cons.injEq, and_true]
    unfold spliceParent
    by_cases h : b.parent = r <;> simp [h]

/-- Each bone command keeps the display names pairwise distinct. -/
theorem distinctNames_exec (L : Lib) (m m1 : PoseModel) (c : Cmd) (hb : c.isBoneCmd = true)
    (hd : DistinctNames m.m_BonePawn) (he : c.exec L m = .ok m1) :
    DistinctNames m1.m_BonePawn := by
  unfold DistinctNames at hd ⊢
  cases c with
  | setPawn _ => simp [Cmd.isBoneCmd] at hb
  | setFilePath _ => simp [Cmd.isBoneCmd] at hb
  | setFileName _ => simp [Cmd.isBoneCmd] at hb
  | setLoaded _ => simp [Cmd.isBoneCmd] at hb
  | setSaved _ => simp [Cmd.isBoneCmd] at hb
  | boneAdd parentid =>
    obtain ⟨id, name, _, hname, hshape⟩ := cmdBoneAdd_ok L m m1 parentid he
    unfold getUniqueBoneName at hname
    obtain ⟨N, _, _, hN, hfresh, _⟩ := uniqueNameLoop_some _ _ _ _ hname
    rw [← hN, hasName_iff_mem] at hfresh
    have hcons : (name :: m.m_BonePawn.bones.map (fun b => b.displayName)).Nodup :=
      List.nodup_cons.2 ⟨hfresh, hd⟩
    rcases hshape with ⟨_, pre, b, suf, e, _, _, hm1⟩ | ⟨_, hm1⟩
    · subst hm1
      rw [e] at hcons
      have : (withBones (delta m) (pre ++ b :: newBone L id parentid name :: suf)).m_BonePawn.bones.map
          (fun b => b.displayName) = (pre.map (fun b => b.displayName) ++ [b.displayName]) ++
            name :: suf.map (fun b => b.displayName) := by
        simp [withBones, newBone]
      rw [this]
      refine List.nodup_middle.2 ?_
      simpa using hcons
    · subst hm1
      have : (withBones (delta m) (m.m_BonePawn.bones ++ [newBone L id parentid name])).m_BonePawn.bones.map
          (fun b => b.displayName) = m.m_BonePawn.bones.map (fun b => b.displayName) ++
            name :: [] := by
        simp [withBones, newBone]
      rw [this]
      refine List.nodup_middle.2 ?_
      simpa using hcons
  | boneRemove boneid =>
    have he2 : m1 = cmdBoneRemove m boneid := (Except.ok.inj he).symm
    subst he2
    rcases pawnFindBoneId_split m.m_BonePawn boneid with ⟨_, h2⟩ | ⟨pre, B, suf, e, _, _, hfind⟩
    · rw [cmdBoneRemove_absent m boneid h2]; exact hd
    · rw [cmdBoneRemove_found m boneid pre B suf e hfind]
      have : ({ withBones m ((pre ++ suf).map (spliceParent boneid B.parent)) with
          m_Delta := true } : PoseModel).m_BonePawn.bones.map (fun b => b.displayName)
          = pre.map (fun b => b.displayName) ++ suf.map (fun b => b.displayName) := by
        simp only [withBones, names_splice, List.map_append]
      rw [this]
      rw [e, List.map_append, List.map_cons] at hd
      exact (List.nodup_cons.1 (List.nodup_middle.1 hd)).2
  | boneMoveUp boneid =>
    have he2 : m1 = cmdBoneMoveUp m boneid := (Except.ok.inj he).symm
    subst he2
    rcases cmdBoneMoveUp_shape m boneid with h | ⟨pre, a, b, suf, e, _, _, h⟩
    · rw [h]; exact hd
    · rw [h]
      rw [e] at hd
      simp only [withBones, delta, List.map_append, List.map_cons] at hd ⊢
      exact (List.Perm.append_left _ (List.Perm.swap _ _ _)).nodup_iff.1 hd
  | boneMoveDown boneid =>
    have he2 : m1 = cmdBoneMoveDown m boneid := (Except.ok.inj he).symm
    subst he2
    rcases cmdBoneMoveDown_shape m boneid with h | ⟨pre, a, b, suf, e, _, _, h⟩
    · rw [h]; exact hd
    · rw [h]
      rw [e] at hd
      simp only [withBones, delta, List.map_append, List.map_cons] at hd ⊢
      exact (List.Perm.append_left _ (List.Perm.swap _ _ _)).nodup_iff.1 hd
  | boneSetRotation boneid euler =>
    have he2 : m1 = cmdBoneSetRotation L m boneid euler := (Except.ok.inj he).symm
    subst he2
    rcases cmdBoneSetRotation_shape L m boneid euler with ⟨_, h⟩ | ⟨pre, b, suf, e, _, _, h⟩
    · rw [h]; exact hd
    · rw [h]
      rw [e] at hd
      simpa [withBones, delta] using hd
  | boneSetName boneid name =>
    have he2 : m1 = cmdBoneSetName m boneid name := (Except.ok.inj he).symm
    subst he2
    rcases cmdBoneSetName_shape m boneid name with h | ⟨pre, b, suf, e, _, _, hfresh, h⟩
    · rw [h]; exact hd
    · rw [h]
      rw [hasName_iff_mem, e] at hfresh
      rw [e] at hd
      simp only [withBones, delta, List.map_append, List.map_cons] at hd hfresh ⊢
      refine List.nodup_middle.2 (List.nodup_cons.2 ⟨?_, (List.nodup_cons.1 (List.nodup_middle.1 hd)).2⟩)
      intro hmem
      apply hfresh
      rcases List.mem_append.1 hmem with hmem | hmem
      · exact List.mem_append_left _ hmem
      · exact List.mem_append_right _ (List.mem_cons_of_mem _ hmem)
  | boneSetParent boneid parentid =>
    have he2 : m1 = cmdBoneSetParent m boneid parentid := (Except.ok.inj he).symm
    subst he2
    rw [cmdBoneSetParent_eq]
    by_cases hc : HasId m.m_BonePawn boneid ∧
        pawnTestBoneParentLoop (writeParent m.m_BonePawn boneid parentid) boneid = true
    · rw [if_pos hc]
      rcases pawnFindBoneId_split m.m_BonePawn boneid with ⟨_, h2⟩ | ⟨pre, b, suf, e, _, _, hfind⟩
      · exact absurd hc.1 h2
      · have hw := writeParent_bones m.m_BonePawn boneid parentid pre b suf e hfind
        have : (delta { m with m_BonePawn := writeParent m.m_BonePawn boneid parentid }).m_BonePawn.bones
            = (writeParent m.m_BonePawn boneid parentid).bones := rfl
        rw [this, hw]
        rw [e] at hd
        simpa using hd
    · rw [if_neg hc]; exact hd

/-! ## Runs of commands -/

/-- A property of the pawn kept by every admitted command holds after every
completed run of admitted commands. -/
theorem runCmds_invariant (L : Lib) (Inv : BonePawn → Prop) (ok : BonePawn → Cmd → Prop)
    (hstep : ∀ (m m1 : PoseModel) (c : Cmd), Inv m.m_BonePawn → ok m.m_BonePawn c →
      c.exec L m = .ok m1 → Inv m1.m_BonePawn) :
    ∀ (cmds : List Cmd) (m m1 : PoseModel), Inv m.m_BonePawn → AlongRun L ok m cmds →
      runCmds L m cmds = .ok m1 → Inv m1.m_BonePawn := by
  intro cmds
  induction cmds with
  | nil =>
    intro m m1 hi _ hr
    have : m = m1 := Except.ok.inj hr
    rw [← this]
    exact hi
  | cons c cs ih =>
    intro m m1 hi ha hr
    unfold runCmds at hr
    unfold AlongRun at ha
    cases hex : c.exec L m with
    | error e => rw [hex] at hr; cases hr
    | ok m2 =>
      rw [hex] at hr ha
      exact ih m2 m1 (hstep m m2 c hi ha.1 hex) ha.2 hr

theorem alongRun_mono (L : Lib) (ok1 ok2 : BonePawn → Cmd → Prop)
    (h : ∀ p c, ok1 p c → ok2 p c) :
    ∀ (cmds : List Cmd) (m : PoseModel), AlongRun L ok1 m cmds → AlongRun L ok2 m cmds := by
  intro cmds
  induction cmds with
  | nil => intro m _; trivial
  | cons c cs ih =>
    intro m ha
    unfold AlongRun at ha ⊢
    refine ⟨h _ _ ha.1, ?_⟩
    cases hex : c.exec L m with
    | error e => trivial
    | ok m2 =>
      have h2 := ha.2
      rw [hex] at h2
      exact ih m2 h2

theorem untitled_bones : untitled.m_BonePawn.bones = [] := rfl

theorem wellFormed_of_no_bones (pawn : BonePawn) (h : pawn.bones = []) : WellFormed pawn := by
  refine ⟨by simp [DistinctIds, h], by simp [h], by simp [h], ?_⟩
  intro a ha
  obtain ⟨z, hz, _⟩ := Relation.TransGen.head'_iff.1 ha
  obtain ⟨b, hb, _⟩ := (parentOf_isSome_iff pawn a).1 ⟨z, hz⟩
  simp [h] at hb

theorem cmd_parentKnown_of_present (pawn : BonePawn) (c : Cmd) (h : c.parentPresent pawn) :
    c.parentKnown pawn := by
  have key : ∀ p : ID, (p = -1 ∨ HasId pawn p) → (p ≤ 0 ∨ HasId pawn p) := by
    intro p hp
    rcases hp with h1 | h1
    · left
      rw [h1]
      decide
    · right; exact h1
  cases c with
  | boneAdd parentid => exact key parentid h
  | boneSetParent boneid parentid => exact key parentid h
  | setPawn _ => trivial
  | setFilePath _ => trivial
  | setFileName _ => trivial
  | setLoaded _ => trivial
  | setSaved _ => trivial
  | boneRemove _ => trivial
  | boneMoveUp _ => trivial
  | boneMoveDown _ => trivial
  | boneSetRotation _ _ => trivial
  | boneSetName _ _ => trivial

theorem alongRun_of_forall (L : Lib) (P : Cmd → Prop) :
    ∀ (cmds : List Cmd) (m : PoseModel), (∀ c ∈ cmds, P c) →
      AlongRun L (fun _ c => P c) m cmds := by
  intro cmds
  induction cmds with
  | nil => intro m _; trivial
  | cons c cs ih =>
    intro m h
    unfold AlongRun
    refine ⟨h c (List.mem_cons_self _ _), ?_⟩
    cases hex : c.exec L m with
    | error e => trivial
    | ok m2 => exact ih m2 (fun c2 hc2 => h c2 (List.mem_cons_of_mem _ hc2))

/-! ## Ids under `add_bone` and `open_file` -/

theorem distinctIds_after_add (L : Lib) (m m1 : PoseModel) (parentid : ID)
    (hd : DistinctIds m.m_BonePawn) (h : cmdBoneAdd L m parentid = .ok m1) :
    DistinctIds m1.m_BonePawn := by
  obtain ⟨n, _, hn, hp⟩ := links_after_add L m m1 parentid h
  unfold DistinctIds at hd ⊢
  rw [← links_map_fst] at hd ⊢
  refine ((hp.map Prod.fst).nodup_iff).2 ?_
  rw [List.map_cons, List.nodup_cons]
  refine ⟨?_, hd⟩
  intro hmem
  obtain ⟨l, hl, hln⟩ := List.mem_map.1 hmem
  apply hn
  refine (hasId_iff_links _ _).2 ⟨l.2, ?_⟩
  have : l = (n, l.2) := Prod.ext hln rfl
  rw [← this]
  exact hl

theorem cmdOpenFile_bones (L : Lib) (m : PoseModel) (file : Option String) (path : String) :
    (cmdOpenFile L m file path).2.m_BonePawn.bones = m.m_BonePawn.bones ∨
    (cmdOpenFile L m file path).2.m_BonePawn.bones = (openFile L file path).bones := by
  unfold cmdOpenFile
  by_cases h : (openFile L file path).loaded = true
  · right
    simp [h, cmdSetSaved, cmdSetPawn, delta]
  · left
    simp [h]

theorem distinctIds_after_file_ops (L : Lib) :
    ∀ (ops : List FileOp) (m m1 : PoseModel), DistinctIds m.m_BonePawn →
      (∀ f p, FileOp.openFile f p ∈ ops → DistinctIds (openFile L f p)) →
      runFileOps L m ops = .ok m1 → DistinctIds m1.m_BonePawn := by
  intro ops
  induction ops with
  | nil =>
    intro m m1 hd _ hr
    have : m = m1 := Except.ok.inj hr
    rw [← this]
    exact hd
  | cons op rest ih =>
    intro m m1 hd hf hr
    have hf2 : ∀ f p, FileOp.openFile f p ∈ rest → DistinctIds (openFile L f p) :=
      fun f p hmem => hf f p (List.mem_cons_of_mem _ hmem)
    cases op with
    | addBone parentid =>
      unfold runFileOps at hr
      cases hex : cmdBoneAdd L m parentid with
      | error e => rw [hex] at hr; cases hr
      | ok m2 =>
        rw [hex] at hr
        exact ih m2 m1 (distinctIds_after_add L m m2 parentid hd hex) hf2 hr
    | openFile file path =>
      unfold runFileOps at hr
      refine ih _ m1 ?_ hf2 hr
      unfold DistinctIds
      rcases cmdOpenFile_bones L m file path with h | h
      · rw [h]; exact hd
      · rw [h]; exact hf file path (List.mem_cons_self _ _)

/-! ## Lookups at a known first occurrence -/

theorem pawnFindBoneId_of_first (pawn : BonePawn) (id : ID) (pre : List BoneData) (b : BoneData)
    (suf : List BoneData) (e : pawn.bones = pre ++ b :: suf) (hb : b.id = id)
    (hpre : ∀ c ∈ pre, c.id ≠ id) : pawnFindBoneId pawn id = (pre.length : Int) := by
  rcases pawnFindBoneId_split pawn id with ⟨_, h2⟩ | ⟨pre2, b2, suf2, e2, hb2, hp2, hf⟩
  · exact absurd ⟨b, by simp [e], hb⟩ h2
  · rw [e] at e2
    have := (first_split_unique id pre pre2 b b2 suf suf2 e2 hb hb2 hpre hp2).1
    rw [hf, this]

/-- An accepted `cmdBoneSetName`: the first bone with the id takes the name,
`saved` becomes `false` and the dirty flag is raised. -/
theorem cmdBoneSetName_accepted (m : PoseModel) (boneid : ID) (name : String)
    (pre : List BoneData) (b : BoneData) (suf : List BoneData)
    (e : m.m_BonePawn.bones = pre ++ b :: suf) (hb : b.id = boneid)
    (hpre : ∀ c ∈ pre, c.id ≠ boneid) (hname : ¬ HasName m.m_BonePawn name) :
    cmdBoneSetName m boneid name =
      { m_BonePawn := { m.m_BonePawn with
          bones := pre ++ { b with displayName := name } :: suf, saved := false }
        m_Delta := true } := by
  have hfind := pawnFindBoneId_of_first m.m_BonePawn boneid pre b suf e hb hpre
  have hn := (pawnFindBoneName_neg_iff m.m_BonePawn name).2 hname
  have hc : pawnFindBoneId m.m_BonePawn boneid ≥ 0 ∧ pawnFindBoneName m.m_BonePawn name < 0 :=
    ⟨by omega, hn⟩
  have e2 : (delta m).m_BonePawn.bones = pre ++ b :: suf := e
  unfold cmdBoneSetName
  simp only [hc, and_self, if_true]
  simp only [hfind, e2, boneAt_at_prefix, Int.toNat_ofNat, set_at_prefix]
  rfl

/-- An effective `cmdBoneMoveUp`: the first bone with the id is not at the front
and changes place with the bone before it. -/
theorem cmdBoneMoveUp_swaps (m : PoseModel) (boneid : ID)
    (pre : List BoneData) (a b : BoneData) (suf : List BoneData)
    (e : m.m_BonePawn.bones = pre ++ a :: b :: suf) (hb : b.id = boneid)
    (hpre : ∀ c ∈ pre ++ [a], c.id ≠ boneid) :
    cmdBoneMoveUp m boneid =
      { m_BonePawn := { m.m_BonePawn with bones := pre ++ b :: a :: suf, saved := false }
        m_Delta := true } := by
  have e1 : m.m_BonePawn.bones = (pre ++ [a]) ++ b :: suf := by simp [e]
  have hfind := pawnFindBoneId_of_first m.m_BonePawn boneid (pre ++ [a]) b suf e1 hb hpre
  have hf2 : pawnFindBoneId m.m_BonePawn boneid = (pre.length : Int) + 1 := by
    rw [hfind]; simp
  have hpos : (pre.length : Int) + 1 > 0 := by omega
  unfold cmdBoneMoveUp
  simp only [hf2, hpos, if_true, e, add_sub_cancel_right, (swapAt_adjacent pre a b suf).1]
  rfl

/-- An effective `cmdBoneMoveDown`: the first bone with the id is not at the end
and changes place with the bone after it. -/
theorem cmdBoneMoveDown_swaps (m : PoseModel) (boneid : ID)
    (pre : List BoneData) (a b : BoneData) (suf : List BoneData)
    (e : m.m_BonePawn.bones = pre ++ a :: b :: suf) (ha : a.id = boneid)
    (hpre : ∀ c ∈ pre, c.id ≠ boneid) (hsize : m.m_BonePawn.bones.length < 2 ^ 64) :
    cmdBoneMoveDown m boneid =
      { m_BonePawn := { m.m_BonePawn with bones := pre ++ b :: a :: suf, saved := false }
        m_Delta := true } := by
  have hfind := pawnFindBoneId_of_first m.m_BonePawn boneid pre a (b :: suf) e ha hpre
  have hlen : m.m_BonePawn.bones.length = pre.length + (suf.length + 2) := by
    rw [e]; simp
  have hc : pawnFindBoneId m.m_BonePawn boneid ≥ 0 ∧
      toSizeT (pawnFindBoneId m.m_BonePawn boneid) < sizeMinusOne m.m_BonePawn.bones.length := by
    rw [hfind]
    refine ⟨by omega, ?_⟩
    unfold toSizeT sizeMinusOne
    omega
  unfold cmdBoneMoveDown
  simp only [hc, and_self, if_true]
  rw [hfind, e, (swapAt_adjacent pre a b suf).2]
  rfl

theorem cmdBoneMoveUp_at_front (m : PoseModel) (boneid : ID) (b : BoneData)
    (suf : List BoneData) (e : m.m_BonePawn.bones = b :: suf) (hb : b.id = boneid) :
    cmdBoneMoveUp m boneid = m := by
  have hfind := pawnFindBoneId_of_first m.m_BonePawn boneid [] b suf e hb (by simp)
  unfold cmdBoneMoveUp
  simp [hfind]

theorem cmdBoneMoveDown_at_end (m : PoseModel) (boneid : ID) (pre : List BoneData)
    (b : BoneData) (e : m.m_BonePawn.bones = pre ++ [b]) (hb : b.id = boneid)
    (hpre : ∀ c ∈ pre, c.id ≠ boneid) : cmdBoneMoveDown m boneid = m := by
  have hfind := pawnFindBoneId_of_first m.m_BonePawn boneid pre b [] e hb hpre
  have hlen : m.m_BonePawn.bones.length = pre.length + 1 := by rw [e]; simp
  have hc : ¬ (pawnFindBoneId m.m_BonePawn boneid ≥ 0 ∧
      toSizeT (pawnFindBoneId m.m_BonePawn boneid) < sizeMinusOne m.m_BonePawn.bones.length) := by
    rw [hfind, hlen]
    unfold toSizeT sizeMinusOne
    omega
  unfold cmdBoneMoveDown
  simp [hc]

theorem cmdBoneMove_absent (m : PoseModel) (boneid : ID) (h : ¬ HasId m.m_BonePawn boneid) :
    cmdBoneMoveUp m boneid = m ∧ cmdBoneMoveDown m boneid = m := by
  have h1 := (pawnFindBoneId_neg_iff _ _).2 h
  have h2 : ¬ pawnFindBoneId m.m_BonePawn boneid > 0 := by omega
  have h3 : ¬ pawnFindBoneId m.m_BonePawn boneid ≥ 0 := by omega
  constructor
  · simp [cmdBoneMoveUp, h2]
  · simp [cmdBoneMoveDown, h3]

/-! ## Fields of a line and the field loop -/

theorem getField_splitComma (t : List Char) :
    splitComma t = (getField t).1 ::
      (match (getField t).2 with
        | some r => splitComma r
        | none => []) := by
  induction t with
  | nil => rfl
  | cons c cs ih =>
    by_cases hc : c = ','
    · simp [splitComma, getField, hc]
    · simp only [splitComma, getField, hc, if_false]
      rw [ih]

theorem parseFields_at_end (L : Lib) (k lc : Nat) (bone : BoneData) :
    parseFields L k lc none bone = some (bone, lc) := by
  cases k <;> rfl

/-- The field loop runs `boneParseCSVField` over the first `k` fields of the
text and counts the fields it consumed. -/
theorem parseFields_eq (L : Lib) :
    ∀ (k lc : Nat) (text : List Char) (bone : BoneData),
      parseFields L k lc (some text) bone =
        match parseFieldList L ((splitComma text).take k) lc bone with
        | none => none
        | some b => some (b, lc + min k (splitComma text).length) := by
  intro k
  induction k with
  | zero => intro lc text bone; simp [parseFields, parseFieldList]
  | succ k ih =>
    intro lc text bone
    rw [getField_splitComma text]
    simp only [parseFields, List.take_succ_cons, parseFieldList, List.length_cons]
    cases hp : boneParseCSVField L bone lc (String.mk (getField text).1) with
    | none => rfl
    | some bone1 =>
      simp only []
      cases hr : (getField text).2 with
      | none =>
        simp only [parseFields_at_end, List.take_nil, parseFieldList, List.length_nil]
        have : min (k + 1) (0 + 1) = 1 := by omega
        rw [this]
      | some r =>
        simp only []
        rw [ih (lc + 1) r bone1]
        cases parseFieldList L (List.take k (splitComma r)) (lc + 1) bone1 with
        | none => rfl
        | some b =>
          simp only [Option.some.injEq, Prod.mk.injEq, true_and]
          omega

theorem parseFieldList_cons (L : Lib) (f : List Char) (fs : List (List Char)) (lc : Nat)
    (bone b : BoneData) :
    parseFieldList L (f :: fs) lc bone = some b ↔
      ∃ bone1, boneParseCSVField L bone lc (String.mk f) = some bone1 ∧
        parseFieldList L fs (lc + 1) bone1 = some b := by
  simp only [parseFieldList]
  cases boneParseCSVField L bone lc (String.mk f) with
  | none => simp
  | some bone1 => simp

theorem boneParse_id (L : Lib) (bone b1 : BoneData) (v : String) :
    boneParseCSVField L bone 0 v = some b1 ↔ ∃ x, stoi v = some x ∧ b1 = { bone with id := x } := by
  simp only [boneParseCSVField, Option.map_eq_some']
  constructor
  · rintro ⟨x, hx, rfl⟩; exact ⟨x, hx, rfl⟩
  · rintro ⟨x, hx, rfl⟩; exact ⟨x, hx, rfl⟩

theorem boneParse_parent (L : Lib) (bone b1 : BoneData) (v : String) :
    boneParseCSVField L bone 1 v = some b1 ↔
      ∃ x, stoi v = some x ∧ b1 = { bone with parent := x } := by
  simp only [boneParseCSVField, Option.map_eq_some']
  constructor
  · rintro ⟨x, hx, rfl⟩; exact ⟨x, hx, rfl⟩
  · rintro ⟨x, hx, rfl⟩; exact ⟨x, hx, rfl⟩

theorem boneParse_quat (L : Lib) (bone b1 : BoneData) (v : String) (i : Nat) (hi : i < 4) :
    boneParseCSVField L bone (i + 2) v = some b1 ↔
      ∃ g, L.stof v = some g ∧ b1 = { bone with quaternion := bone.quaternion.setIdx i g } := by
  have h : i = 0 ∨ i = 1 ∨ i = 2 ∨ i = 3 := by omega
  rcases h with rfl | rfl | rfl | rfl <;>
  · simp only [boneParseCSVField, Option.map_eq_some']
    constructor
    · rintro ⟨x, hx, rfl⟩; exact ⟨x, hx, rfl⟩
    · rintro ⟨x, hx, rfl⟩; exact ⟨x, hx, rfl⟩

theorem boneParse_name (L : Lib) (bone b1 : BoneData) (f : List Char) :
    boneParseCSVField L bone 6 (String.mk f) = some b1 ↔
      ∃ c r, f = c :: r ∧ b1 = { bone with displayName := String.mk r } := by
  cases f with
  | nil => simp [boneParseCSVField]
  | cons c r =>
    have hv : boneParseCSVField L bone 6 (String.mk (c :: r)) =
        some { bone with displayName := String.mk r } := rfl
    rw [hv]
    constructor
    · intro h; exact ⟨c, r, rfl, (Option.some.inj h).symm⟩
    · rintro ⟨c2, r2, hcr, h⟩
      rw [h, (List.cons.inj hcr).2]

/-- Seven fields are accepted exactly when the two integers and the four
floats are read and the name field is not empty; the bone then holds those
values. -/
theorem parseFieldList_seven (L : Lib) (f0 f1 f2 f3 f4 f5 f6 : List Char) (b : BoneData) :
    parseFieldList L [f0, f1, f2, f3, f4, f5, f6] 0 (BoneData.init L) = some b ↔
      ∃ x0 x1 g2 g3 g4 g5 c r,
        stoi (String.mk f0) = some x0 ∧ stoi (String.mk f1) = some x1 ∧
        L.stof (String.mk f2) = some g2 ∧ L.stof (String.mk f3) = some g3 ∧
        L.stof (String.mk f4) = some g4 ∧ L.stof (String.mk f5) = some g5 ∧
        f6 = c :: r ∧
        b = { id := x0, parent := x1, quaternion := ⟨g2, g3, g4, g5⟩,
              eulerRotation := (BoneData.init L).eulerRotation, displayName := String.mk r } := by
  constructor
  · intro h
    obtain ⟨a0, h0, h⟩ := (parseFieldList_cons _ _ _ _ _ _).1 h
    obtain ⟨a1, h1, h⟩ := (parseFieldList_cons _ _ _ _ _ _).1 h
    obtain ⟨a2, h2, h⟩ := (parseFieldList_cons _ _ _ _ _ _).1 h
    obtain ⟨a3, h3, h⟩ := (parseFieldList_cons _ _ _ _ _ _).1 h
    obtain ⟨a4, h4, h⟩ := (parseFieldList_cons _ _ _ _ _ _).1 h
    obtain ⟨a5, h5, h⟩ := (parseFieldList_cons _ _ _ _ _ _).1 h
    obtain ⟨a6, h6, h⟩ := (parseFieldList_cons _ _ _ _ _ _).1 h
    obtain ⟨x0, e0, rfl⟩ := (boneParse_id L _ _ _).1 h0
    obtain ⟨x1, e1, rfl⟩ := (boneParse_parent L _ _ _).1 h1
    obtain ⟨g2, e2, rfl⟩ := (boneParse_quat L _ _ _ 0 (by omega)).1 h2
    obtain ⟨g3, e3, rfl⟩ := (boneParse_quat L _ _ _ 1 (by omega)).1 h3
    obtain ⟨g4, e4, rfl⟩ := (boneParse_quat L _ _ _ 2 (by omega)).1 h4
    obtain ⟨g5, e5, rfl⟩ := (boneParse_quat L _ _ _ 3 (by omega)).1 h5
    obtain ⟨c, r, e6, rfl⟩ := (boneParse_name L _ _ _).1 h6
    refine ⟨x0, x1, g2, g3, g4, g5, c, r, e0, e1, e2, e3, e4, e5, e6, ?_⟩
    simp only [parseFieldList, Option.some.injEq] at h
    rw [← h]
    rfl
  · rintro ⟨x0, x1, g2, g3, g4, g5, c, r, e0, e1, e2, e3, e4, e5, e6, rfl⟩
    refine (parseFieldList_cons _ _ _ _ _ _).2 ⟨_, (boneParse_id L _ _ _).2 ⟨x0, e0, rfl⟩, ?_⟩
    refine (parseFieldList_cons _ _ _ _ _ _).2 ⟨_, (boneParse_parent L _ _ _).2 ⟨x1, e1, rfl⟩, ?_⟩
    refine (parseFieldList_cons _ _ _ _ _ _).2
      ⟨_, (boneParse_quat L _ _ _ 0 (by omega)).2 ⟨g2, e2, rfl⟩, ?_⟩
    refine (parseFieldList_cons _ _ _ _ _ _).2
      ⟨_, (boneParse_quat L _ _ _ 1 (by omega)).2 ⟨g3, e3, rfl⟩, ?_⟩
    refine (parseFieldList_cons _ _ _ _ _ _).2
      ⟨_, (boneParse_quat L _ _ _ 2 (by omega)).2 ⟨g4, e4, rfl⟩, ?_⟩
    refine (parseFieldList_cons _ _ _ _ _ _).2
      ⟨_, (boneParse_quat L _ _ _ 3 (by omega)).2 ⟨g5, e5, rfl⟩, ?_⟩
    refine (parseFieldList_cons _ _ _ _ _ _).2 ⟨_, (boneParse_name L _ _ _).2 ⟨c, r, e6, rfl⟩, ?_⟩
    rfl

theorem seven_fields_of_length (fs : List (List Char)) (h : 7 ≤ fs.length) :
    ∃ f0 f1 f2 f3 f4 f5 f6 rest, fs = f0 :: f1 :: f2 :: f3 :: f4 :: f5 :: f6 :: rest := by
  rcases fs with _ | ⟨f0, _ | ⟨f1, _ | ⟨f2, _ | ⟨f3, _ | ⟨f4, _ | ⟨f5, _ | ⟨f6, rest⟩⟩⟩⟩⟩⟩⟩
  all_goals first
    | (simp at h; done)
    | exact ⟨f0, f1, f2, f3, f4, f5, f6, rest, rfl⟩

/-- A line is accepted by `parseLine` exactly when it says what the bone
holds. -/
theorem parseLine_eq_some_iff (L : Lib) (line : List Char) (bone : BoneData) :
    parseLine L line = some bone ↔ LineDecodes L line bone := by
  unfold parseLine LineDecodes
  rw [parseFields_eq]
  constructor
  · intro h
    cases hp : parseFieldList L (List.take ARG_COUNT (splitComma line)) 0 (BoneData.init L) with
    | none => rw [hp] at h; simp at h
    | some b =>
      rw [hp] at h
      simp only [] at h
      by_cases hlt : 0 + min ARG_COUNT (splitComma line).length < ARG_COUNT
      · rw [if_pos hlt] at h; cases h
      · rw [if_neg hlt] at h
        have hb : bone = { b with eulerRotation := quatToEuler L b.quaternion } :=
          (Option.some.inj h).symm
        have hlen : 7 ≤ (splitComma line).length := by
          unfold ARG_COUNT at hlt
          omega
        obtain ⟨f0, f1, f2, f3, f4, f5, f6, rest, hs⟩ := seven_fields_of_length _ hlen
        rw [hs] at hp
        have hp2 : parseFieldList L [f0, f1, f2, f3, f4, f5, f6] 0 (BoneData.init L) = some b := by
          simpa [ARG_COUNT] using hp
        obtain ⟨x0, x1, g2, g3, g4, g5, c, r, e0, e1, e2, e3, e4, e5, e6, rfl⟩ :=
          (parseFieldList_seven L f0 f1 f2 f3 f4 f5 f6 b).1 hp2
        subst hb
        exact ⟨f0, f1, f2, f3, f4, f5, f6, rest, c, hs, e0, e1, e2, e3, e4, e5, e6, rfl⟩
  · rintro ⟨f0, f1, f2, f3, f4, f5, f6, rest, c, hs, e0, e1, e2, e3, e4, e5, e6, he⟩
    have hp2 := (parseFieldList_seven L f0 f1 f2 f3 f4 f5 f6 _).2
      ⟨bone.id, bone.parent, bone.quaternion.x, bone.quaternion.y, bone.quaternion.z,
        bone.quaternion.w, c, bone.displayName.toList, e0, e1, e2, e3, e4, e5, e6, rfl⟩
    have hp : parseFieldList L (List.take ARG_COUNT (splitComma line)) 0 (BoneData.init L) =
        some { id := bone.id, parent := bone.parent,
               quaternion := ⟨bone.quaternion.x, bone.quaternion.y, bone.quaternion.z,
                 bone.quaternion.w⟩,
               eulerRotation := (BoneData.init L).eulerRotation,
               displayName := String.mk bone.displayName.toList } := by
      rw [hs]
      simpa [ARG_COUNT] using hp2
    rw [hp]
    have hlt : ¬ (0 + min ARG_COUNT (splitComma line).length < ARG_COUNT) := by
      rw [hs]
      unfold ARG_COUNT
      simp
    simp only []
    rw [if_neg hlt]
    cases bone with
    | mk id parent quaternion eulerRotation displayName =>
      cases quaternion with
      | mk x y z w =>
        simp only at he
        simp only [Option.some.injEq, BoneData.mk.injEq, true_and]
        exact ⟨he.symm, rfl⟩

/-! ## The line loop and `openFile` -/

theorem parseLines_some (L : Lib) :
    ∀ (lines : List (List Char)) (pawn pawn1 : BonePawn),
      parseLines L lines pawn = some pawn1 ↔
        ∃ bones, List.Forall₂ (fun line b => parseLine L line = some b) lines bones ∧
          pawn1 = { pawn with bones := pawn.bones ++ bones } := by
  intro lines
  induction lines with
  | nil =>
    intro pawn pawn1
    simp only [parseLines, Option.some.injEq]
    constructor
    · rintro rfl; exact ⟨[], List.Forall₂.nil, by simp⟩
    · rintro ⟨bones, hf, rfl⟩
      cases hf
      simp
  | cons line rest ih =>
    intro pawn pawn1
    simp only [parseLines]
    cases hp : parseLine L line with
    | none =>
      simp only [false_iff, reduceCtorEq]
      rintro ⟨bones, hf, _⟩
      cases hf with
      | cons h _ => rw [hp] at h; cases h
    | some bone =>
      simp only []
      rw [ih]
      constructor
      · rintro ⟨bones, hf, rfl⟩
        refine ⟨bone :: bones, List.Forall₂.cons hp hf, ?_⟩
        simp [pawnInsertBone]
      · rintro ⟨bones, hf, rfl⟩
        cases hf with
        | cons h hrest =>
          rename_i b bs
          rw [hp] at h
          have hb : bone = b := Option.some.inj h
          subst hb
          exact ⟨bs, hrest, by simp [pawnInsertBone]⟩

theorem parseLines_none (L : Lib) :
    ∀ (lines : List (List Char)) (pawn : BonePawn),
      parseLines L lines pawn = none ↔ ∃ line ∈ lines, parseLine L line = none := by
  intro lines
  induction lines with
  | nil => intro pawn; simp [parseLines]
  | cons line rest ih =>
    intro pawn
    simp only [parseLines]
    cases hp : parseLine L line with
    | none => simp [hp]
    | some bone =>
      simp only []
      rw [ih]
      simp [hp]

/-- A text with a line `parseLine` rejects is decoded to the failed graph. -/
theorem openFile_rejected (L : Lib) (text path : String) (line : List Char)
    (hmem : line ∈ readLines text.toList []) (hline : parseLine L line = none) :
    openFile L (some text) path = LOAD_FAILED path := by
  unfold openFile
  simp only []
  rw [(parseLines_none L _ _).2 ⟨line, hmem, hline⟩]

/-- A text whose lines `parseLine` all accepts is decoded to their bones, in
order, with the path, the file name and both flags set. -/
theorem openFile_accepted (L : Lib) (text path : String) (bones : List BoneData)
    (h : List.Forall₂ (fun line b => parseLine L line = some b) (readLines text.toList []) bones) :
    openFile L (some text) path =
      { bones := bones, originalFilePath := path, originalFileName := parseFilename path,
        loaded := true, saved := true } := by
  unfold openFile
  simp only []
  rw [(parseLines_some L _ _ _).2 ⟨bones, h, rfl⟩]
  simp

/-- The two outcomes of `openFile`: the failed graph, or a graph with both
flags set. -/
theorem openFile_outcome (L : Lib) (file : Option String) (path : String) :
    openFile L file path = LOAD_FAILED path ∨
      ((openFile L file path).loaded = true ∧ (openFile L file path).saved = true ∧
        (openFile L file path).originalFilePath = path ∧
        (openFile L file path).originalFileName = parseFilename path) := by
  cases file with
  | none => left; rfl
  | some text =>
    unfold openFile
    simp only []
    cases hp : parseLines L (readLines text.toList [])
        { originalFilePath := path, originalFileName := parseFilename path, loaded := true } with
    | none => left; rfl
    | some pawn1 =>
      right
      obtain ⟨bones, _, rfl⟩ := (parseLines_some L _ _ _).1 hp
      simp

/-! ## The text after the n-th comma -/

theorem splitComma_ne_nil (t : List Char) : splitComma t ≠ [] := by
  rw [getField_splitComma]
  simp

/-- The `n`-th field of a line is the text after the `n`-th comma, up to the
next comma or the end of the line. -/
theorem splitComma_getElem (t : List Char) :
    ∀ (n : Nat) (f : List Char), (splitComma t)[n]? = some f →
      f = (afterCommas n t).takeWhile (fun c => decide (c ≠ ',')) := by
  induction t with
  | nil =>
    intro n f h
    cases n with
    | zero =>
      simp only [splitComma, List.getElem?_cons_zero, Option.some.injEq] at h
      rw [← h]
      rfl
    | succ n => simp [splitComma] at h
  | cons c cs ih =>
    intro n f h
    by_cases hc : c = ','
    · simp only [splitComma, hc, if_true] at h
      cases n with
      | zero =>
        simp only [List.getElem?_cons_zero, Option.some.injEq] at h
        rw [← h]
        simp [afterCommas, hc]
      | succ n =>
        simp only [List.getElem?_cons_succ] at h
        simp only [afterCommas, hc, if_true]
        exact ih n f h
    · simp only [splitComma, hc, if_false] at h
      cases hs : splitComma cs with
      | nil => exact absurd hs (splitComma_ne_nil cs)
      | cons f0 fs =>
        rw [hs] at h
        simp only [] at h
        cases n with
        | zero =>
          simp only [List.getElem?_cons_zero, Option.some.injEq] at h
          have h0 := ih 0 f0 (by rw [hs]; simp)
          rw [← h, h0]
          simp [afterCommas, hc]
        | succ n =>
          simp only [List.getElem?_cons_succ] at h
          simp only [afterCommas, hc, if_false]
          exact ih (n + 1) f (by rw [hs]; simpa using h)

theorem takeWhile_eq_self_of_not_mem (t : List Char) (h : ',' ∉ t) :
    t.takeWhile (fun c => decide (c ≠ ',')) = t := by
  induction t with
  | nil => rfl
  | cons c cs ih =>
    have hc : c ≠ ',' := fun hh => h (by simp [hh])
    have hcs : ',' ∉ cs := fun hh => h (List.mem_cons_of_mem _ hh)
    rw [List.takeWhile_cons, if_pos (by simpa using hc), ih hcs]

/-! ## Accepted and rejected lines -/

theorem parseLine_none_of_malformed (L : Lib) (line : List Char) (h : LineMalformed L line) :
    parseLine L line = none := by
  cases hp : parseLine L line with
  | none => rfl
  | some bone =>
    exfalso
    obtain ⟨f0, f1, f2, f3, f4, f5, f6, rest, c, hs, e0, e1, e2, e3, e4, e5, _, _⟩ :=
      (parseLine_eq_some_iff L line bone).1 hp
    rcases h with h | ⟨i, f, hi, hf, hn⟩ | ⟨i, f, hi1, hi2, hf, hn⟩
    · rw [hs] at h
      simp only [List.length_cons] at h
      omega
    · rw [hs] at hf
      have hi' : i = 0 ∨ i = 1 := by omega
      rcases hi' with rfl | rfl
      · simp only [List.getElem?_cons_zero, Option.some.injEq] at hf
        rw [← hf, e0] at hn
        cases hn
      · simp only [List.getElem?_cons_succ, List.getElem?_cons_zero, Option.some.injEq] at hf
        rw [← hf, e1] at hn
        cases hn
    · rw [hs] at hf
      have hi' : i = 2 ∨ i = 3 ∨ i = 4 ∨ i = 5 := by omega
      rcases hi' with rfl | rfl | rfl | rfl
      · simp only [List.getElem?_cons_succ, List.getElem?_cons_zero, Option.some.injEq] at hf
        rw [← hf, e2] at hn
        cases hn
      · simp only [List.getElem?_cons_succ, List.getElem?_cons_zero, Option.some.injEq] at hf
        rw [← hf, e3] at hn
        cases hn
      · simp only [List.getElem?_cons_succ, List.getElem?_cons_zero, Option.some.injEq] at hf
        rw [← hf, e4] at hn
        cases hn
      · simp only [List.getElem?_cons_succ, List.getElem?_cons_zero, Option.some.injEq] at hf
        rw [← hf, e5] at hn
        cases hn

/-- The name of an accepted line is its seventh field without the first
character. -/
theorem name_of_accepted_line (L : Lib) (line : List Char) (bone : BoneData)
    (h : parseLine L line = some bone) :
    ∃ c, (afterCommas 6 line).takeWhile (fun c => decide (c ≠ ',')) =
      c :: bone.displayName.toList := by
  obtain ⟨f0, f1, f2, f3, f4, f5, f6, rest, c, hs, _, _, _, _, _, _, e6, _⟩ :=
    (parseLine_eq_some_iff L line bone).1 h
  refine ⟨c, ?_⟩
  rw [← e6]
  exact (splitComma_getElem line 6 f6 (by rw [hs]; simp)).symm

theorem cmdOpenFile_failed (L : Lib) (m : PoseModel) (file : Option String) (path : String)
    (h : (openFile L file path).loaded = false) : cmdOpenFile L m file path = (false, m) := by
  unfold cmdOpenFile
  simp [h]

theorem cmdOpenFile_loaded (L : Lib) (m : PoseModel) (file : Option String) (path : String)
    (h : (openFile L file path).loaded = true) :
    cmdOpenFile L m file path = (true, { m_BonePawn := openFile L file path, m_Delta := true }) := by
  have hs : (openFile L file path).saved = true := by
    rcases openFile_outcome L file path with h1 | h1
    · rw [h1] at h
      simp [LOAD_FAILED] at h
    · exact h1.2.1
  unfold cmdOpenFile
  simp only [h, if_true, cmdSetSaved, cmdSetPawn, delta]
  cases hf : openFile L file path with
  | mk bones fp fn ld sv =>
    rw [hf] at hs h
    simp only at hs h
    rw [hs, h]

/-! ## Decimal text of integers and `stoi` -/

theorem digitChar_facts (k : Nat) (h : k < 10) :
    (Nat.digitChar k).toNat - 48 = k ∧ (Nat.digitChar k).isDigit = true := by
  interval_cases k <;> exact ⟨rfl, rfl⟩

theorem isDigit_range (c : Char) (h : c.isDigit = true) : 48 ≤ c.toNat ∧ c.toNat ≤ 57 := by
  unfold Char.isDigit at h
  simp only [Bool.and_eq_true, decide_eq_true_eq] at h
  have h1 : (48 : UInt32) ≤ c.val := h.1
  have h2 : c.val ≤ (57 : UInt32) := h.2
  rw [UInt32.le_def] at h1 h2
  exact ⟨h1, h2⟩

theorem char_ne_of_toNat_ne (c d : Char) (h : c.toNat ≠ d.toNat) : c ≠ d := by
  rintro rfl
  exact h rfl

/-- A digit is no blank, sign, comma or newline. -/
theorem isDigit_plain (c : Char) (h : c.isDigit = true) :
    isSpaceChar c = false ∧ c ≠ '-' ∧ c ≠ '+' ∧ c ≠ ',' ∧ c ≠ Char.ofNat 10 := by
  obtain ⟨h1, h2⟩ := isDigit_range c h
  refine ⟨?_, ?_, ?_, ?_, ?_⟩
  · unfold isSpaceChar
    simp only [Bool.or_eq_false_iff, decide_eq_false_iff_not, Bool.and_eq_false_iff]
    refine ⟨by omega, ?_⟩
    right
    omega
  · apply char_ne_of_toNat_ne
    have : ('-' : Char).toNat = 45 := rfl
    omega
  · apply char_ne_of_toNat_ne
    have : ('+' : Char).toNat = 43 := rfl
    omega
  · apply char_ne_of_toNat_ne
    have : (',' : Char).toNat = 44 := rfl
    omega
  · apply char_ne_of_toNat_ne
    have : (Char.ofNat 10).toNat = 10 := rfl
    omega

theorem digitsValue_append (xs : List Char) (d : Char) :
    digitsValue (xs ++ [d]) = 10 * digitsValue xs + (d.toNat - 48) := by
  unfold digitsValue
  rw [List.foldl_append]
  rfl

theorem toDigitsCore_append (fuel : Nat) :
    ∀ (n : Nat) (ds : List Char),
      Nat.toDigitsCore 10 fuel n ds = Nat.toDigitsCore 10 fuel n [] ++ ds := by
  induction fuel with
  | zero => intro n ds; rfl
  | succ fuel ih =>
    intro n ds
    simp only [Nat.toDigitsCore]
    by_cases h : n / 10 = 0
    · simp [h]
    · simp only [h, if_false]
      rw [ih (n / 10) (Nat.digitChar (n % 10) :: ds), ih (n / 10) [Nat.digitChar (n % 10)]]
      simp

/-- The digits `Nat.repr` produces: at least one, all decimal digits, with the
number as their value. -/
theorem toDigitsCore_spec (fuel : Nat) :
    ∀ n : Nat, n < fuel →
      digitsValue (Nat.toDigitsCore 10 fuel n []) = n ∧
      (∀ c ∈ Nat.toDigitsCore 10 fuel n [], c.isDigit = true) ∧
      Nat.toDigitsCore 10 fuel n [] ≠ [] := by
  induction fuel with
  | zero => intro n h; omega
  | succ fuel ih =>
    intro n hn
    have hd := digitChar_facts (n % 10) (Nat.mod_lt _ (by decide))
    simp only [Nat.toDigitsCore]
    by_cases h : n / 10 = 0
    · simp only [h, if_true]
      refine ⟨?_, ?_, by simp⟩
      · have : digitsValue [Nat.digitChar (n % 10)] = (Nat.digitChar (n % 10)).toNat - 48 := by
          simp [digitsValue]
        rw [this, hd.1]
        omega
      · intro c hc
        simp only [List.mem_singleton] at hc
        rw [hc]
        exact hd.2
    · simp only [h, if_false]
      rw [toDigitsCore_append]
      obtain ⟨i1, i2, _⟩ := ih (n / 10) (by omega)
      refine ⟨?_, ?_, by simp⟩
      · rw [digitsValue_append, i1, hd.1]
        omega
      · intro c hc
        rcases List.mem_append.1 hc with hc | hc
        · exact i2 c hc
        · simp only [List.mem_singleton] at hc
          rw [hc]
          exact hd.2

theorem natRepr_spec (n : Nat) :
    digitsValue (Nat.repr n).toList = n ∧ (∀ c ∈ (Nat.repr n).toList, c.isDigit = true) ∧
      (Nat.repr n).toList ≠ [] :=
  toDigitsCore_spec (n + 1) n (by omega)

/-- The text of an integer: an optional minus sign, then the digits of its
absolute value. -/
theorem intText (v : Int) :
    ∃ ds : List Char, ds ≠ [] ∧ (∀ c ∈ ds, c.isDigit = true) ∧
      ((0 ≤ v ∧ (toString v).toList = ds ∧ (digitsValue ds : Int) = v) ∨
       (v < 0 ∧ (toString v).toList = '-' :: ds ∧ (digitsValue ds : Int) = -v)) := by
  cases v with
  | ofNat n =>
    obtain ⟨h1, h2, h3⟩ := natRepr_spec n
    refine ⟨(Nat.repr n).toList, h3, h2, Or.inl ⟨Int.ofNat_nonneg n, rfl, ?_⟩⟩
    rw [h1]
    rfl
  | negSucc n =>
    obtain ⟨h1, h2, h3⟩ := natRepr_spec (n + 1)
    refine ⟨(Nat.repr (n + 1)).toList, h3, h2, Or.inr ⟨Int.negSucc_lt_zero n, rfl, ?_⟩⟩
    rw [h1, Int.neg_negSucc]

theorem takeWhile_isDigit_all (ds : List Char) (h : ∀ c ∈ ds, c.isDigit = true) :
    ds.takeWhile Char.isDigit = ds := by
  induction ds with
  | nil => rfl
  | cons c cs ih =>
    rw [List.takeWhile_cons, if_pos (h c (List.mem_cons_self _ _)),
      ih (fun d hd => h d (List.mem_cons_of_mem _ hd))]

/-- The text of an integer holds no comma and no newline. -/
theorem intText_plain (v : Int) : PlainText (toString v) := by
  obtain ⟨ds, _, hdig, h | h⟩ := intText v
  · unfold PlainText
    rw [h.2.1]
    exact ⟨fun hc => (isDigit_plain _ (hdig _ hc)).2.2.2.1 rfl,
      fun hc => (isDigit_plain _ (hdig _ hc)).2.2.2.2 rfl⟩
  · unfold PlainText
    rw [h.2.1]
    constructor
    · intro hc
      rcases List.mem_cons.1 hc with hc | hc
      · exact absurd hc (by decide)
      · exact (isDigit_plain _ (hdig _ hc)).2.2.2.1 rfl
    · intro hc
      rcases List.mem_cons.1 hc with hc | hc
      · exact absurd hc (by decide)
      · exact (isDigit_plain _ (hdig _ hc)).2.2.2.2 rfl

theorem intText_ne_nil (v : Int) : (toString v).toList ≠ [] := by
  obtain ⟨ds, hne, _, h | h⟩ := intText v
  · rw [h.2.1]; exact hne
  · rw [h.2.1]; simp

/-- The function `stoi` reads back the text of an `int`, also after one blank. -/
theorem stoi_intText (v : Int) (hv : InIntRange v) :
    stoi (String.mk (toString v).toList) = some v ∧
    stoi (String.mk (' ' :: (toString v).toList)) = some v := by
  have hblank : ∀ t : List Char, stoi (String.mk (' ' :: t)) = stoi (String.mk t) := by
    intro t
    unfold stoi
    have : (String.mk (' ' :: t)).toList.dropWhile isSpaceChar =
        (String.mk t).toList.dropWhile isSpaceChar := by
      show (' ' :: t).dropWhile isSpaceChar = t.dropWhile isSpaceChar
      rw [List.dropWhile_cons]
      have : isSpaceChar ' ' = true := by decide
      simp [this]
    rw [this]
  have hv2 : -2147483648 ≤ v ∧ v < 2147483648 := by
    unfold InIntRange at hv
    norm_num at hv
    exact hv
  have hmain : stoi (String.mk (toString v).toList) = some v := by
    obtain ⟨ds, hne, hdig, h | h⟩ := intText v
    · obtain ⟨_, htxt, hval⟩ := h
      rw [htxt]
      cases ds with
      | nil => exact absurd rfl hne
      | cons c cs =>
        have hc := isDigit_plain c (hdig c (List.mem_cons_self _ _))
        have hdrop : (String.mk (c :: cs)).toList.dropWhile isSpaceChar = c :: cs := by
          show (c :: cs).dropWhile isSpaceChar = c :: cs
          rw [List.dropWhile_cons]
          simp [hc.1]
        unfold stoi
        simp only [hdrop, hc.2.1, hc.2.2.1, if_false, takeWhile_isDigit_all _ hdig]
        simp [hval, hv2]
    · obtain ⟨_, htxt, hval⟩ := h
      rw [htxt]
      have hdrop : (String.mk ('-' :: ds)).toList.dropWhile isSpaceChar = '-' :: ds := by
        show ('-' :: ds).dropWhile isSpaceChar = '-' :: ds
        rw [List.dropWhile_cons]
        have : isSpaceChar '-' = false := by decide
        simp [this]
      have hne2 : ds.isEmpty = false := by
        cases ds with
        | nil => exact absurd rfl hne
        | cons _ _ => rfl
      unfold stoi
      simp only [hdrop, if_true, takeWhile_isDigit_all _ hdig, hne2]
      simp [hval, hv2]
  exact ⟨hmain, by rw [hblank]; exact hmain⟩

/-! ## The text `saveFile` writes -/

theorem saveLoop_cons (L : Lib) (size : Nat) (b : BoneData) (t : List BoneData) (i : Int)
    (hsize : size < 2 ^ 64) (hi : i = (size : Int) - ((t.length : Int) + 1))
    (hle : t.length + 1 ≤ size) :
    saveLoop L size (b :: t) i =
      boneText L b ++ (if t.isEmpty then "" else newline) ++ saveLoop L size t (i + 1) := by
  simp only [saveLoop]
  cases t with
  | nil =>
    have hc : ¬ (toSizeT i < sizeMinusOne size) := by
      unfold toSizeT sizeMinusOne
      simp only [List.length_nil, Nat.cast_zero, zero_add] at hi
      omega
    simp [hc]
  | cons c t2 =>
    have hc : toSizeT i < sizeMinusOne size := by
      unfold toSizeT sizeMinusOne
      simp only [List.length_cons, Nat.cast_add, Nat.cast_one] at hi hle
      omega
    simp [hc]

theorem intercalate_go_append (s x : String) :
    ∀ (l : List String) (acc : String),
      String.intercalate.go (x ++ acc) s l = x ++ String.intercalate.go acc s l := by
  intro l
  induction l with
  | nil => intro acc; rfl
  | cons a as ih =>
    intro acc
    simp only [String.intercalate.go]
    rw [← ih (acc ++ s ++ a)]
    simp only [String.append_assoc]

/-- The loop of `saveFile` joins the bone lines with single newlines. -/
theorem saveLoop_eq_intercalate (L : Lib) (size : Nat) (hsize : size < 2 ^ 64) :
    ∀ (rest : List BoneData) (i : Int), i = (size : Int) - (rest.length : Int) →
      rest.length ≤ size →
      saveLoop L size rest i = String.intercalate newline (rest.map (boneText L)) := by
  intro rest
  induction rest with
  | nil => intro i _ _; rfl
  | cons b t ih =>
    intro i hi hle
    have hi1 : i = (size : Int) - ((t.length : Int) + 1) := by
      simp only [List.length_cons, Nat.cast_add, Nat.cast_one] at hi
      exact hi
    have hle1 : t.length + 1 ≤ size := by simpa using hle
    rw [saveLoop_cons L size b t i hsize hi1 hle1, ih (i + 1) (by omega) (by omega)]
    cases t with
    | nil => simp [String.intercalate, String.intercalate.go]
    | cons c t2 =>
      simp only [List.isEmpty_cons, Bool.false_eq_true, if_false, List.map_cons,
        String.intercalate]
      rw [← intercalate_go_append]
      simp only [String.intercalate.go]

/-! ## Reading the written text back -/

theorem readLines_line (l : List Char) (h : Char.ofNat 10 ∉ l) :
    ∀ (rest acc : List Char), readLines (l ++ rest) acc = readLines rest (l.reverse ++ acc) := by
  induction l with
  | nil => intro rest acc; rfl
  | cons c cs ih =>
    intro rest acc
    have hc : c ≠ Char.ofNat 10 := fun hh => h (by simp [hh])
    have hcs : Char.ofNat 10 ∉ cs := fun hh => h (List.mem_cons_of_mem _ hh)
    rw [List.cons_append, readLines, if_neg hc, ih hcs]
    simp

theorem toList_append_newline (a s : String) :
    (a ++ newline ++ s).toList = a.toList ++ Char.ofNat 10 :: s.toList := by
  show ((a ++ newline) ++ s).data = a.data ++ Char.ofNat 10 :: s.data
  rw [String.data_append, String.data_append, List.append_assoc]
  rfl

/-- The lines `openFile` reads from the text of `saveFile` are the bone lines,
when none of them is empty or holds a newline. -/
theorem readLines_saveLoop (L : Lib) (size : Nat) (hsize : size < 2 ^ 64) :
    ∀ (rest : List BoneData) (i : Int), i = (size : Int) - (rest.length : Int) →
      rest.length ≤ size →
      (∀ b ∈ rest, (boneText L b).toList ≠ [] ∧ Char.ofNat 10 ∉ (boneText L b).toList) →
      readLines (saveLoop L size rest i).toList [] = rest.map (fun b => (boneText L b).toList) := by
  intro rest
  induction rest with
  | nil => intro i _ _ _; rfl
  | cons b t ih =>
    intro i hi hle hb
    have hi1 : i = (size : Int) - ((t.length : Int) + 1) := by
      simp only [List.length_cons, Nat.cast_add, Nat.cast_one] at hi
      exact hi
    have hle1 : t.length + 1 ≤ size := by simpa using hle
    obtain ⟨hne, hnl⟩ := hb b (List.mem_cons_self _ _)
    have iht := ih (i + 1) (by omega) (by omega) (fun c hc => hb c (List.mem_cons_of_mem _ hc))
    rw [saveLoop_cons L size b t i hsize hi1 hle1]
    cases t with
    | nil =>
      have e : (boneText L b ++ (if ([] : List BoneData).isEmpty then "" else newline) ++
          saveLoop L size [] (i + 1)).toList = (boneText L b).toList ++ [] := by
        simp [saveLoop, String.toList]
      rw [e, readLines_line _ hnl]
      have hne2 : (boneText L b).data ≠ [] := hne
      simp [readLines, hne, hne2]
    | cons c t2 =>
      have e : (boneText L b ++ (if (c :: t2).isEmpty then "" else newline) ++
          saveLoop L size (c :: t2) (i + 1)).toList =
          (boneText L b).toList ++ Char.ofNat 10 :: (saveLoop L size (c :: t2) (i + 1)).toList := by
        have h1 : (if (c :: t2).isEmpty then "" else newline) = newline := if_neg (by simp)
        exact (congrArg
          (fun x => (boneText L b ++ x ++ saveLoop L size (c :: t2) (i + 1)).toList) h1).trans
          (toList_append_newline _ _)
      rw [e, readLines_line _ hnl]
      rw [readLines, if_pos rfl, List.append_nil, List.reverse_reverse, iht]
      simp only [List.map_cons]

/-! ## The fields of a written line -/

theorem splitComma_single (a : List Char) (h : ',' ∉ a) : splitComma a = [a] := by
  induction a with
  | nil => rfl
  | cons c cs ih =>
    have hc : c ≠ ',' := fun hh => h (by simp [hh])
    have hcs : ',' ∉ cs := fun hh => h (List.mem_cons_of_mem _ hh)
    simp only [splitComma, hc, if_false, ih hcs]

theorem splitComma_piece (a : List Char) (h : ',' ∉ a) (rest : List Char) :
    splitComma (a ++ ',' :: rest) = a :: splitComma rest := by
  induction a with
  | nil => simp [splitComma]
  | cons c cs ih =>
    have hc : c ≠ ',' := fun hh => h (by simp [hh])
    have hcs : ',' ∉ cs := fun hh => h (List.mem_cons_of_mem _ hh)
    rw [List.cons_append, splitComma, if_neg hc, ih hcs]

theorem boneText_toList (L : Lib) (b : BoneData) :
    (boneText L b).toList =
      (toString b.id).toList ++ ',' :: ((' ' :: (toString b.parent).toList) ++
        ',' :: ((' ' :: (L.showFloat (b.quaternion.getIdx 0)).toList) ++
        ',' :: ((' ' :: (L.showFloat (b.quaternion.getIdx 1)).toList) ++
        ',' :: ((' ' :: (L.showFloat (b.quaternion.getIdx 2)).toList) ++
        ',' :: ((' ' :: (L.showFloat (b.quaternion.getIdx 3)).toList) ++
        ',' :: (' ' :: b.displayName.toList)))))) := by
  have hsep : (", " : String).data = [',', ' '] := rfl
  simp only [boneText, String.toList, String.data_append, hsep, List.append_assoc,
    List.cons_append, List.nil_append]

theorem blank_plain (s : String) (h : PlainText s) :
    ',' ∉ ' ' :: s.toList ∧ Char.ofNat 10 ∉ ' ' :: s.toList := by
  constructor
  · intro hc
    rcases List.mem_cons.1 hc with hc | hc
    · exact absurd hc (by decide)
    · exact h.1 hc
  · intro hc
    rcases List.mem_cons.1 hc with hc | hc
    · exact absurd hc (by decide)
    · exact h.2 hc

theorem mk_blank (s : String) : String.mk (' ' :: s.toList) = " " ++ s := by
  cases s
  rfl

/-- A written line of a writable bone is read back as a bone with the same id,
parent and name. -/
theorem parseLine_boneText (L : Lib) (b : BoneData) (h : BoneWritable L b) :
    (∃ b1, parseLine L (boneText L b).toList = some b1 ∧ ReadBackOf L b b1) ∧
    (boneText L b).toList ≠ [] ∧ Char.ofNat 10 ∉ (boneText L b).toList := by
  obtain ⟨hid, hpar, hname, hq⟩ := h
  obtain ⟨g0, hg0⟩ := hq 0 (by omega)
  obtain ⟨g1, hg1⟩ := hq 1 (by omega)
  obtain ⟨g2, hg2⟩ := hq 2 (by omega)
  obtain ⟨g3, hg3⟩ := hq 3 (by omega)
  have p0 := intText_plain b.id
  have p1 := blank_plain _ (intText_plain b.parent)
  have p2 := blank_plain _ hg0.1
  have p3 := blank_plain _ hg1.1
  have p4 := blank_plain _ hg2.1
  have p5 := blank_plain _ hg3.1
  have p6 := blank_plain _ hname
  refine ⟨?_, ?_, ?_⟩
  · refine ⟨{ id := b.id, parent := b.parent, quaternion := ⟨g0, g1, g2, g3⟩,
              eulerRotation := quatToEuler L ⟨g0, g1, g2, g3⟩, displayName := b.displayName },
      ?_, ⟨rfl, rfl, rfl, ?_, rfl⟩⟩
    · rw [parseLine_eq_some_iff]
      refine ⟨(toString b.id).toList, ' ' :: (toString b.parent).toList,
        ' ' :: (L.showFloat (b.quaternion.getIdx 0)).toList,
        ' ' :: (L.showFloat (b.quaternion.getIdx 1)).toList,
        ' ' :: (L.showFloat (b.quaternion.getIdx 2)).toList,
        ' ' :: (L.showFloat (b.quaternion.getIdx 3)).toList,
        ' ' :: b.displayName.toList, [], ' ', ?_, (stoi_intText b.id hid).1,
        (stoi_intText b.parent hpar).2, ?_, ?_, ?_, ?_, rfl, rfl⟩
      · rw [boneText_toList, splitComma_piece _ p0.1, splitComma_piece _ p1.1,
          splitComma_piece _ p2.1, splitComma_piece _ p3.1, splitComma_piece _ p4.1,
          splitComma_piece _ p5.1, splitComma_single _ p6.1]
      · rw [mk_blank]; exact hg0.2
      · rw [mk_blank]; exact hg1.2
      · rw [mk_blank]; exact hg2.2
      · rw [mk_blank]; exact hg3.2
    · intro i hi
      have hi' : i = 0 ∨ i = 1 ∨ i = 2 ∨ i = 3 := by omega
      rcases hi' with rfl | rfl | rfl | rfl
      · exact hg0
      · exact hg1
      · exact hg2
      · exact hg3
  · rw [boneText_toList]
    cases hl : (toString b.id).toList with
    | nil => exact absurd hl (intText_ne_nil b.id)
    | cons c cs => simp
  · rw [boneText_toList]
    simp only [List.mem_append, List.mem_cons, not_or]
    have hcomma : Char.ofNat 10 ≠ ',' := by decide
    have q1 := p1.2
    have q2 := p2.2
    have q3 := p3.2
    have q4 := p4.2
    have q5 := p5.2
    have q6 := p6.2
    simp only [List.mem_cons, not_or] at q1 q2 q3 q4 q5 q6
    exact ⟨p0.2, hcomma, ⟨q1.1, q1.2⟩, hcomma, ⟨q2.1, q2.2⟩, hcomma, ⟨q3.1, q3.2⟩, hcomma,
      ⟨q4.1, q4.2⟩, hcomma, ⟨q5.1, q5.2⟩, hcomma, q6.1, q6.2⟩

/-- Decoding the text `saveFile` writes for writable bones succeeds and reads
every bone back. -/
theorem openFile_saveFileText (L : Lib) (pawn : BonePawn) (path : String)
    (hsize : pawn.bones.length < 2 ^ 64) (hb : ∀ b ∈ pawn.bones, BoneWritable L b) :
    ∃ bones,
      openFile L (some (saveFileText L pawn)) path =
        { bones := bones, originalFilePath := path, originalFileName := parseFilename path,
          loaded := true, saved := true } ∧
      List.Forall₂ (ReadBackOf L) pawn.bones bones := by
  have hlines : readLines (saveFileText L pawn).toList [] =
      pawn.bones.map (fun b => (boneText L b).toList) :=
    readLines_saveLoop L pawn.bones.length hsize pawn.bones 0 (by simp) (le_refl _)
      (fun b hbm => (parseLine_boneText L b (hb b hbm)).2)
  have key : ∀ l : List BoneData, (∀ b ∈ l, BoneWritable L b) →
      ∃ bones, List.Forall₂ (fun line b1 => parseLine L line = some b1)
          (l.map (fun b => (boneText L b).toList)) bones ∧
        List.Forall₂ (ReadBackOf L) l bones := by
    intro l
    induction l with
    | nil => intro _; exact ⟨[], List.Forall₂.nil, List.Forall₂.nil⟩
    | cons b t ih =>
      intro hl
      obtain ⟨b1, hp, hr⟩ := (parseLine_boneText L b (hl b (List.mem_cons_self _ _))).1
      obtain ⟨bs, h1, h2⟩ := ih (fun c hc => hl c (List.mem_cons_of_mem _ hc))
      exact ⟨b1 :: bs, List.Forall₂.cons hp h1, List.Forall₂.cons hr h2⟩
  obtain ⟨bones, h1, h2⟩ := key pawn.bones hb
  refine ⟨bones, ?_, h2⟩
  apply openFile_accepted
  rw [hlines]
  exact h1

/-! ## A display name that spans two lines -/

theorem boneText_eq_intercalate (L : Lib) (b : BoneData) :
    boneText L b = String.intercalate ", " [toString b.id, toString b.parent,
      L.showFloat b.quaternion.x, L.showFloat b.quaternion.y, L.showFloat b.quaternion.z,
      L.showFloat b.quaternion.w, b.displayName] := by
  simp only [boneText, String.intercalate, String.intercalate.go]
  rfl

theorem sampleChain_writable : ∀ b ∈ sampleChain.m_BonePawn.bones, BoneWritable sampleLib b := by
  have hz : ReadsBack sampleLib Float32.zero Float32.zero := ⟨by decide, rfl⟩
  have ho : ReadsBack sampleLib Float32.one Float32.one := ⟨by decide, rfl⟩
  have hq : ∀ (id parent : ID) (i : Nat), i < 4 →
      ∃ g, ReadsBack sampleLib ((sampleBone id parent).quaternion.getIdx i) g := by
    intro id parent i hi
    have hi' : i = 0 ∨ i = 1 ∨ i = 2 ∨ i = 3 := by omega
    rcases hi' with rfl | rfl | rfl | rfl
    · exact ⟨_, hz⟩
    · exact ⟨_, hz⟩
    · exact ⟨_, hz⟩
    · exact ⟨_, ho⟩
  intro b hb
  have hb' : b = sampleBone 1 (-1) ∨ b = sampleBone 2 1 := by
    simpa [sampleChain] using hb
  rcases hb' with rfl | rfl
  · exact ⟨by decide, by decide, by decide, hq _ _⟩
  · exact ⟨by decide, by decide, by decide, hq _ _⟩

theorem saveFile_writable (L : Lib) (pawn : BonePawn) (path : String) :
    saveFile L true pawn path = (true, some (saveFileText L pawn)) := by
  unfold saveFile
  rw [if_pos rfl]

/-- A save whose target opens for writing: the text of the pawn goes to the
normalised path and the four setters run. -/
theorem cmdSaveFile_written (L : Lib) (canWrite : String → Bool) (m : PoseModel) (path : String)
    (h : canWrite (addExtension path) = true) :
    cmdSaveFile L canWrite m path =
      (false,
        { m_BonePawn := { m.m_BonePawn with
            originalFilePath := addExtension path
            originalFileName := parseFilename (addExtension path)
            loaded := true, saved := true }
          m_Delta := true },
        some (addExtension path, saveFileText L m.m_BonePawn)) := by
  unfold cmdSaveFile
  simp only [h, saveFile_writable, getCurrentPawn, if_true, Option.map_some']
  rfl

/-- A save whose target does not open for writing leaves the model alone. -/
theorem cmdSaveFile_blocked (L : Lib) (canWrite : String → Bool) (m : PoseModel) (path : String)
    (h : canWrite (addExtension path) = false) :
    cmdSaveFile L canWrite m path = (false, m, none) := by
  unfold cmdSaveFile saveFile
  simp only [h, Bool.false_eq_true, if_false]

/-- An effective `cmdBoneSetRotation`, on the first bone with the id. -/
theorem cmdBoneSetRotation_found (L : Lib) (m : PoseModel) (boneid : ID) (euler : Vec3)
    (pre : List BoneData) (b : BoneData) (suf : List BoneData)
    (e : m.m_BonePawn.bones = pre ++ b :: suf) (hb : b.id = boneid)
    (hpre : ∀ c ∈ pre, c.id ≠ boneid) :
    cmdBoneSetRotation L m boneid euler =
      { m_BonePawn := { m.m_BonePawn with
          bones := pre ++ { b with quaternion := eulerToQuat L euler,
                                   eulerRotation := quatToEuler L (eulerToQuat L euler) } :: suf
          saved := false }
        m_Delta := true } := by
  rcases cmdBoneSetRotation_shape L m boneid euler with
    ⟨hno, _⟩ | ⟨pre2, b2, suf2, e2, hb2, hpre2, h⟩
  · exact absurd ⟨b, by simp [e], hb⟩ hno
  · obtain ⟨rfl, rfl, rfl⟩ :=
      first_split_unique boneid pre pre2 b b2 suf suf2 (e.symm.trans e2) hb hb2 hpre hpre2
    rw [h]
    rfl

theorem saved_after_delta (m : PoseModel) : (delta m).m_BonePawn.saved = false := rfl

/-- A command that returns the model or a model `delta()` was applied to keeps
`saved = false`. -/
theorem unsaved_of_same_or_delta (m r : PoseModel) (hs : m.m_BonePawn.saved = false)
    (h : r = m ∨ ∃ x, r = delta x) : r.m_BonePawn.saved = false := by
  rcases h with rfl | ⟨x, rfl⟩
  · exact hs
  · rfl

theorem saved_after_remove (m : PoseModel) (boneid : ID) :
    (cmdBoneRemove m boneid).m_BonePawn.saved = m.m_BonePawn.saved := by
  unfold cmdBoneRemove
  by_cases h : pawnFindBoneId m.m_BonePawn boneid ≥ 0
  · simp only [h, if_true]
    rfl
  · simp only [h, if_false]

/-- A `cmdBoneAdd` that throws leaves the model as `delta()` made it. -/
theorem cmdBoneAdd_error (L : Lib) (m e : PoseModel) (parentid : ID)
    (h : cmdBoneAdd L m parentid = .error e) : e = delta m := by
  unfold cmdBoneAdd at h
  simp only [] at h
  cases hid : getUniqueBoneId (delta m).m_BonePawn with
  | none =>
    simp only [hid] at h
    exact (Except.error.inj h).symm
  | some id =>
    cases hname : getUniqueBoneName (delta m).m_BonePawn with
    | none =>
      simp only [hid, hname] at h
      exact (Except.error.inj h).symm
    | some name =>
      simp only [hid, hname] at h
      split at h
      · split at h <;> cases h
      · cases h

/-- The command `cmdBoneAdd` throws exactly when one of the two searches runs
out of candidates. -/
theorem cmdBoneAdd_error_iff (L : Lib) (m : PoseModel) (parentid : ID) :
    (∃ e, cmdBoneAdd L m parentid = .error e) ↔
      (getUniqueBoneId m.m_BonePawn = none ∨ getUniqueBoneName m.m_BonePawn = none) := by
  have e1 : getUniqueBoneId (delta m).m_BonePawn = getUniqueBoneId m.m_BonePawn :=
    getUniqueBoneId_congr _ _ rfl
  have e2 : getUniqueBoneName (delta m).m_BonePawn = getUniqueBoneName m.m_BonePawn :=
    getUniqueBoneName_congr _ _ rfl
  constructor
  · rintro ⟨e, h⟩
    cases hid : getUniqueBoneId m.m_BonePawn with
    | none => exact Or.inl rfl
    | some id =>
      cases hname : getUniqueBoneName m.m_BonePawn with
      | none => exact Or.inr rfl
      | some name =>
        exfalso
        unfold cmdBoneAdd at h
        simp only [e1, e2, hid, hname] at h
        split at h
        · split at h <;> cases h
        · cases h
  · intro h
    refine ⟨delta m, ?_⟩
    unfold cmdBoneAdd
    simp only [e1, e2]
    rcases h with h | h
    · rw [h]
    · rw [h]
      cases getUniqueBoneId m.m_BonePawn <;> rfl

/-- A completed `cmdBoneAdd` inserts one new bone and keeps the others in place. -/
theorem cmdBoneAdd_inserts (L : Lib) (m m1 : PoseModel) (parentid : ID)
    (h : cmdBoneAdd L m parentid = .ok m1) :
    ∃ id name pre suf, m.m_BonePawn.bones = pre ++ suf ∧
      m1.m_BonePawn.bones = pre ++ newBone L id parentid name :: suf := by
  obtain ⟨id, name, _, _, hcase⟩ := cmdBoneAdd_ok L m m1 parentid h
  rcases hcase with ⟨_, pre, b, suf, e, _, _, rfl⟩ | ⟨_, rfl⟩
  · refine ⟨id, name, pre ++ [b], suf, ?_, ?_⟩
    · rw [e]; simp
    · show pre ++ b :: newBone L id parentid name :: suf = _
      simp
  · exact ⟨id, name, m.m_BonePawn.bones, [], by simp, rfl⟩

/-- The command `cmdBoneAdd` either completes or throws. -/
theorem cmdBoneAdd_total (L : Lib) (m : PoseModel) (parentid : ID) :
    (∃ m1, cmdBoneAdd L m parentid = .ok m1) ∨ (∃ e, cmdBoneAdd L m parentid = .error e) := by
  cases h : cmdBoneAdd L m parentid with
  | ok m1 => exact Or.inl ⟨m1, rfl⟩
  | error e => exact Or.inr ⟨e, rfl⟩

theorem search_bound : ((MAX_BONE_LIMIT - 1 : Nat) : Int) = 999999 := by
  unfold MAX_BONE_LIMIT
  norm_num

theorem getUniqueBoneId_none_iff (pawn : BonePawn) :
    getUniqueBoneId pawn = none ↔ ∀ k : Int, 1 ≤ k → k ≤ 999999 → HasId pawn k := by
  unfold getUniqueBoneId
  rw [uniqueIdLoop_none, search_bound]
  constructor
  · intro h k h1 h2
    exact h k h1 (by omega)
  · intro h k h1 h2
    exact h k h1 (by omega)

theorem getUniqueBoneName_none_iff (pawn : BonePawn) :
    getUniqueBoneName pawn = none ↔
      ∀ k : Int, 1 ≤ k → k ≤ 999999 → HasName pawn (defaultName k) := by
  unfold getUniqueBoneName
  rw [uniqueNameLoop_none, search_bound]
  constructor
  · intro h k h1 h2
    exact h k h1 (by omega)
  · intro h k h1 h2
    exact h k h1 (by omega)

/-- The line `saveFile` writes for a bone built with GLM's constructor order. -/
theorem boneText_newBone (L : Lib) (hctor : GlmCtorOrder L) (id parentid : ID) (name : String) :
    (newBone L id parentid name).quaternion =
      ⟨Float32.zero, Float32.zero, Float32.one, Float32.zero⟩ ∧
    (newBone L id parentid name).eulerRotation = ⟨Float32.zero, Float32.zero, Float32.zero⟩ ∧
    boneText L (newBone L id parentid name) =
      String.intercalate ", " [toString id, toString parentid, L.showFloat Float32.zero,
        L.showFloat Float32.zero, L.showFloat Float32.one, L.showFloat Float32.zero, name] := by
  have hq : (newBone L id parentid name).quaternion =
      ⟨Float32.zero, Float32.zero, Float32.one, Float32.zero⟩ :=
    hctor Float32.zero Float32.zero Float32.zero Float32.one
  refine ⟨hq, rfl, ?_⟩
  rw [boneText_eq_intercalate, hq]
  rfl

/-! ## The budget of the loop test -/

theorem walkAfter_succ (pawn : BonePawn) (k : Nat) (a p : ID) (h : parentOf pawn a = some p) :
    walkAfter pawn (k + 1) a = walkAfter pawn k p := by
  rw [walkAfter, h]

theorem walkAfter_succ_none (pawn : BonePawn) (k : Nat) (a : ID) (h : parentOf pawn a = none) :
    walkAfter pawn (k + 1) a = none := by
  rw [walkAfter, h]

theorem walkAfter_add (pawn : BonePawn) (j : Nat) :
    ∀ (i : Nat) (a : ID),
      walkAfter pawn (i + j) a = (walkAfter pawn i a).bind (walkAfter pawn j) := by
  intro i
  induction i with
  | zero => intro a; simp [walkAfter]
  | succ i ih =>
    intro a
    have e : i + 1 + j = (i + j) + 1 := by omega
    rw [e]
    cases hp : parentOf pawn a with
    | none => rw [walkAfter_succ_none pawn _ a hp, walkAfter_succ_none pawn _ a hp]; rfl
    | some p => rw [walkAfter_succ pawn _ a p hp, walkAfter_succ pawn _ a p hp, ih]

theorem walkAfter_reach (pawn : BonePawn) :
    ∀ (k : Nat) (a y : ID), walkAfter pawn k a = some y →
      Relation.ReflTransGen (ParentStep pawn) a y := by
  intro k
  induction k with
  | zero =>
    intro a y h
    simp only [walkAfter, Option.some.injEq] at h
    rw [h]
  | succ k ih =>
    intro a y h
    cases hp : parentOf pawn a with
    | none => rw [walkAfter_succ_none pawn _ a hp] at h; cases h
    | some p =>
      rw [walkAfter_succ pawn _ a p hp] at h
      exact Relation.ReflTransGen.head hp (ih p y h)

theorem walkAfter_reach_pos (pawn : BonePawn) (k : Nat) (a y : ID)
    (h : walkAfter pawn (k + 1) a = some y) : Relation.TransGen (ParentStep pawn) a y := by
  cases hp : parentOf pawn a with
  | none => rw [walkAfter_succ_none pawn _ a hp] at h; cases h
  | some p =>
    rw [walkAfter_succ pawn _ a p hp] at h
    exact Relation.TransGen.head' hp (walkAfter_reach pawn k p y h)

theorem reach_walkAfter (pawn : BonePawn) (a y : ID)
    (h : Relation.ReflTransGen (ParentStep pawn) a y) : ∃ k, walkAfter pawn k a = some y := by
  induction h with
  | refl => exact ⟨0, rfl⟩
  | tail _ hyz ih =>
    obtain ⟨k, hk⟩ := ih
    refine ⟨k + 1, ?_⟩
    rw [walkAfter_add, hk]
    simp only [Option.some_bind]
    rw [walkAfter_succ pawn 0 _ _ hyz]
    rfl

theorem hasId_of_step (pawn : BonePawn) {a b : ID} (h : ParentStep pawn a b) : HasId pawn a :=
  (parentOf_isSome_iff pawn a).1 ⟨b, h⟩

theorem parentOf_none_iff (pawn : BonePawn) (a : ID) : parentOf pawn a = none ↔ ¬ HasId pawn a := by
  rw [← parentOf_isSome_iff]
  cases parentOf pawn a <;> simp

/-- The loop with `n` iterations returns `true` exactly when the walk meets an
absent id after fewer than `n` found bones. -/
theorem parentLoopFrom_iff (pawn : BonePawn) :
    ∀ (n : Nat) (a : ID), parentLoopFrom pawn n a = true ↔
      ∃ k y, k < n ∧ walkAfter pawn k a = some y ∧ ¬ HasId pawn y := by
  intro n
  induction n with
  | zero =>
    intro a
    simp [parentLoopFrom]
  | succ n ih =>
    intro a
    cases hp : parentOf pawn a with
    | none =>
      rw [parentLoopFrom_stop pawn n a hp]
      simp only [true_iff]
      exact ⟨0, a, by omega, rfl, (parentOf_none_iff pawn a).1 hp⟩
    | some p =>
      rw [parentLoopFrom_step pawn n a p hp, ih p]
      constructor
      · rintro ⟨k, y, hk, hw, hy⟩
        exact ⟨k + 1, y, by omega, by rw [walkAfter_succ pawn k a p hp]; exact hw, hy⟩
      · rintro ⟨k, y, hk, hw, hy⟩
        cases k with
        | zero =>
          simp only [walkAfter, Option.some.injEq] at hw
          rw [← hw] at hy
          exact absurd (hasId_of_step pawn hp) hy
        | succ k =>
          rw [walkAfter_succ pawn k a p hp] at hw
          exact ⟨k, y, by omega, hw, hy⟩

/-- Every id the walk reaches from a start that leads into a cycle is present. -/
theorem hasId_of_reach_cycle (pawn : BonePawn) {a y z : ID}
    (hy : Relation.ReflTransGen (ParentStep pawn) a y)
    (hc : Relation.TransGen (ParentStep pawn) y y)
    (hz : Relation.ReflTransGen (ParentStep pawn) a z) : HasId pawn z := by
  have hu : Relator.RightUnique (ParentStep pawn) := fun _ _ _ h1 h2 =>
    parentStep_functional pawn h1 h2
  rcases Relation.ReflTransGen.total_of_right_unique hu hy hz with h | h
  · obtain ⟨w, hw, _⟩ := Relation.TransGen.head'_iff.1 (back_to_cycle pawn hc h)
    exact hasId_of_step pawn hw
  · rcases Relation.ReflTransGen.cases_head h with rfl | ⟨w, hw, _⟩
    · obtain ⟨w, hw, _⟩ := Relation.TransGen.head'_iff.1 hc
      exact hasId_of_step pawn hw
    · exact hasId_of_step pawn hw

/-- A walk that finds a bone at each of its first `len + 1` pointers has entered
a cycle. -/
theorem cycle_of_long_walk (pawn : BonePawn) (a : ID)
    (h : ∀ i, i ≤ pawn.bones.length → ∃ x, walkAfter pawn i a = some x ∧ HasId pawn x) :
    ∃ y, Relation.ReflTransGen (ParentStep pawn) a y ∧
      Relation.TransGen (ParentStep pawn) y y := by
  let f : Nat → ID := fun i => (walkAfter pawn i a).getD 0
  have hcard : (pawn.bones.map (fun b => b.id)).toFinset.card <
      (Finset.range (pawn.bones.length + 1)).card := by
    have h1 := List.toFinset_card_le (pawn.bones.map (fun b => b.id))
    simp only [List.length_map] at h1
    simp only [Finset.card_range]
    omega
  have hmaps : ∀ i ∈ Finset.range (pawn.bones.length + 1),
      f i ∈ (pawn.bones.map (fun b => b.id)).toFinset := by
    intro i hi
    obtain ⟨x, hx, b, hb, hbx⟩ := h i (by simpa [Nat.lt_succ_iff] using hi)
    simp only [f, hx, Option.getD_some, List.mem_toFinset, List.mem_map]
    exact ⟨b, hb, hbx⟩
  obtain ⟨i, hi, j, hj, hne, hij⟩ := Finset.exists_ne_map_eq_of_card_lt_of_maps_to hcard hmaps
  have key : ∀ i j, i ≤ pawn.bones.length → j ≤ pawn.bones.length → i < j → f i = f j →
      ∃ y, Relation.ReflTransGen (ParentStep pawn) a y ∧
        Relation.TransGen (ParentStep pawn) y y := by
    intro i j hi hj hlt hij
    obtain ⟨x, hx, _⟩ := h i hi
    obtain ⟨x2, hx2, _⟩ := h j hj
    have hxx : x2 = x := by
      simp only [f, hx, hx2, Option.getD_some] at hij
      exact hij.symm
    subst hxx
    obtain ⟨d, hd⟩ : ∃ d, j = i + (d + 1) := ⟨j - i - 1, by omega⟩
    rw [hd, walkAfter_add, hx] at hx2
    simp only [Option.some_bind] at hx2
    exact ⟨x2, walkAfter_reach pawn i a x2 hx, walkAfter_reach_pos pawn d x2 x2 hx2⟩
  have hi' : i ≤ pawn.bones.length := by simpa [Nat.lt_succ_iff] using hi
  have hj' : j ≤ pawn.bones.length := by simpa [Nat.lt_succ_iff] using hj
  rcases Nat.lt_or_gt_of_ne hne with hlt | hlt
  · exact key i j hi' hj' hlt hij
  · exact key j i hj' hi' hlt hij.symm

/-- The loop test returns `false` exactly when the walk leads into a cycle. -/
theorem test_false_iff_cycle (pawn : BonePawn) (a : ID) :
    pawnTestBoneParentLoop pawn a = false ↔
      ∃ y, Relation.ReflTransGen (ParentStep pawn) a y ∧
        Relation.TransGen (ParentStep pawn) y y := by
  constructor
  · intro hf
    apply cycle_of_long_walk
    have hno : ∀ k y, k < pawn.bones.length + 1 → walkAfter pawn k a = some y → HasId pawn y := by
      intro k y hk hw
      by_contra hy
      have := (parentLoopFrom_iff pawn (pawn.bones.length + 1) a).2 ⟨k, y, hk, hw, hy⟩
      unfold pawnTestBoneParentLoop at hf
      rw [hf] at this
      cases this
    intro i
    induction i with
    | zero => intro _; exact ⟨a, rfl, hno 0 a (by omega) rfl⟩
    | succ i ih =>
      intro hi
      obtain ⟨x, hx, hxid⟩ := ih (by omega)
      obtain ⟨p, hp⟩ := (parentOf_isSome_iff pawn x).2 hxid
      have hw : walkAfter pawn (i + 1) a = some p := by
        rw [walkAfter_add, hx]
        simp only [Option.some_bind]
        rw [walkAfter_succ pawn 0 x p hp]
        rfl
      exact ⟨p, hw, hno (i + 1) p (by omega) hw⟩
  · rintro ⟨y, hy, hc⟩
    cases ht : pawnTestBoneParentLoop pawn a with
    | false => rfl
    | true =>
      exfalso
      unfold pawnTestBoneParentLoop at ht
      obtain ⟨k, z, _, hw, hz⟩ := (parentLoopFrom_iff pawn _ a).1 ht
      exact hz (hasId_of_reach_cycle pawn hy hc (walkAfter_reach pawn k a z hw))

/-! ## Positions of the lookups -/

theorem position_of_split (bones pre : List BoneData) (b : BoneData) (suf : List BoneData)
    (e : bones = pre ++ b :: suf) :
    pre.length < bones.length ∧ bones[pre.length]? = some b ∧
      ∀ j c, j < pre.length → bones[j]? = some c → c ∈ pre := by
  subst e
  refine ⟨by simp, getElem?_at_prefix pre b suf, ?_⟩
  intro j c hj hc
  rw [List.getElem?_append_left hj] at hc
  exact List.getElem?_mem hc

theorem mem_of_position (bones : List BoneData) (r : Nat) (b : BoneData)
    (h : bones[r]? = some b) : b ∈ bones :=
  List.getElem?_mem h

theorem boneAt_ofNat (bones : List BoneData) (k : Nat) : boneAt bones (k : Int) = bones[k]? := by
  unfold boneAt
  have h : ¬ ((k : Int) < 0) := by omega
  simp only [h, if_false, Int.toNat_ofNat]

theorem boneAt_some (bones : List BoneData) (i : Int) (b : BoneData)
    (h : boneAt bones i = some b) : ∃ k : Nat, i = (k : Int) ∧ bones[k]? = some b := by
  unfold boneAt at h
  by_cases hi : i < 0
  · simp [hi] at h
  · simp only [hi, if_false] at h
    exact ⟨i.toNat, by omega, h⟩

/-! ## The positions `pawnGetBoneChildren` lists -/

theorem mem_childrenFrom (parent : ID) :
    ∀ (bs : List BoneData) (pos i : Int),
      i ∈ childrenFrom parent bs pos ↔
        ∃ k : Nat, i = pos + (k : Int) ∧ ∃ b, bs[k]? = some b ∧ b.parent = parent := by
  intro bs
  induction bs with
  | nil => intro pos i; simp [childrenFrom]
  | cons a t ih =>
    intro pos i
    have hstep : (∃ k : Nat, i = pos + 1 + (k : Int) ∧ ∃ b, t[k]? = some b ∧ b.parent = parent) ↔
        ∃ k : Nat, i = pos + ((k + 1 : Nat) : Int) ∧
          ∃ b, (a :: t)[k + 1]? = some b ∧ b.parent = parent := by
      constructor
      · rintro ⟨k, hk, b, hb, hp⟩
        exact ⟨k, by push_cast; omega, b, by simpa using hb, hp⟩
      · rintro ⟨k, hk, b, hb, hp⟩
        exact ⟨k, by push_cast at hk; omega, b, by simpa using hb, hp⟩
    constructor
    · intro h
      by_cases ha : a.parent = parent
      · rw [childrenFrom, if_pos ha] at h
        rcases List.mem_cons.1 h with h | h
        · exact ⟨0, by simp [h], a, by simp, ha⟩
        · obtain ⟨k, hk, b, hb, hp⟩ := hstep.1 ((ih (pos + 1) i).1 h)
          exact ⟨k + 1, hk, b, hb, hp⟩
      · rw [childrenFrom, if_neg ha] at h
        obtain ⟨k, hk, b, hb, hp⟩ := hstep.1 ((ih (pos + 1) i).1 h)
        exact ⟨k + 1, hk, b, hb, hp⟩
    · rintro ⟨k, hk, b, hb, hp⟩
      cases k with
      | zero =>
        have hab : a = b := by simpa using hb
        subst hab
        rw [childrenFrom, if_pos hp]
        exact List.mem_cons.2 (Or.inl (by simpa using hk))
      | succ k =>
        have hin : i ∈ childrenFrom parent t (pos + 1) :=
          (ih (pos + 1) i).2 (hstep.2 ⟨k, hk, b, hb, hp⟩)
        by_cases ha : a.parent = parent
        · rw [childrenFrom, if_pos ha]
          exact List.mem_cons_of_mem _ hin
        · rw [childrenFrom, if_neg ha]
          exact hin

theorem childrenFrom_increasing (parent : ID) :
    ∀ (bs : List BoneData) (pos : Int),
      List.Pairwise (fun i j => i < j) (childrenFrom parent bs pos) := by
  intro bs
  induction bs with
  | nil => intro pos; simp [childrenFrom]
  | cons a t ih =>
    intro pos
    by_cases ha : a.parent = parent
    · rw [childrenFrom, if_pos ha]
      refine List.Pairwise.cons ?_ (ih (pos + 1))
      intro j hj
      obtain ⟨k, hk, _⟩ := (mem_childrenFrom parent t (pos + 1) j).1 hj
      omega
    · rw [childrenFrom, if_neg ha]
      exact ih (pos + 1)

/-! ## A move and the move back -/

theorem ne_of_distinct_neighbours (pre : List BoneData) (a b : BoneData) (suf : List BoneData)
    (h : ((pre ++ a :: b :: suf).map (fun x => x.id)).Nodup) : a.id ≠ b.id := by
  simp only [List.map_append, List.map_cons] at h
  have h2 := (List.nodup_append.1 h).2.1
  have h3 := (List.nodup_cons.1 h2).1
  intro hab
  exact h3 (by simp [hab])

theorem moveUp_then_moveDown (m : PoseModel) (boneid : ID)
    (pre : List BoneData) (a b : BoneData) (suf : List BoneData)
    (e : m.m_BonePawn.bones = pre ++ a :: b :: suf) (hb : b.id = boneid)
    (hpre : ∀ c ∈ pre ++ [a], c.id ≠ boneid) (hsize : m.m_BonePawn.bones.length < 2 ^ 64) :
    (cmdBoneMoveDown (cmdBoneMoveUp m boneid) boneid).m_BonePawn.bones = m.m_BonePawn.bones := by
  rw [cmdBoneMoveUp_swaps m boneid pre a b suf e hb hpre]
  have hlen : (pre ++ b :: a :: suf).length < 2 ^ 64 := by
    rw [e] at hsize
    simpa using hsize
  rw [cmdBoneMoveDown_swaps _ boneid pre b a suf rfl hb
    (fun c hc => hpre c (List.mem_append_left _ hc)) hlen]
  exact e.symm

theorem moveDown_then_moveUp (m : PoseModel) (boneid : ID)
    (pre : List BoneData) (a b : BoneData) (suf : List BoneData)
    (e : m.m_BonePawn.bones = pre ++ a :: b :: suf) (ha : a.id = boneid)
    (hpre : ∀ c ∈ pre, c.id ≠ boneid) (hsize : m.m_BonePawn.bones.length < 2 ^ 64)
    (hb : b.id ≠ boneid) :
    (cmdBoneMoveUp (cmdBoneMoveDown m boneid) boneid).m_BonePawn.bones = m.m_BonePawn.bones := by
  rw [cmdBoneMoveDown_swaps m boneid pre a b suf e ha hpre hsize]
  have hpre2 : ∀ c ∈ pre ++ [b], c.id ≠ boneid := by
    intro c hc
    rcases List.mem_append.1 hc with hc | hc
    · exact hpre c hc
    · rw [List.mem_singleton.1 hc]
      exact hb
  rw [cmdBoneMoveUp_swaps _ boneid pre b a suf rfl ha hpre2]
  exact e.symm

/-! ## The extension `addExtension` appends -/

theorem findLastOf_dot_csv (s : List Char) :
    findLastOf ['.'] (s ++ ['.', 'c', 's', 'v']) = some s.length := by
  unfold findLastOf
  have hrev : (s ++ ['.', 'c', 's', 'v']).reverse = 'v' :: 's' :: 'c' :: '.' :: s.reverse := by
    simp
  have hidx : ('v' :: 's' :: 'c' :: '.' :: s.reverse).findIdx? (fun c => ['.'].contains c) =
      some 3 := by
    rfl
  rw [hrev, hidx]
  simp

theorem csv_data : (".csv" : String).data = ['.', 'c', 's', 'v'] := rfl

/-- The result of `addExtension` is some text followed by `.csv`. -/
theorem addExtension_shape (arg : String) :
    ∃ s : List Char, addExtension arg = String.mk s ++ ".csv" := by
  unfold addExtension
  cases findLastOf ['.'] arg.toList with
  | none => exact ⟨arg.data, rfl⟩
  | some last => exact ⟨arg.toList.take last, rfl⟩

theorem addExtension_of_csv (s : List Char) :
    addExtension (String.mk s ++ ".csv") = String.mk s ++ ".csv" := by
  have hl : (String.mk s ++ ".csv").toList = s ++ ['.', 'c', 's', 'v'] := by
    show (String.mk s ++ ".csv").data = _
    rw [String.data_append, csv_data]
  unfold addExtension
  rw [hl, findLastOf_dot_csv]
  simp only [List.take_left']

/-! ## Empty lines and the final newline -/

theorem parseLine_nil (L : Lib) : parseLine L [] = none := rfl

theorem readLines_blank_line :
    ∀ (pre rest acc : List Char),
      [] ∈ readLines (pre ++ Char.ofNat 10 :: Char.ofNat 10 :: rest) acc := by
  intro pre
  induction pre with
  | nil =>
    intro rest acc
    rw [List.nil_append, readLines, if_pos rfl, readLines, if_pos rfl]
    simp
  | cons c cs ih =>
    intro rest acc
    rw [List.cons_append, readLines]
    by_cases hc : c = Char.ofNat 10
    · rw [if_pos hc]
      exact List.mem_cons_of_mem _ (ih rest [])
    · rw [if_neg hc]
      exact ih rest (c :: acc)

theorem readLines_leading_newline (rest : List Char) :
    [] ∈ readLines (Char.ofNat 10 :: rest) [] := by
  rw [readLines, if_pos rfl]
  simp

/-- A newline after a last line that is not empty adds no line. -/
theorem readLines_final_newline :
    ∀ (t acc : List Char), t.getLast? ≠ some (Char.ofNat 10) → (t ≠ [] ∨ acc ≠ []) →
      readLines (t ++ [Char.ofNat 10]) acc = readLines t acc := by
  intro t
  induction t with
  | nil =>
    intro acc _ hne
    have hacc : acc ≠ [] := by
      rcases hne with h | h
      · exact absurd rfl h
      · exact h
    have h1 : ∀ rest : List Char,
        readLines (Char.ofNat 10 :: rest) acc = acc.reverse :: readLines rest [] := by
      intro rest
      rw [readLines, if_pos rfl]
    have h2 : readLines [] ([] : List Char) = [] := rfl
    rw [List.nil_append, h1, h2]
    cases acc with
    | nil => exact absurd rfl hacc
    | cons a as => simp [readLines]
  | cons c cs ih =>
    intro acc hlast _
    have hcs : cs.getLast? ≠ some (Char.ofNat 10) := by
      intro h
      apply hlast
      cases cs with
      | nil => simp at h
      | cons d ds => simpa [List.getLast?_cons_cons] using h
    rw [List.cons_append, readLines, readLines]
    by_cases hc : c = Char.ofNat 10
    · rw [if_pos hc, if_pos hc]
      have hne : cs ≠ [] := by
        intro h
        apply hlast
        rw [h, hc]
        rfl
      rw [ih [] hcs (Or.inl hne)]
    · rw [if_neg hc, if_neg hc]
      exact ih (c :: acc) hcs (Or.inr (by simp))

/-! ## The seventh field -/

theorem splitComma_nil : splitComma [] = [[]] := rfl

theorem splitComma_six (f0 f1 f2 f3 f4 f5 last : List Char)
    (h0 : ',' ∉ f0) (h1 : ',' ∉ f1) (h2 : ',' ∉ f2) (h3 : ',' ∉ f3) (h4 : ',' ∉ f4)
    (h5 : ',' ∉ f5) (hl : ',' ∉ last) :
    splitComma (f0 ++ ',' :: (f1 ++ ',' :: (f2 ++ ',' :: (f3 ++ ',' :: (f4 ++ ',' ::
      (f5 ++ ',' :: last)))))) = [f0, f1, f2, f3, f4, f5, last] := by
  rw [splitComma_piece _ h0, splitComma_piece _ h1, splitComma_piece _ h2,
    splitComma_piece _ h3, splitComma_piece _ h4, splitComma_piece _ h5,
    splitComma_single _ hl]

/-! ## The dirty flag -/

theorem dirty_of_same_or_delta (m r : PoseModel) (hd : m.m_Delta = true)
    (h : r = m ∨ ∃ x, r = delta x) : r.m_Delta = true := by
  rcases h with rfl | ⟨x, rfl⟩
  · exact hd
  · rfl

theorem dirty_after_remove (m : PoseModel) (boneid : ID) (hd : m.m_Delta = true) :
    (cmdBoneRemove m boneid).m_Delta = true := by
  unfold cmdBoneRemove
  by_cases h : pawnFindBoneId m.m_BonePawn boneid ≥ 0
  · simp only [h, if_true]
  · simp only [h, if_false]
    exact hd

/-! ## Properties that depend on the bones only -/

theorem parentsClosed_congr (p q : BonePawn) (h : p.bones = q.bones) (hp : ParentsClosed p) :
    ParentsClosed q := by
  intro b hb
  rw [← h] at hb
  rcases hp b hb with h1 | h1
  · exact Or.inl h1
  · exact Or.inr ((hasId_congr p q h b.parent).1 h1)

theorem distinctIds_congr (p q : BonePawn) (h : p.bones = q.bones) (hp : DistinctIds p) :
    DistinctIds q := by
  unfold DistinctIds at hp ⊢
  rw [← h]
  exact hp

theorem openFile_congr_lines (L : Lib) (s t path : String)
    (h : readLines s.toList [] = readLines t.toList []) :
    openFile L (some s) path = openFile L (some t) path := by
  unfold openFile
  simp only []
  rw [h]

theorem toList_append_final_newline (t : String) :
    (t ++ newline).toList = t.toList ++ [Char.ofNat 10] := by
  show (t ++ newline).data = t.data ++ [Char.ofNat 10]
  rw [String.data_append]
  rfl

/-! ## The round trip within a tolerance -/

theorem mem_of_mem_afterCommas :
    ∀ (line : List Char) (n : Nat) (c : Char), c ∈ afterCommas n line → c ∈ line := by
  intro line
  induction line with
  | nil =>
    intro n c h
    cases n with
    | zero => exact h
    | succ n => simp [afterCommas] at h
  | cons d ds ih =>
    intro n c h
    cases n with
    | zero => exact h
    | succ n =>
      rw [afterCommas] at h
      by_cases hd : d = ','
      · rw [if_pos hd] at h
        exact List.mem_cons_of_mem _ (ih n c h)
      · rw [if_neg hd] at h
        exact List.mem_cons_of_mem _ (ih (n + 1) c h)

/-- The seventh field of a byte text is a byte text. -/
theorem byteText_seventh_field (line : List Char) (h : ByteText line) :
    ByteText ((afterCommas 6 line).takeWhile (fun c => decide (c ≠ ','))) := by
  intro c hc
  exact h c (mem_of_mem_afterCommas line 6 c (List.takeWhile_subset _ hc))

/-! ## The claims -/

/-- C1, counterexample: on the empty Untitled graph `add_bone(1)` completes and
creates bone 1 with parent 1, so bone 1 is reachable from itself in one parent
step. -/
theorem add_bone_own_id_makes_cycle :
    ∃ m, runCmds sampleLib untitled [Cmd.boneAdd 1] = .ok m ∧
      links m.m_BonePawn = [(1, 1)] ∧ ¬ Acyclic m.m_BonePawn := by
  refine ⟨_, rfl, by decide, ?_⟩
  intro h
  refine h 1 (Relation.TransGen.single ?_)
  show parentOf _ 1 = some 1
  decide

/-- C1, amended: starting from the empty Untitled graph, after every completed
sequence of bone commands in which each parent argument of `add_bone` and
`set_parent` is not positive or is the id of a bone present when the command is
issued, no id is reachable from itself by one or more parent steps. -/
theorem acyclic_after_known_parent_commands (L : Lib) (cmds : List Cmd) (m : PoseModel)
    (hargs : AlongRun L (fun pawn c => c.isBoneCmd = true ∧ c.parentKnown pawn) untitled cmds)
    (hrun : runCmds L untitled cmds = .ok m) : Acyclic m.m_BonePawn :=
  (runCmds_invariant L WellFormed _
    (fun m0 m1 c hw hok he => wellFormed_exec L m0 m1 c hok.1 hok.2 hw he)
    cmds untitled m (wellFormed_of_no_bones _ untitled_bones) hargs hrun).2.2.2

/-- C1, witness: the scenario `add_bone(-1)`, `add_bone(1)`, `set_parent(1, 2)`,
`remove_bone(1)` meets the hypotheses. -/
theorem acyclic_after_known_parent_commands_witness :
    ∃ m,
      AlongRun sampleLib (fun pawn c => c.isBoneCmd = true ∧ c.parentKnown pawn) untitled
        [Cmd.boneAdd (-1), Cmd.boneAdd 1, Cmd.boneSetParent 1 2, Cmd.boneRemove 1] ∧
      runCmds sampleLib untitled
        [Cmd.boneAdd (-1), Cmd.boneAdd 1, Cmd.boneSetParent 1 2, Cmd.boneRemove 1] = .ok m ∧
      Acyclic m.m_BonePawn :=
  have hargs : AlongRun sampleLib (fun pawn c => c.isBoneCmd = true ∧ c.parentKnown pawn) untitled
      [Cmd.boneAdd (-1), Cmd.boneAdd 1, Cmd.boneSetParent 1 2, Cmd.boneRemove 1] :=
    And.intro ⟨rfl, by decide⟩ (And.intro ⟨rfl, by decide⟩ (And.intro ⟨rfl, by decide⟩
      (And.intro ⟨rfl, by decide⟩ trivial)))
  ⟨_, hargs, rfl, acyclic_after_known_parent_commands sampleLib _ _ hargs rfl⟩

/-- C2, counterexample: after `add_bone(-1)` and `set_parent(1, 7)` on the empty
Untitled graph, bone 1 has parent 7 although no bone has id 7. -/
theorem set_parent_absent_id_dangles :
    ∃ m, runCmds sampleLib untitled [Cmd.boneAdd (-1), Cmd.boneSetParent 1 7] = .ok m ∧
      links m.m_BonePawn = [(1, 7)] ∧ ¬ ParentsClosed m.m_BonePawn :=
  ⟨_, rfl, by decide, by decide⟩

/-- C2, amended: starting from the empty Untitled graph, after every completed
sequence of bone commands in which each parent argument of `add_bone` and
`set_parent` is `-1` or the id of a bone present when the command is issued,
every bone's parent is `-1` or the id of a bone of the graph. -/
theorem parents_closed_after_present_parent_commands (L : Lib) (cmds : List Cmd) (m : PoseModel)
    (hargs : AlongRun L (fun pawn c => c.isBoneCmd = true ∧ c.parentPresent pawn) untitled cmds)
    (hrun : runCmds L untitled cmds = .ok m) : ParentsClosed m.m_BonePawn :=
  (runCmds_invariant L (fun pawn => WellFormed pawn ∧ ParentsClosed pawn) _
    (fun m0 m1 c hi hok he =>
      ⟨wellFormed_exec L m0 m1 c hok.1 (cmd_parentKnown_of_present _ c hok.2) hi.1 he,
        parentsClosed_exec L m0 m1 c hok.1 hok.2 hi.1 hi.2 he⟩)
    cmds untitled m
    ⟨wellFormed_of_no_bones _ untitled_bones, by intro b hb; simp [untitled_bones] at hb⟩
    hargs hrun).2

/-- C2, witness: `add_bone(-1)`, `add_bone(1)`, `add_bone(2)`, `remove_bone(2)`,
`set_parent(3, -1)` meets the hypotheses. -/
theorem parents_closed_after_present_parent_commands_witness :
    ∃ m,
      AlongRun sampleLib (fun pawn c => c.isBoneCmd = true ∧ c.parentPresent pawn) untitled
        [Cmd.boneAdd (-1), Cmd.boneAdd 1, Cmd.boneAdd 2, Cmd.boneRemove 2,
          Cmd.boneSetParent 3 (-1)] ∧
      runCmds sampleLib untitled
        [Cmd.boneAdd (-1), Cmd.boneAdd 1, Cmd.boneAdd 2, Cmd.boneRemove 2,
          Cmd.boneSetParent 3 (-1)] = .ok m ∧
      ParentsClosed m.m_BonePawn :=
  have hargs : AlongRun sampleLib (fun pawn c => c.isBoneCmd = true ∧ c.parentPresent pawn)
      untitled [Cmd.boneAdd (-1), Cmd.boneAdd 1, Cmd.boneAdd 2, Cmd.boneRemove 2,
        Cmd.boneSetParent 3 (-1)] :=
    And.intro ⟨rfl, by decide⟩ (And.intro ⟨rfl, by decide⟩ (And.intro ⟨rfl, by decide⟩
      (And.intro ⟨rfl, by decide⟩ (And.intro ⟨rfl, by decide⟩ trivial))))
  ⟨_, hargs, rfl, parents_closed_after_present_parent_commands sampleLib _ _ hargs rfl⟩

/-- C3, the code at the failing input: after `add_bone(-1)` and `set_saved(true)`
(what a successful save does) the model holds one bone and `saved = true`;
`remove_bone(1)` then empties the bone sequence and raises the dirty flag, yet
`saved` is still `true`. -/
theorem remove_bone_leaves_saved_true :
    ∃ m0, runCmds sampleLib untitled [Cmd.boneAdd (-1), Cmd.setSaved true] = .ok m0 ∧
      m0.m_BonePawn.bones.length = 1 ∧ m0.m_BonePawn.saved = true ∧
      (cmdBoneRemove m0 1).m_BonePawn.bones = [] ∧
      (cmdBoneRemove m0 1).m_Delta = true ∧
      (cmdBoneRemove m0 1).m_BonePawn.saved = true :=
  ⟨_, rfl, by decide, by decide, by decide, by decide, by decide⟩

/-- C4: on a graph without cycle, `set_parent(id, new_parent_id)` leaves a graph
without cycle; and when the graph with `new_parent_id` written as the parent of
bone `id` has a cycle, the model (graph, `saved`, dirty flag) is returned
unchanged. -/
theorem set_parent_keeps_acyclic (m : PoseModel) (boneid parentid : ID)
    (h : Acyclic m.m_BonePawn) :
    Acyclic (cmdBoneSetParent m boneid parentid).m_BonePawn ∧
      (¬ Acyclic (writeParent m.m_BonePawn boneid parentid) →
        cmdBoneSetParent m boneid parentid = m) :=
  ⟨acyclic_after_setParent m boneid parentid h, fun hn =>
    setParent_rejects_cycle m boneid parentid
      (cycle_writeParent m.m_BonePawn boneid parentid h hn).2⟩

/-- C4, witness: in the chain 2 → 1 → root, `set_parent(1, 2)` would close the
cycle 1 → 2 → 1 and is rejected. -/
theorem set_parent_keeps_acyclic_witness :
    Acyclic sampleChain.m_BonePawn ∧
      ¬ Acyclic (writeParent sampleChain.m_BonePawn 1 2) ∧
      Acyclic (cmdBoneSetParent sampleChain 1 2).m_BonePawn ∧
      cmdBoneSetParent sampleChain 1 2 = sampleChain :=
  have h0 : Acyclic sampleChain.m_BonePawn := acyclic_of_tests _ (by decide)
  have h1 : ¬ Acyclic (writeParent sampleChain.m_BonePawn 1 2) := fun h =>
    h 1 (Relation.TransGen.tail (Relation.TransGen.single (b := 2) (by unfold ParentStep; decide))
      (by unfold ParentStep; decide))
  ⟨h0, h1, (set_parent_keeps_acyclic sampleChain 1 2 h0).1,
    (set_parent_keeps_acyclic sampleChain 1 2 h0).2 h1⟩

/-- C5, counterexample: opening a file whose two lines both start with id 1
succeeds and yields a graph with the ids 1 and 1. -/
theorem open_file_duplicate_ids :
    ∃ m, runFileOps sampleLib untitled [FileOp.openFile (some sampleTwinFile) "pose.csv"] = .ok m ∧
      m.m_BonePawn.bones.map (fun b => b.id) = [1, 1] ∧ ¬ DistinctIds m.m_BonePawn :=
  ⟨_, rfl, by decide, by decide⟩

/-- C5, amended: starting from the empty Untitled graph, after every completed
sequence of `add_bone` and `open_file` operations in which every opened file
decodes to a graph with pairwise distinct ids, all ids of the resulting graph
are pairwise distinct (`add_bone` with any parent id never repeats an id). -/
theorem ids_distinct_after_adds_and_files (L : Lib) (ops : List FileOp) (m : PoseModel)
    (hfiles : ∀ f p, FileOp.openFile f p ∈ ops → DistinctIds (openFile L f p))
    (hrun : runFileOps L untitled ops = .ok m) : DistinctIds m.m_BonePawn :=
  distinctIds_after_file_ops L ops untitled m (by decide) hfiles hrun

/-- C5, witness: `add_bone(-1)`, opening a file with ids 1 and 2, then
`add_bone(2)` and `add_bone(7)`. -/
theorem ids_distinct_after_adds_and_files_witness :
    ∃ m,
      (∀ f p, FileOp.openFile f p ∈
          [FileOp.addBone (-1), FileOp.openFile (some sampleChainFile) "pose.csv",
            FileOp.addBone 2, FileOp.addBone 7] →
        DistinctIds (openFile sampleLib f p)) ∧
      runFileOps sampleLib untitled
        [FileOp.addBone (-1), FileOp.openFile (some sampleChainFile) "pose.csv",
          FileOp.addBone 2, FileOp.addBone 7] = .ok m ∧
      m.m_BonePawn.bones.map (fun b => b.id) = [1, 2, 3, 4] ∧
      DistinctIds m.m_BonePawn :=
  have hfiles : ∀ f p, FileOp.openFile f p ∈
      [FileOp.addBone (-1), FileOp.openFile (some sampleChainFile) "pose.csv",
        FileOp.addBone 2, FileOp.addBone 7] → DistinctIds (openFile sampleLib f p) := by
    intro f p hmem
    simp only [List.mem_cons, List.mem_singleton, FileOp.openFile.injEq, reduceCtorEq,
      false_or, or_false, List.not_mem_nil] at hmem
    obtain ⟨rfl, rfl⟩ := hmem
    decide
  ⟨_, hfiles, rfl, by decide, ids_distinct_after_adds_and_files sampleLib _ _ hfiles rfl⟩

/-- C6: starting from the empty Untitled graph, after every completed sequence
of the seven bone commands, with arbitrary arguments, all display names of the
graph are pairwise distinct. -/
theorem names_distinct_after_commands (L : Lib) (cmds : List Cmd) (m : PoseModel)
    (hcmds : ∀ c ∈ cmds, c.isBoneCmd = true)
    (hrun : runCmds L untitled cmds = .ok m) : DistinctNames m.m_BonePawn :=
  runCmds_invariant L DistinctNames (fun _ c => c.isBoneCmd = true)
    (fun m0 m1 c hd hok he => distinctNames_exec L m0 m1 c hok hd he)
    cmds untitled m (by decide) (alongRun_of_forall L _ cmds untitled hcmds) hrun

set_option maxRecDepth 8192 in
/-- C6, witness: a run that tries to give bone 2 the name of bone 1, renames
bone 1 and adds a bone, which takes the name that became free. -/
theorem names_distinct_after_commands_witness :
    ∃ m,
      (∀ c ∈ [Cmd.boneAdd (-1), Cmd.boneAdd 1, Cmd.boneSetName 2 "bone (1)",
          Cmd.boneSetName 1 "hip", Cmd.boneAdd 9],
        c.isBoneCmd = true) ∧
      runCmds sampleLib untitled
        [Cmd.boneAdd (-1), Cmd.boneAdd 1, Cmd.boneSetName 2 "bone (1)",
          Cmd.boneSetName 1 "hip", Cmd.boneAdd 9] = .ok m ∧
      m.m_BonePawn.bones.map (fun b => b.displayName) = ["hip", "bone (2)", "bone (1)"] ∧
      DistinctNames m.m_BonePawn :=
  have hrun : runCmds sampleLib untitled
      [Cmd.boneAdd (-1), Cmd.boneAdd 1, Cmd.boneSetName 2 "bone (1)",
        Cmd.boneSetName 1 "hip", Cmd.boneAdd 9] = .ok _ := rfl
  ⟨_, by decide, hrun, by decide,
    names_distinct_after_commands sampleLib _ _ (by decide) hrun⟩

/-- C7: in a graph with pairwise distinct ids, `remove_bone(B.id)` for a bone
`B` of the graph yields the other bones in their old order, each bone whose
parent was `B.id` now with `B`'s former parent and every other bone unchanged;
no bone has id `B.id` afterwards and the bone count is one less. -/
theorem remove_bone_splices (m : PoseModel) (B : BoneData)
    (hd : DistinctIds m.m_BonePawn) (hB : B ∈ m.m_BonePawn.bones) :
    ∃ pre suf, m.m_BonePawn.bones = pre ++ B :: suf ∧
      (cmdBoneRemove m B.id).m_BonePawn.bones =
        (pre ++ suf).map (fun c => if c.parent = B.id then { c with parent := B.parent } else c) ∧
      (∀ c ∈ (cmdBoneRemove m B.id).m_BonePawn.bones, c.id ≠ B.id) ∧
      (cmdBoneRemove m B.id).m_BonePawn.bones.length + 1 = m.m_BonePawn.bones.length := by
  obtain ⟨pre, suf, e⟩ := List.append_of_mem hB
  have hids := hd
  unfold DistinctIds at hids
  rw [e, List.map_append, List.map_cons] at hids
  have hpre : ∀ c ∈ pre, c.id ≠ B.id := by
    intro c hc hcB
    exact (List.nodup_append.1 hids).2.2 (List.mem_map_of_mem (fun b => b.id) hc)
      (by simp [hcB])
  have hsuf : ∀ c ∈ suf, c.id ≠ B.id := by
    intro c hc hcB
    have h2 := (List.nodup_cons.1 (List.nodup_append.1 hids).2.1).1
    exact h2 (by rw [← hcB]; exact List.mem_map_of_mem (fun b => b.id) hc)
  have hfind : pawnFindBoneId m.m_BonePawn B.id = (pre.length : Int) := by
    rcases pawnFindBoneId_split m.m_BonePawn B.id with ⟨_, h2⟩ | ⟨pre2, b2, suf2, e2, hb2, hp2, hf⟩
    · exact absurd ⟨B, hB, rfl⟩ h2
    · rw [e] at e2
      have := (first_split_unique B.id pre pre2 B b2 suf suf2 e2 rfl hb2 hpre hp2).1
      rw [hf, this]
  have hres := cmdBoneRemove_found m B.id pre B suf e hfind
  have hbones : (cmdBoneRemove m B.id).m_BonePawn.bones =
      (pre ++ suf).map (spliceParent B.id B.parent) := by rw [hres]; rfl
  refine ⟨pre, suf, e, ?_, ?_, ?_⟩
  · rw [hbones]; rfl
  · rw [hbones]
    intro c hc
    obtain ⟨c0, hc0, rfl⟩ := List.mem_map.1 hc
    have hid : (spliceParent B.id B.parent c0).id = c0.id := by
      unfold spliceParent
      split <;> rfl
    rw [hid]
    rcases List.mem_append.1 hc0 with h | h
    · exact hpre c0 h
    · exact hsuf c0 h
  · rw [hbones, e]
    simp only [List.length_map, List.length_append, List.length_cons]
    omega

/-- C7, witness: removing bone 1 from the chain 2 → 1 → root leaves bone 2 as a
root. -/
theorem remove_bone_splices_witness :
    DistinctIds sampleChain.m_BonePawn ∧ sampleBone 1 (-1) ∈ sampleChain.m_BonePawn.bones ∧
      (cmdBoneRemove sampleChain 1).m_BonePawn.bones = [sampleBone 2 (-1)] ∧
      ∃ pre suf, sampleChain.m_BonePawn.bones = pre ++ sampleBone 1 (-1) :: suf ∧
        (cmdBoneRemove sampleChain (sampleBone 1 (-1)).id).m_BonePawn.bones =
          (pre ++ suf).map (fun c =>
            if c.parent = (sampleBone 1 (-1)).id then
              { c with parent := (sampleBone 1 (-1)).parent } else c) ∧
        (∀ c ∈ (cmdBoneRemove sampleChain (sampleBone 1 (-1)).id).m_BonePawn.bones,
          c.id ≠ (sampleBone 1 (-1)).id) ∧
        (cmdBoneRemove sampleChain (sampleBone 1 (-1)).id).m_BonePawn.bones.length + 1 =
          sampleChain.m_BonePawn.bones.length :=
  ⟨by decide, by decide, by decide,
    remove_bone_splices sampleChain (sampleBone 1 (-1)) (by decide) (by decide)⟩

/-- C8: a command that fails validation (a remove, move, rotation, rename or
re-parent whose id is not in the graph, a rename to a name some bone holds, a
re-parent whose written parent puts the bone on a cycle) completes and returns
the model unchanged: bone sequence, metadata, `saved` and dirty flag. -/
theorem failed_validation_changes_nothing (L : Lib) (m : PoseModel) (c : Cmd)
    (h : c.failsValidation m.m_BonePawn) : c.exec L m = .ok m := by
  cases c with
  | setPawn _ => exact absurd h id
  | setFilePath _ => exact absurd h id
  | setFileName _ => exact absurd h id
  | setLoaded _ => exact absurd h id
  | setSaved _ => exact absurd h id
  | boneAdd _ => exact absurd h id
  | boneRemove boneid =>
    show Except.ok (cmdBoneRemove m boneid) = _
    rw [cmdBoneRemove_absent m boneid h]
  | boneMoveUp boneid =>
    show Except.ok (cmdBoneMoveUp m boneid) = _
    have h1 := (pawnFindBoneId_neg_iff _ _).2 h
    have h2 : ¬ pawnFindBoneId m.m_BonePawn boneid > 0 := by omega
    simp [cmdBoneMoveUp, h2]
  | boneMoveDown boneid =>
    show Except.ok (cmdBoneMoveDown m boneid) = _
    have h1 := (pawnFindBoneId_neg_iff _ _).2 h
    have h2 : ¬ pawnFindBoneId m.m_BonePawn boneid ≥ 0 := by omega
    simp [cmdBoneMoveDown, h2]
  | boneSetRotation boneid euler =>
    show Except.ok (cmdBoneSetRotation L m boneid euler) = _
    have h1 := (pawnFindBoneId_neg_iff _ _).2 h
    have h2 : ¬ pawnFindBoneId m.m_BonePawn boneid ≥ 0 := by omega
    simp [cmdBoneSetRotation, h2]
  | boneSetName boneid name =>
    show Except.ok (cmdBoneSetName m boneid name) = _
    rw [cmdBoneSetName_rejected m boneid name h]
  | boneSetParent boneid parentid =>
    show Except.ok (cmdBoneSetParent m boneid parentid) = _
    rcases h with h | h
    · rw [cmdBoneSetParent_eq]
      simp [h]
    · rw [setParent_rejects_cycle m boneid parentid h]

/-- C8, witness: in the chain 2 → 1 → root, `set_parent(1, 2)` fails validation
(bone 1 would lie on the cycle 1 → 2 → 1) and returns the model unchanged. -/
theorem failed_validation_changes_nothing_witness :
    (Cmd.boneSetParent 1 2).failsValidation sampleChain.m_BonePawn ∧
      (Cmd.boneSetParent 1 2).exec sampleLib sampleChain = .ok sampleChain :=
  have h : (Cmd.boneSetParent 1 2).failsValidation sampleChain.m_BonePawn :=
    Or.inr (Relation.TransGen.tail
      (Relation.TransGen.single (b := 2) (by unfold ParentStep; decide))
      (by unfold ParentStep; decide))
  ⟨h, failed_validation_changes_nothing sampleLib sampleChain _ h⟩

/-- C9: when `add_bone(parent_id)` completes, exactly one bone is inserted; its
id is the least integer `n ≥ 1` that no existing bone has as id, its display
name is `"bone (N)"` for the least integer `N ≥ 1` such that no existing bone
has that exact name, and its parent field is `parent_id`. -/
theorem add_bone_least_id_and_name (L : Lib) (m m1 : PoseModel) (parentid : ID)
    (h : cmdBoneAdd L m parentid = .ok m1) :
    ∃ (nb : BoneData) (pre suf : List BoneData) (N : Int),
      m.m_BonePawn.bones = pre ++ suf ∧ m1.m_BonePawn.bones = pre ++ nb :: suf ∧
      nb.parent = parentid ∧
      1 ≤ nb.id ∧ ¬ HasId m.m_BonePawn nb.id ∧
      (∀ j : Int, 1 ≤ j → j < nb.id → HasId m.m_BonePawn j) ∧
      1 ≤ N ∧ nb.displayName = "bone (" ++ toString N ++ ")" ∧
      ¬ HasName m.m_BonePawn ("bone (" ++ toString N ++ ")") ∧
      (∀ j : Int, 1 ≤ j → j < N → HasName m.m_BonePawn ("bone (" ++ toString j ++ ")")) := by
  obtain ⟨id, name, hid, hname, hshape⟩ := cmdBoneAdd_ok L m m1 parentid h
  unfold getUniqueBoneId at hid
  unfold getUniqueBoneName at hname
  obtain ⟨i1, _, i3, i4⟩ := uniqueIdLoop_some _ _ _ _ hid
  obtain ⟨N, n1, _, n3, n4, n5⟩ := uniqueNameLoop_some _ _ _ _ hname
  have hsplit : ∃ pre suf, m.m_BonePawn.bones = pre ++ suf ∧
      m1.m_BonePawn.bones = pre ++ newBone L id parentid name :: suf := by
    rcases hshape with ⟨_, pre, b, suf, e, _, _, hm1⟩ | ⟨_, hm1⟩
    · refine ⟨pre ++ [b], suf, by simp [e], ?_⟩
      rw [hm1]
      simp [withBones]
    · refine ⟨m.m_BonePawn.bones, [], by simp, ?_⟩
      rw [hm1]
      rfl
  obtain ⟨pre, suf, e1, e2⟩ := hsplit
  exact ⟨newBone L id parentid name, pre, suf, N, e1, e2, rfl, i1, i3, i4, n1, n3, n4, n5⟩

/-- C9, witness: with bones 1 and 2 named `"bone (1)"` and `"bone (2)"` present,
`add_bone(1)` completes and creates bone 3 named `"bone (3)"` with parent 1. -/
theorem add_bone_least_id_and_name_witness :
    ∃ m1, cmdBoneAdd sampleLib sampleChain 1 = .ok m1 ∧
      m1.m_BonePawn.bones = [sampleBone 1 (-1), sampleBone 3 1, sampleBone 2 1] ∧
      ∃ (nb : BoneData) (pre suf : List BoneData) (N : Int),
        sampleChain.m_BonePawn.bones = pre ++ suf ∧ m1.m_BonePawn.bones = pre ++ nb :: suf ∧
        nb.parent = 1 ∧
        1 ≤ nb.id ∧ ¬ HasId sampleChain.m_BonePawn nb.id ∧
        (∀ j : Int, 1 ≤ j → j < nb.id → HasId sampleChain.m_BonePawn j) ∧
        1 ≤ N ∧ nb.displayName = "bone (" ++ toString N ++ ")" ∧
        ¬ HasName sampleChain.m_BonePawn ("bone (" ++ toString N ++ ")") ∧
        (∀ j : Int, 1 ≤ j → j < N →
          HasName sampleChain.m_BonePawn ("bone (" ++ toString j ++ ")")) :=
  ⟨_, rfl, by decide, add_bone_least_id_and_name sampleLib sampleChain _ 1 rfl⟩

/-- C10: when `add_bone(parent_id)` completes, the bone count grows by exactly
one and the dirty flag is raised; if `parent_id > 0` and the first bone with id
`parent_id` is at position `p` (after the prefix `pre`), the new bone is at
position `p + 1` and the old bones keep their order around it; in every other
case (`parent_id ≤ 0`, also when a bone has that id, or no bone has the id) the
new bone is the last element. -/
theorem add_bone_position (L : Lib) (m m1 : PoseModel) (parentid : ID)
    (h : cmdBoneAdd L m parentid = .ok m1) :
    ∃ nb : BoneData, nb.parent = parentid ∧ ¬ HasId m.m_BonePawn nb.id ∧
      (∀ pre b suf, 0 < parentid → m.m_BonePawn.bones = pre ++ b :: suf → b.id = parentid →
        (∀ c ∈ pre, c.id ≠ parentid) → m1.m_BonePawn.bones = pre ++ b :: nb :: suf) ∧
      ((parentid ≤ 0 ∨ ¬ HasId m.m_BonePawn parentid) →
        m1.m_BonePawn.bones = m.m_BonePawn.bones ++ [nb]) ∧
      m1.m_BonePawn.bones.length = m.m_BonePawn.bones.length + 1 ∧
      m1.m_Delta = true := by
  obtain ⟨id, name, hid, _, hshape⟩ := cmdBoneAdd_ok L m m1 parentid h
  unfold getUniqueBoneId at hid
  obtain ⟨_, _, i3, _⟩ := uniqueIdLoop_some _ _ _ _ hid
  refine ⟨newBone L id parentid name, rfl, i3, ?_, ?_, ?_, ?_⟩
  · intro pre b suf hpos e hb hpre
    rcases hshape with ⟨_, pre2, b2, suf2, e2, hb2, hp2, hm1⟩ | ⟨hno, _⟩
    · rw [e] at e2
      obtain ⟨r1, r2, r3⟩ := first_split_unique parentid pre pre2 b b2 suf suf2 e2 hb hb2 hpre hp2
      rw [hm1, r1, r2, r3]
      rfl
    · rcases hno with hno | hno
      · exact absurd hpos (not_lt.mpr hno)
      · exact absurd ⟨b, by simp [e], hb⟩ hno
  · intro hcase
    rcases hshape with ⟨hpos, pre2, b2, suf2, e2, hb2, _, _⟩ | ⟨_, hm1⟩
    · rcases hcase with hc | hc
      · exact absurd hpos (not_lt.mpr hc)
      · exact absurd ⟨b2, by simp [e2], hb2⟩ hc
    · rw [hm1]
      rfl
  · rcases hshape with ⟨_, pre2, b2, suf2, e2, _, _, hm1⟩ | ⟨_, hm1⟩
    · rw [hm1, e2]
      simp only [withBones, List.length_append, List.length_cons]
      omega
    · rw [hm1]
      simp [withBones, delta]
  · rcases hshape with ⟨_, pre2, b2, suf2, e2, _, _, hm1⟩ | ⟨_, hm1⟩
    · rw [hm1]; rfl
    · rw [hm1]; rfl

/-- C10, witness: in the chain 2 → 1 → root, `add_bone(1)` completes and puts
the new bone at position 1, right after bone 1 at position 0. -/
theorem add_bone_position_witness :
    ∃ m1, cmdBoneAdd sampleLib sampleChain 1 = .ok m1 ∧
      m1.m_BonePawn.bones.map (fun b => b.id) = [1, 3, 2] ∧
      ∃ nb : BoneData, nb.parent = 1 ∧ ¬ HasId sampleChain.m_BonePawn nb.id ∧
        (∀ pre b suf, 0 < (1 : ID) → sampleChain.m_BonePawn.bones = pre ++ b :: suf → b.id = 1 →
          (∀ c ∈ pre, c.id ≠ 1) → m1.m_BonePawn.bones = pre ++ b :: nb :: suf) ∧
        (((1 : ID) ≤ 0 ∨ ¬ HasId sampleChain.m_BonePawn 1) →
          m1.m_BonePawn.bones = sampleChain.m_BonePawn.bones ++ [nb]) ∧
        m1.m_BonePawn.bones.length = sampleChain.m_BonePawn.bones.length + 1 ∧
        m1.m_Delta = true :=
  ⟨_, rfl, by decide, add_bone_position sampleLib sampleChain _ 1 rfl⟩

/-- C11: the scenario of the specification, for any library. From the Untitled
graph `add_bone(-1)` gives the single bone (id 1, `"bone (1)"`, parent -1);
`add_bone(1)` then puts bone 2 (parent 1) at position 1; `set_parent(1, 2)`
returns the model unchanged, bone 1 still with parent -1; `remove_bone(1)`
leaves bone 2 alone, with parent -1. -/
theorem spec_scenario (L : Lib) :
    untitled.m_BonePawn.bones = [] ∧
    cmdBoneAdd L untitled (-1) = .ok (editedUntitled [newBone L 1 (-1) "bone (1)"]) ∧
    cmdBoneAdd L (editedUntitled [newBone L 1 (-1) "bone (1)"]) 1 =
      .ok (editedUntitled [newBone L 1 (-1) "bone (1)", newBone L 2 1 "bone (2)"]) ∧
    cmdBoneSetParent (editedUntitled [newBone L 1 (-1) "bone (1)", newBone L 2 1 "bone (2)"]) 1 2 =
      editedUntitled [newBone L 1 (-1) "bone (1)", newBone L 2 1 "bone (2)"] ∧
    cmdBoneRemove (editedUntitled [newBone L 1 (-1) "bone (1)", newBone L 2 1 "bone (2)"]) 1 =
      editedUntitled [newBone L 2 (-1) "bone (2)"] ∧
    runCmds L untitled
        [Cmd.boneAdd (-1), Cmd.boneAdd 1, Cmd.boneSetParent 1 2, Cmd.boneRemove 1] =
      .ok (editedUntitled [newBone L 2 (-1) "bone (2)"]) := by
  have h1 : cmdBoneAdd L untitled (-1) = .ok (editedUntitled [newBone L 1 (-1) "bone (1)"]) := rfl
  have h2 : cmdBoneAdd L (editedUntitled [newBone L 1 (-1) "bone (1)"]) 1 =
      .ok (editedUntitled [newBone L 1 (-1) "bone (1)", newBone L 2 1 "bone (2)"]) := rfl
  have h3 : cmdBoneSetParent
      (editedUntitled [newBone L 1 (-1) "bone (1)", newBone L 2 1 "bone (2)"]) 1 2 =
      editedUntitled [newBone L 1 (-1) "bone (1)", newBone L 2 1 "bone (2)"] := rfl
  have h4 : cmdBoneRemove
      (editedUntitled [newBone L 1 (-1) "bone (1)", newBone L 2 1 "bone (2)"]) 1 =
      editedUntitled [newBone L 2 (-1) "bone (2)"] := rfl
  refine ⟨rfl, h1, h2, h3, h4, ?_⟩
  simp only [runCmds, Cmd.exec, h1, h2, h3, h4]

/-- C12: `set_name(id, name)` changes the model if and only if the id is found
and no bone of the graph, the target included, holds `name`; the change is that
the first bone with the id takes the name, `saved` becomes `false` and the dirty
flag is raised. In particular a rename to a name some bone holds, such as the
bone's own current name, returns the model unchanged. -/
theorem set_name_iff (m : PoseModel) (boneid : ID) (name : String) :
    (cmdBoneSetName m boneid name ≠ m ↔
      (HasId m.m_BonePawn boneid ∧ ¬ HasName m.m_BonePawn name)) ∧
    (∀ pre b suf, m.m_BonePawn.bones = pre ++ b :: suf → b.id = boneid →
      (∀ c ∈ pre, c.id ≠ boneid) → ¬ HasName m.m_BonePawn name →
      cmdBoneSetName m boneid name =
        { m_BonePawn := { m.m_BonePawn with
            bones := pre ++ { b with displayName := name } :: suf, saved := false }
          m_Delta := true }) ∧
    (∀ b ∈ m.m_BonePawn.bones, b.displayName = name → cmdBoneSetName m boneid name = m) := by
  refine ⟨⟨?_, ?_⟩, ?_, ?_⟩
  · intro hne
    by_contra hc
    apply hne
    apply cmdBoneSetName_rejected
    by_cases h1 : HasId m.m_BonePawn boneid
    · right
      by_contra h2
      exact hc ⟨h1, h2⟩
    · left; exact h1
  · rintro ⟨hid, hname⟩
    rcases pawnFindBoneId_split m.m_BonePawn boneid with ⟨_, h2⟩ | ⟨pre, b, suf, e, hb, hpre, _⟩
    · exact absurd hid h2
    · rw [cmdBoneSetName_accepted m boneid name pre b suf e hb hpre hname]
      intro heq
      have hbones := congrArg (fun x => x.m_BonePawn.bones) heq
      simp only [e] at hbones
      have hb2 := (List.cons.inj (List.append_cancel_left hbones)).1
      apply hname
      refine ⟨b, by simp [e], ?_⟩
      rw [← hb2]
  · intro pre b suf e hb hpre hname
    exact cmdBoneSetName_accepted m boneid name pre b suf e hb hpre hname
  · intro b hb hbn
    exact cmdBoneSetName_rejected m boneid name (Or.inr ⟨b, hb, hbn⟩)

/-- C12, witness: with bones `hip` (id 1) and `knee` (id 2), `set_name(2, "shin")`
renames bone 2, clears `saved` and raises the dirty flag, while `set_name(2, "knee")`
and `set_name(2, "hip")` change nothing. -/
theorem set_name_iff_witness :
    cmdBoneSetName sampleNamed 2 "shin" ≠ sampleNamed ∧
    cmdBoneSetName sampleNamed 2 "shin" =
      { m_BonePawn := { sampleNamed.m_BonePawn with
          bones := [newBone sampleLib 1 (-1) "hip"] ++
            { newBone sampleLib 2 1 "knee" with displayName := "shin" } :: [], saved := false }
        m_Delta := true } ∧
    cmdBoneSetName sampleNamed 2 "knee" = sampleNamed ∧
    cmdBoneSetName sampleNamed 2 "hip" = sampleNamed :=
  ⟨(set_name_iff sampleNamed 2 "shin").1.2 ⟨by decide, by decide⟩,
    (set_name_iff sampleNamed 2 "shin").2.1 [newBone sampleLib 1 (-1) "hip"]
      (newBone sampleLib 2 1 "knee") [] rfl rfl (by decide) (by decide),
    (set_name_iff sampleNamed 2 "knee").2.2 (newBone sampleLib 2 1 "knee") (by decide) rfl,
    (set_name_iff sampleNamed 2 "hip").2.2 (newBone sampleLib 1 (-1) "hip") (by decide) rfl⟩

/-- C13: `move_up(id)` when the first bone with the id is at position 0,
`move_down(id)` when the first bone with the id is at the last position, and
both commands when no bone has the id (so also on the empty graph) return the
model unchanged: bone sequence, `saved` and dirty flag. -/
theorem move_boundary (m : PoseModel) (boneid : ID) :
    (∀ b suf, m.m_BonePawn.bones = b :: suf → b.id = boneid → cmdBoneMoveUp m boneid = m) ∧
    (∀ pre b, m.m_BonePawn.bones = pre ++ [b] → b.id = boneid → (∀ c ∈ pre, c.id ≠ boneid) →
      cmdBoneMoveDown m boneid = m) ∧
    (¬ HasId m.m_BonePawn boneid → cmdBoneMoveUp m boneid = m ∧ cmdBoneMoveDown m boneid = m) ∧
    (m.m_BonePawn.bones = [] → cmdBoneMoveUp m boneid = m ∧ cmdBoneMoveDown m boneid = m) :=
  ⟨fun b suf e hb => cmdBoneMoveUp_at_front m boneid b suf e hb,
    fun pre b e hb hpre => cmdBoneMoveDown_at_end m boneid pre b e hb hpre,
    fun h => cmdBoneMove_absent m boneid h,
    fun h => cmdBoneMove_absent m boneid (by rintro ⟨b, hb, _⟩; simp [h] at hb)⟩

/-- C13, witness: in the sequence hip, knee, `move_up(1)`, `move_down(2)` and the
moves of the absent id 5 change nothing. -/
theorem move_boundary_witness :
    cmdBoneMoveUp sampleNamed 1 = sampleNamed ∧ cmdBoneMoveDown sampleNamed 2 = sampleNamed ∧
    cmdBoneMoveUp sampleNamed 5 = sampleNamed ∧ cmdBoneMoveDown sampleNamed 5 = sampleNamed :=
  ⟨(move_boundary sampleNamed 1).1 _ _ rfl rfl,
    (move_boundary sampleNamed 2).2.1 [newBone sampleLib 1 (-1) "hip"] _ rfl rfl (by decide),
    ((move_boundary sampleNamed 5).2.2.1 (by decide)).1,
    ((move_boundary sampleNamed 5).2.2.1 (by decide)).2⟩

/-- C14: when the bone sequence is `pre ++ a :: b :: suf` (fewer than `2 ^ 64`
elements, the range of `size()`), `move_up(id)` with `b` the first bone with the
id and `move_down(id)` with `a` the first bone with the id both yield
`pre ++ b :: a :: suf`: the two neighbours change place and every bone is the
same value as before; `saved` becomes `false` and the dirty flag is raised. -/
theorem move_swaps_neighbours (m : PoseModel) (boneid : ID)
    (pre : List BoneData) (a b : BoneData) (suf : List BoneData)
    (e : m.m_BonePawn.bones = pre ++ a :: b :: suf)
    (hsize : m.m_BonePawn.bones.length < 2 ^ 64) :
    (b.id = boneid → (∀ c ∈ pre ++ [a], c.id ≠ boneid) →
      cmdBoneMoveUp m boneid =
        { m_BonePawn := { m.m_BonePawn with bones := pre ++ b :: a :: suf, saved := false }
          m_Delta := true }) ∧
    (a.id = boneid → (∀ c ∈ pre, c.id ≠ boneid) →
      cmdBoneMoveDown m boneid =
        { m_BonePawn := { m.m_BonePawn with bones := pre ++ b :: a :: suf, saved := false }
          m_Delta := true }) :=
  ⟨fun hb hpre => cmdBoneMoveUp_swaps m boneid pre a b suf e hb hpre,
    fun ha hpre => cmdBoneMoveDown_swaps m boneid pre a b suf e ha hpre hsize⟩

/-- C14, witness: in the sequence hip, knee, both `move_up(2)` and `move_down(1)`
give the sequence knee, hip. -/
theorem move_swaps_neighbours_witness :
    sampleNamed.m_BonePawn.bones =
      [] ++ newBone sampleLib 1 (-1) "hip" :: newBone sampleLib 2 1 "knee" :: [] ∧
    sampleNamed.m_BonePawn.bones.length < 2 ^ 64 ∧
    cmdBoneMoveUp sampleNamed 2 =
      { m_BonePawn := { sampleNamed.m_BonePawn with
          bones := [] ++ newBone sampleLib 2 1 "knee" :: newBone sampleLib 1 (-1) "hip" :: [],
          saved := false }
        m_Delta := true } ∧
    cmdBoneMoveDown sampleNamed 1 =
      { m_BonePawn := { sampleNamed.m_BonePawn with
          bones := [] ++ newBone sampleLib 2 1 "knee" :: newBone sampleLib 1 (-1) "hip" :: [],
          saved := false }
        m_Delta := true } :=
  ⟨rfl, by decide,
    (move_swaps_neighbours sampleNamed 2 [] _ _ [] rfl (by decide)).1 rfl (by decide),
    (move_swaps_neighbours sampleNamed 1 [] _ _ [] rfl (by decide)).2 rfl (by decide)⟩

/-- C16, counterexample: the line `1, -1, 0, 0, 0, 1, a,b` is accepted with the
display name `a`, while the remainder after the sixth comma without its first
character is `a,b`. -/
theorem name_stops_at_next_comma :
    ∃ bone, parseLine sampleLib sampleCommaLine.toList = some bone ∧
      bone.displayName = "a" ∧ nameAsRemainder sampleCommaLine.toList = "a,b" ∧
      bone.displayName ≠ nameAsRemainder sampleCommaLine.toList :=
  ⟨_, rfl, by decide, by decide, by decide⟩

/-- C16, amended: for every line (a byte text) that decodes successfully, the
display name is the text after the sixth comma up to the next comma or the end
of the line, with exactly its first character, one byte, removed; it is the
whole remainder of the line without its first character when that remainder
holds no comma. -/
theorem name_is_seventh_field (L : Lib) (line : List Char) (bone : BoneData)
    (hbytes : ByteText line) (h : parseLine L line = some bone) :
    (∃ c, c.toNat < 256 ∧
      (afterCommas 6 line).takeWhile (fun c => decide (c ≠ ',')) =
        c :: bone.displayName.toList) ∧
    ByteText bone.displayName.toList ∧
    (',' ∉ afterCommas 6 line → bone.displayName = nameAsRemainder line) := by
  obtain ⟨c, hc⟩ := name_of_accepted_line L line bone h
  have hfield := byteText_seventh_field line hbytes
  rw [hc] at hfield
  refine ⟨⟨c, hfield c (List.mem_cons_self _ _), hc⟩,
    fun x hx => hfield x (List.mem_cons_of_mem _ hx), ?_⟩
  intro hno
  rw [takeWhile_eq_self_of_not_mem _ hno] at hc
  unfold nameAsRemainder
  rw [hc]
  rfl

/-- C16, witness: the line `1, -1, 0, 0, 0, 1, a,b` decodes, and its name is the
text between the sixth and the seventh comma without the leading blank. -/
theorem name_is_seventh_field_witness :
    ByteText sampleCommaLine.toList ∧
    ∃ bone, parseLine sampleLib sampleCommaLine.toList = some bone ∧
      (∃ c, c.toNat < 256 ∧
        (afterCommas 6 sampleCommaLine.toList).takeWhile (fun c => decide (c ≠ ',')) =
          c :: bone.displayName.toList) ∧
      ByteText bone.displayName.toList ∧
      (',' ∉ afterCommas 6 sampleCommaLine.toList →
        bone.displayName = nameAsRemainder sampleCommaLine.toList) :=
  have hp : parseLine sampleLib sampleCommaLine.toList = some _ := rfl
  ⟨by decide, _, hp, name_is_seventh_field sampleLib _ _ (by decide) hp⟩

/-- C17: if some line of the text has fewer than seven comma-delimited fields,
or one of its first two fields is not read as an integer, or one of the next
four is not read as a float, then decoding returns the failed graph, whatever
the other lines hold: no bones, `loaded = false`, the given path and the file
name taken from the path. -/
theorem malformed_line_fails_decode (L : Lib) (text path : String) (line : List Char)
    (hmem : line ∈ readLines text.toList []) (hbad : LineMalformed L line) :
    openFile L (some text) path = LOAD_FAILED path ∧
    (openFile L (some text) path).bones = [] ∧
    (openFile L (some text) path).loaded = false ∧
    (openFile L (some text) path).originalFilePath = path ∧
    (openFile L (some text) path).originalFileName = parseFilename path := by
  have h := openFile_rejected L text path line hmem (parseLine_none_of_malformed L line hbad)
  rw [h]
  exact ⟨rfl, rfl, rfl, rfl, rfl⟩

/-- C17, witness: a file whose first line is a full bone line and whose second
line is `2, 1, 0` decodes to the failed graph. -/
theorem malformed_line_fails_decode_witness :
    "2, 1, 0".toList ∈ readLines sampleShortFile.toList [] ∧
    LineMalformed sampleLib "2, 1, 0".toList ∧
    openFile sampleLib (some sampleShortFile) "dir/pose.csv" = LOAD_FAILED "dir/pose.csv" ∧
    (openFile sampleLib (some sampleShortFile) "dir/pose.csv").bones = [] ∧
    (openFile sampleLib (some sampleShortFile) "dir/pose.csv").loaded = false ∧
    (openFile sampleLib (some sampleShortFile) "dir/pose.csv").originalFilePath = "dir/pose.csv" ∧
    (openFile sampleLib (some sampleShortFile) "dir/pose.csv").originalFileName =
      parseFilename "dir/pose.csv" :=
  have hmem : "2, 1, 0".toList ∈ readLines sampleShortFile.toList [] := by decide
  have hbad : LineMalformed sampleLib "2, 1, 0".toList := Or.inl (by decide)
  ⟨hmem, hbad, malformed_line_fails_decode sampleLib sampleShortFile "dir/pose.csv" _ hmem hbad⟩

/-- C20: if decoding fails (the decoded graph has `loaded = false`),
`open_file` returns `false` and the model is exactly as before: graph, `saved`
and dirty flag; if decoding succeeds, `open_file` returns `true`, the held
graph is the decoded graph (bone sequence and origin metadata), with
`saved = true` and `loaded = true`, and the dirty flag is raised. -/
theorem open_file_outcome (L : Lib) (m : PoseModel) (file : Option String) (path : String) :
    ((openFile L file path).loaded = false →
      openFile L file path = LOAD_FAILED path ∧ cmdOpenFile L m file path = (false, m)) ∧
    ((openFile L file path).loaded = true →
      (cmdOpenFile L m file path).1 = true ∧
      (cmdOpenFile L m file path).2.m_BonePawn = openFile L file path ∧
      (cmdOpenFile L m file path).2.m_BonePawn.saved = true ∧
      (cmdOpenFile L m file path).2.m_BonePawn.loaded = true ∧
      (cmdOpenFile L m file path).2.m_BonePawn.originalFilePath = path ∧
      (cmdOpenFile L m file path).2.m_BonePawn.originalFileName = parseFilename path ∧
      (cmdOpenFile L m file path).2.m_Delta = true) := by
  constructor
  · intro h
    refine ⟨?_, cmdOpenFile_failed L m file path h⟩
    rcases openFile_outcome L file path with h1 | h1
    · exact h1
    · rw [h1.1] at h
      cases h
  · intro h
    rw [cmdOpenFile_loaded L m file path h]
    rcases openFile_outcome L file path with h1 | h1
    · rw [h1] at h
      simp [LOAD_FAILED] at h
    · exact ⟨rfl, rfl, h1.2.1, h1.1, h1.2.2.1, h1.2.2.2, rfl⟩

/-- C20, witness: on a model holding two bones, opening the file with a short
line returns `false` and leaves the model alone, and opening the two-line chain
file returns `true` and installs its bones. -/
theorem open_file_outcome_witness :
    cmdOpenFile sampleLib sampleChain (some sampleShortFile) "pose.csv" = (false, sampleChain) ∧
    cmdOpenFile sampleLib sampleChain none "pose.csv" = (false, sampleChain) ∧
    (cmdOpenFile sampleLib sampleChain (some sampleChainFile) "pose.csv").1 = true ∧
    (cmdOpenFile sampleLib sampleChain (some sampleChainFile) "pose.csv").2.m_BonePawn =
      openFile sampleLib (some sampleChainFile) "pose.csv" ∧
    (cmdOpenFile sampleLib sampleChain (some sampleChainFile) "pose.csv").2.m_Delta = true :=
  ⟨((open_file_outcome sampleLib sampleChain (some sampleShortFile) "pose.csv").1
      (by decide)).2,
    ((open_file_outcome sampleLib sampleChain none "pose.csv").1 (by decide)).2,
    ((open_file_outcome sampleLib sampleChain (some sampleChainFile) "pose.csv").2
      (by decide)).1,
    ((open_file_outcome sampleLib sampleChain (some sampleChainFile) "pose.csv").2
      (by decide)).2.1,
    ((open_file_outcome sampleLib sampleChain (some sampleChainFile) "pose.csv").2
      (by decide)).2.2.2.2.2.2⟩

/-- C19: for every graph (of fewer than `2^64` bones) the text `saveFile` writes
is the bones' lines in sequence order joined by single newline characters, with
no newline after the last line, the empty graph giving the empty text; each line
is the id, the parent, the quaternion components x, y, z, w and the display name
joined by the two-character separator `", "`. -/
theorem save_text_format (L : Lib) (pawn : BonePawn) (path : String)
    (hsize : pawn.bones.length < 2 ^ 64) :
    saveFile L true pawn path =
      (true, some (String.intercalate newline (pawn.bones.map (fun b =>
        String.intercalate ", " [toString b.id, toString b.parent,
          L.showFloat b.quaternion.x, L.showFloat b.quaternion.y,
          L.showFloat b.quaternion.z, L.showFloat b.quaternion.w, b.displayName])))) ∧
    (pawn.bones = [] → saveFile L true pawn path = (true, some "")) := by
  have hfun : (fun b => String.intercalate ", " [toString b.id, toString b.parent,
      L.showFloat b.quaternion.x, L.showFloat b.quaternion.y,
      L.showFloat b.quaternion.z, L.showFloat b.quaternion.w, b.displayName]) =
      boneText L := by
    funext b
    exact (boneText_eq_intercalate L b).symm
  have htext : saveFileText L pawn =
      String.intercalate newline (pawn.bones.map (boneText L)) :=
    saveLoop_eq_intercalate L pawn.bones.length hsize pawn.bones 0 (by simp) (le_refl _)
  rw [saveFile_writable, hfun, htext]
  refine ⟨rfl, ?_⟩
  intro hnil
  rw [hnil]
  rfl

/-- C19, witness: the text written for the two-bone chain. -/
theorem save_text_format_witness :
    sampleChain.m_BonePawn.bones.length < 2 ^ 64 ∧
    saveFile sampleLib true sampleChain.m_BonePawn "pose.csv" =
      (true, some (String.intercalate newline (sampleChain.m_BonePawn.bones.map (fun b =>
        String.intercalate ", " [toString b.id, toString b.parent,
          sampleLib.showFloat b.quaternion.x, sampleLib.showFloat b.quaternion.y,
          sampleLib.showFloat b.quaternion.z, sampleLib.showFloat b.quaternion.w,
          b.displayName])))) :=
  ⟨by decide, (save_text_format sampleLib sampleChain.m_BonePawn "pose.csv" (by decide)).1⟩

/-- C21: `save_file` returns `false` for every model, path and file system, also
when the text was written: with a writable target the file holds the encoded
graph at the normalised path, the flag returned is still `false`. -/
theorem save_file_returns_false (L : Lib) (canWrite : String → Bool) (m : PoseModel)
    (path : String) :
    (cmdSaveFile L canWrite m path).1 = false ∧
    (cmdSaveFile L allWritable m path).1 = false ∧
    (saveFile L (allWritable (addExtension path)) (getCurrentPawn m) (addExtension path)).1 =
      true ∧
    (cmdSaveFile L allWritable m path).2.2 =
      some (addExtension path, saveFileText L m.m_BonePawn) := by
  have hw := cmdSaveFile_written L allWritable m path rfl
  refine ⟨?_, ?_, rfl, ?_⟩
  · cases h : canWrite (addExtension path) with
    | true => rw [cmdSaveFile_written L canWrite m path h]
    | false => rw [cmdSaveFile_blocked L canWrite m path h]
  · rw [hw]
  · rw [hw]

/-- C22: when the write succeeds (`saveFile` returns `true` on the normalised
path), after `save_file(path)` the origin path is `addExtension path`, the origin
name is its file-name part, `loaded = true`, `saved = true` and the bones are
the same; when the write fails the model is unchanged. -/
theorem save_file_state (L : Lib) (canWrite : String → Bool) (m : PoseModel) (path : String) :
    ((saveFile L (canWrite (addExtension path)) (getCurrentPawn m) (addExtension path)).1 =
        true →
      (cmdSaveFile L canWrite m path).2.1.m_BonePawn.originalFilePath = addExtension path ∧
      (cmdSaveFile L canWrite m path).2.1.m_BonePawn.originalFileName =
        parseFilename (addExtension path) ∧
      (cmdSaveFile L canWrite m path).2.1.m_BonePawn.loaded = true ∧
      (cmdSaveFile L canWrite m path).2.1.m_BonePawn.saved = true ∧
      (cmdSaveFile L canWrite m path).2.1.m_BonePawn.bones = m.m_BonePawn.bones) ∧
    ((saveFile L (canWrite (addExtension path)) (getCurrentPawn m) (addExtension path)).1 =
        false →
      (cmdSaveFile L canWrite m path).2.1 = m ∧ (cmdSaveFile L canWrite m path).2.2 = none) := by
  cases h : canWrite (addExtension path) with
  | true =>
    rw [cmdSaveFile_written L canWrite m path h, saveFile_writable]
    exact ⟨fun _ => ⟨rfl, rfl, rfl, rfl, rfl⟩, fun hf => by cases hf⟩
  | false =>
    rw [cmdSaveFile_blocked L canWrite m path h]
    refine ⟨fun ht => ?_, fun _ => ⟨rfl, rfl⟩⟩
    unfold saveFile at ht
    simp at ht

/-- C23: the path `my.dir/pose`, whose file name `pose` has no extension, is
turned into `my.csv` instead of `my.dir/pose.csv`, and `./pose` into `.csv`:
the last dot of the whole path is taken, also when it lies in the directory
part. -/
theorem add_extension_cuts_directory :
    parseFilename "my.dir/pose" = "pose" ∧
    addExtension "my.dir/pose" = "my.csv" ∧
    addExtension "my.dir/pose" ≠ "my.dir/pose.csv" ∧
    addExtension "./pose" = ".csv" := by
  decide

/-- C24: from every model state, `new_file()` leaves no bones, the origin name
`Untitled`, the empty origin path, `loaded = false`, `saved = true` and the
dirty flag raised. -/
theorem new_file_state (m : PoseModel) :
    (cmdNewFile m).m_BonePawn.bones = [] ∧
    (cmdNewFile m).m_BonePawn.originalFileName = "Untitled" ∧
    (cmdNewFile m).m_BonePawn.originalFilePath = "" ∧
    (cmdNewFile m).m_BonePawn.loaded = false ∧
    (cmdNewFile m).m_BonePawn.saved = true ∧
    (cmdNewFile m).m_Delta = true ∧
    cmdNewFile m = untitled :=
  ⟨rfl, rfl, rfl, rfl, rfl, rfl, rfl⟩

/-- C25: from a model with `saved = false`, every command other than `set_saved`
(`replace_graph` with any graph, the three metadata setters and the seven bone
commands, `add_bone` also when it throws) leaves `saved = false`; and
`set_saved(b)` sets `saved = b`, raises the dirty flag and changes nothing
else. -/
theorem only_set_saved_raises_saved (L : Lib) (m : PoseModel) (c : Cmd)
    (hs : m.m_BonePawn.saved = false) :
    ((∀ arg, c ≠ Cmd.setSaved arg) → Cmd.keepsUnsaved L m c) ∧
    (∀ arg, (cmdSetSaved m arg).m_BonePawn.saved = arg ∧ (cmdSetSaved m arg).m_Delta = true ∧
      cmdSetSaved m arg = { m_BonePawn := { m.m_BonePawn with saved := arg }, m_Delta := true }) := by
  refine ⟨?_, fun arg => ⟨rfl, rfl, rfl⟩⟩
  intro hne
  unfold Cmd.keepsUnsaved
  cases c with
  | setPawn pawn => rfl
  | setFilePath path => rfl
  | setFileName name => rfl
  | setLoaded arg => rfl
  | setSaved arg => exact absurd rfl (hne arg)
  | boneAdd parentid =>
    simp only [Cmd.exec]
    cases h : cmdBoneAdd L m parentid with
    | ok m1 =>
      obtain ⟨id, name, _, _, hcase⟩ := cmdBoneAdd_ok L m m1 parentid h
      rcases hcase with ⟨_, pre, b, suf, _, _, _, rfl⟩ | ⟨_, rfl⟩ <;> rfl
    | error e =>
      rw [cmdBoneAdd_error L m e parentid h]
      rfl
  | boneRemove boneid =>
    simp only [Cmd.exec]
    rw [saved_after_remove]
    exact hs
  | boneMoveUp boneid =>
    simp only [Cmd.exec]
    apply unsaved_of_same_or_delta m _ hs
    rcases cmdBoneMoveUp_shape m boneid with h | ⟨pre, a, b, suf, _, _, _, h⟩
    · exact Or.inl h
    · exact Or.inr ⟨_, h⟩
  | boneMoveDown boneid =>
    simp only [Cmd.exec]
    apply unsaved_of_same_or_delta m _ hs
    rcases cmdBoneMoveDown_shape m boneid with h | ⟨pre, a, b, suf, _, _, _, h⟩
    · exact Or.inl h
    · exact Or.inr ⟨_, h⟩
  | boneSetRotation boneid euler =>
    simp only [Cmd.exec]
    apply unsaved_of_same_or_delta m _ hs
    rcases cmdBoneSetRotation_shape L m boneid euler with ⟨_, h⟩ | ⟨pre, b, suf, _, _, _, h⟩
    · exact Or.inl h
    · exact Or.inr ⟨_, h⟩
  | boneSetName boneid name =>
    simp only [Cmd.exec]
    apply unsaved_of_same_or_delta m _ hs
    rcases cmdBoneSetName_shape m boneid name with h | ⟨pre, b, suf, _, _, _, _, h⟩
    · exact Or.inl h
    · exact Or.inr ⟨_, h⟩
  | boneSetParent boneid parentid =>
    simp only [Cmd.exec]
    apply unsaved_of_same_or_delta m _ hs
    rw [cmdBoneSetParent_eq]
    split
    · exact Or.inr ⟨_, rfl⟩
    · exact Or.inl rfl

/-- C25, witness: on the two-bone chain (`saved = false`), replacing the graph
by one whose `saved` field is `true` leaves `saved = false`, and `set_saved(true)`
sets it. -/
theorem only_set_saved_raises_saved_witness :
    sampleChain.m_BonePawn.saved = false ∧ sampleNamed.m_BonePawn.saved = true ∧
    Cmd.keepsUnsaved sampleLib sampleChain (Cmd.setPawn sampleNamed.m_BonePawn) ∧
    (cmdSetSaved sampleChain true).m_BonePawn.saved = true :=
  ⟨rfl, rfl,
    (only_set_saved_raises_saved sampleLib sampleChain (Cmd.setPawn sampleNamed.m_BonePawn)
      rfl).1 (fun arg h => by cases h),
    ((only_set_saved_raises_saved sampleLib sampleChain (Cmd.setPawn sampleNamed.m_BonePawn)
      rfl).2 true).1⟩

/-- C26: for every model and every graph `g`, after `replace_graph(g)` the held
graph has the bones, origin path, origin name and `loaded` flag of `g`, and the
dirty flag is raised; `saved` is `false`. -/
theorem replace_graph_state (m : PoseModel) (g : BonePawn) :
    (cmdSetPawn m g).m_BonePawn.bones = g.bones ∧
    (cmdSetPawn m g).m_BonePawn.originalFilePath = g.originalFilePath ∧
    (cmdSetPawn m g).m_BonePawn.originalFileName = g.originalFileName ∧
    (cmdSetPawn m g).m_BonePawn.loaded = g.loaded ∧
    (cmdSetPawn m g).m_Delta = true ∧
    cmdSetPawn m g = { m_BonePawn := { g with saved := false }, m_Delta := true } :=
  ⟨rfl, rfl, rfl, rfl, rfl, rfl⟩

/-- C27: when the first bone with the id is `b`, at `pre ++ b :: suf`,
`set_rotation(id, e)` gives that bone the quaternion `eulerToQuat e` and the Euler
angles `quatToEuler (eulerToQuat e)`; its id, parent and name, the other bones and
the order are unchanged, `saved` becomes `false` and the dirty flag is raised. -/
theorem set_rotation_state (L : Lib) (m : PoseModel) (boneid : ID) (euler : Vec3)
    (pre : List BoneData) (b : BoneData) (suf : List BoneData)
    (e : m.m_BonePawn.bones = pre ++ b :: suf) (hb : b.id = boneid)
    (hpre : ∀ c ∈ pre, c.id ≠ boneid) :
    cmdBoneSetRotation L m boneid euler =
      { m_BonePawn := { m.m_BonePawn with
          bones := pre ++ { id := b.id, parent := b.parent
                            quaternion := eulerToQuat L euler
                            eulerRotation := quatToEuler L (eulerToQuat L euler)
                            displayName := b.displayName } :: suf
          saved := false }
        m_Delta := true } :=
  cmdBoneSetRotation_found L m boneid euler pre b suf e hb hpre

/-- C27, witness: `set_rotation(2, (1, 0, 0))` on the sequence hip, knee rewrites
the orientation of knee only. -/
theorem set_rotation_state_witness :
    cmdBoneSetRotation sampleLib sampleNamed 2 ⟨Float32.one, Float32.zero, Float32.zero⟩ =
      { m_BonePawn := { sampleNamed.m_BonePawn with
          bones := [newBone sampleLib 1 (-1) "hip"] ++
            { id := 2, parent := 1
              quaternion := eulerToQuat sampleLib ⟨Float32.one, Float32.zero, Float32.zero⟩
              eulerRotation := quatToEuler sampleLib
                (eulerToQuat sampleLib ⟨Float32.one, Float32.zero, Float32.zero⟩)
              displayName := "knee" } :: []
          saved := false }
        m_Delta := true } :=
  set_rotation_state sampleLib sampleNamed 2 ⟨Float32.one, Float32.zero, Float32.zero⟩
    [newBone sampleLib 1 (-1) "hip"] (newBone sampleLib 2 1 "knee") [] rfl rfl (by decide)

/-- C28: with the argument order of GLM's constructor, `qua(w, x, y, z)`, a bone
created by `add_bone` holds the default `glm::quat(0, 0, 0, 1)` as
(x, y, z, w) = (0, 0, 1, 0), not the identity (0, 0, 0, 1), next to the Euler
angles (0, 0, 0); `saveFile` writes its components as `0, 0, 1, 0`. -/
theorem new_bone_quaternion_not_identity (L : Lib) (m m1 : PoseModel) (parentid : ID)
    (hctor : GlmCtorOrder L) (h : cmdBoneAdd L m parentid = .ok m1) :
    ∃ pre b suf, m.m_BonePawn.bones = pre ++ suf ∧ m1.m_BonePawn.bones = pre ++ b :: suf ∧
      b.quaternion = ⟨Float32.zero, Float32.zero, Float32.one, Float32.zero⟩ ∧
      b.quaternion ≠ ⟨Float32.zero, Float32.zero, Float32.zero, Float32.one⟩ ∧
      b.eulerRotation = ⟨Float32.zero, Float32.zero, Float32.zero⟩ ∧
      boneText L b =
        String.intercalate ", " [toString b.id, toString b.parent, L.showFloat Float32.zero,
          L.showFloat Float32.zero, L.showFloat Float32.one, L.showFloat Float32.zero,
          b.displayName] := by
  obtain ⟨id, name, pre, suf, e, e1⟩ := cmdBoneAdd_inserts L m m1 parentid h
  obtain ⟨hq, he, ht⟩ := boneText_newBone L hctor id parentid name
  refine ⟨pre, newBone L id parentid name, suf, e, e1, hq, ?_, he, ht⟩
  rw [hq]
  decide

/-- C28, witness: `add_bone(-1)` on the Untitled graph, with the sample library
in GLM's constructor order. -/
theorem new_bone_quaternion_not_identity_witness :
    GlmCtorOrder sampleGlmLib ∧
    ∃ m1, cmdBoneAdd sampleGlmLib untitled (-1) = .ok m1 ∧
      ∃ pre b suf, untitled.m_BonePawn.bones = pre ++ suf ∧
        m1.m_BonePawn.bones = pre ++ b :: suf ∧
        b.quaternion = ⟨Float32.zero, Float32.zero, Float32.one, Float32.zero⟩ ∧
        b.quaternion ≠ ⟨Float32.zero, Float32.zero, Float32.zero, Float32.one⟩ ∧
        b.eulerRotation = ⟨Float32.zero, Float32.zero, Float32.zero⟩ ∧
        boneText sampleGlmLib b =
          String.intercalate ", " [toString b.id, toString b.parent,
            sampleGlmLib.showFloat Float32.zero, sampleGlmLib.showFloat Float32.zero,
            sampleGlmLib.showFloat Float32.one, sampleGlmLib.showFloat Float32.zero,
            b.displayName] :=
  have hctor : GlmCtorOrder sampleGlmLib := fun _ _ _ _ => rfl
  have hrun : cmdBoneAdd sampleGlmLib untitled (-1) = .ok _ := rfl
  ⟨hctor, _, hrun, new_bone_quaternion_not_identity sampleGlmLib untitled _ (-1) hctor hrun⟩

/-- C30: `add_bone` throws if and only if every integer from 1 to 999999 is the
id of some bone or every name `bone (N)`, N from 1 to 999999, is held by some
bone; a throw leaves the bone sequence as it was, and in every other graph the
command completes with exactly one bone inserted into the sequence. -/
theorem add_bone_fails_iff (L : Lib) (m : PoseModel) (parentid : ID) :
    ((∃ e, cmdBoneAdd L m parentid = .error e) ↔
      ((∀ k : Int, 1 ≤ k → k ≤ 999999 → HasId m.m_BonePawn k) ∨
       (∀ k : Int, 1 ≤ k → k ≤ 999999 → HasName m.m_BonePawn (defaultName k)))) ∧
    (∀ e, cmdBoneAdd L m parentid = .error e → e.m_BonePawn.bones = m.m_BonePawn.bones) ∧
    ((¬ ∃ e, cmdBoneAdd L m parentid = .error e) →
      ∃ m1 pre b suf, cmdBoneAdd L m parentid = .ok m1 ∧
        m.m_BonePawn.bones = pre ++ suf ∧ m1.m_BonePawn.bones = pre ++ b :: suf ∧
        m1.m_BonePawn.bones.length = m.m_BonePawn.bones.length + 1) := by
  refine ⟨?_, ?_, ?_⟩
  · rw [cmdBoneAdd_error_iff, getUniqueBoneId_none_iff, getUniqueBoneName_none_iff]
  · intro e h
    rw [cmdBoneAdd_error L m e parentid h]
    rfl
  · intro hno
    rcases cmdBoneAdd_total L m parentid with ⟨m1, h⟩ | herr
    · obtain ⟨id, name, pre, suf, e, e1⟩ := cmdBoneAdd_inserts L m m1 parentid h
      refine ⟨m1, pre, newBone L id parentid name, suf, h, e, e1, ?_⟩
      rw [e, e1]
      simp only [List.length_append, List.length_cons]
      omega
    · exact absurd herr hno

/-- C31: for every graph (duplicate ids allowed, lookup by first match) and start
id, `pawnTestBoneParentLoop` returns `false` exactly when the walk along the parent
links never reaches an absent id, which is when it leads into a cycle; it returns
`true` exactly when the walk reaches an absent id after at most `len(bones)` found
bones. A loop of `n` iterations detects exactly the absent ids met after fewer
than `n` found bones, and `len(bones)` iterations are too few on the two-bone
chain started at bone 2. -/
theorem loop_test_exact (pawn : BonePawn) (startBone : ID) :
    (pawnTestBoneParentLoop pawn startBone = false ↔
      ¬ ∃ y, Relation.ReflTransGen (ParentStep pawn) startBone y ∧ ¬ HasId pawn y) ∧
    (pawnTestBoneParentLoop pawn startBone = false ↔
      ∃ y, Relation.ReflTransGen (ParentStep pawn) startBone y ∧
        Relation.TransGen (ParentStep pawn) y y) ∧
    (pawnTestBoneParentLoop pawn startBone = true ↔
      ∃ k y, k ≤ pawn.bones.length ∧ walkAfter pawn k startBone = some y ∧ ¬ HasId pawn y) ∧
    (∀ n, parentLoopFrom pawn n startBone = true ↔
      ∃ k y, k < n ∧ walkAfter pawn k startBone = some y ∧ ¬ HasId pawn y) ∧
    (parentLoopFrom sampleChain.m_BonePawn sampleChain.m_BonePawn.bones.length 2 = false ∧
      pawnTestBoneParentLoop sampleChain.m_BonePawn 2 = true) := by
  refine ⟨⟨?_, ?_⟩, test_false_iff_cycle pawn startBone, ⟨?_, ?_⟩,
    fun n => parentLoopFrom_iff pawn n startBone, ⟨by decide, by decide⟩⟩
  · rintro hf ⟨y, hy, hno⟩
    obtain ⟨z, hz, hc⟩ := (test_false_iff_cycle pawn startBone).1 hf
    exact hno (hasId_of_reach_cycle pawn hz hc hy)
  · intro hno
    cases ht : pawnTestBoneParentLoop pawn startBone with
    | false => rfl
    | true =>
      exfalso
      unfold pawnTestBoneParentLoop at ht
      obtain ⟨k, y, _, hw, hy⟩ := (parentLoopFrom_iff pawn _ startBone).1 ht
      exact hno ⟨y, walkAfter_reach pawn k startBone y hw, hy⟩
  · intro ht
    unfold pawnTestBoneParentLoop at ht
    obtain ⟨k, y, hk, hw, hy⟩ := (parentLoopFrom_iff pawn _ startBone).1 ht
    exact ⟨k, y, by omega, hw, hy⟩
  · rintro ⟨k, y, hk, hw, hy⟩
    unfold pawnTestBoneParentLoop
    exact (parentLoopFrom_iff pawn _ startBone).2 ⟨k, y, by omega, hw, hy⟩

/-- C32: for every graph and every id present in it, `set_parent(id, id)` returns
the model unchanged: the bone's parent, the other bones, `saved` and the dirty
flag. -/
theorem self_parent_rejected (m : PoseModel) (boneid : ID) (h : HasId m.m_BonePawn boneid) :
    cmdBoneSetParent m boneid boneid = m := by
  apply setParent_rejects_cycle
  apply Relation.TransGen.single
  unfold ParentStep
  rw [parentOf_writeParent m.m_BonePawn boneid boneid h boneid, if_pos rfl]

/-- C32, witness: `set_parent(1, 1)` and `set_parent(2, 2)` on the two-bone chain. -/
theorem self_parent_rejected_witness :
    HasId sampleChain.m_BonePawn 1 ∧ cmdBoneSetParent sampleChain 1 1 = sampleChain ∧
    cmdBoneSetParent sampleChain 2 2 = sampleChain :=
  ⟨by decide, self_parent_rejected sampleChain 1 (by decide),
    self_parent_rejected sampleChain 2 (by decide)⟩

/-- C33: `pawnFindBoneId` returns `-1` exactly when no bone has the id, and
otherwise a position `r` with `0 <= r < len(bones)` whose bone has the id while no
bone before `r` has it; `pawnFindBoneName` does the same for the equality of
display names. -/
theorem find_first_match (pawn : BonePawn) (id : ID) (name : String) :
    ((pawnFindBoneId pawn id = -1 ↔ ¬ HasId pawn id) ∧
      (pawnFindBoneId pawn id = -1 ∨
        ∃ r : Nat, pawnFindBoneId pawn id = (r : Int) ∧ r < pawn.bones.length ∧
          (∃ b, pawn.bones[r]? = some b ∧ b.id = id) ∧
          ∀ j c, j < r → pawn.bones[j]? = some c → c.id ≠ id)) ∧
    ((pawnFindBoneName pawn name = -1 ↔ ¬ HasName pawn name) ∧
      (pawnFindBoneName pawn name = -1 ∨
        ∃ r : Nat, pawnFindBoneName pawn name = (r : Int) ∧ r < pawn.bones.length ∧
          (∃ b, pawn.bones[r]? = some b ∧ b.displayName = name) ∧
          ∀ j c, j < r → pawn.bones[j]? = some c → c.displayName ≠ name)) := by
  constructor
  · rcases pawnFindBoneId_split pawn id with ⟨h1, h2⟩ | ⟨pre, b, suf, e, hb, hpre, hfind⟩
    · exact ⟨⟨fun _ => h2, fun _ => h1⟩, Or.inl h1⟩
    · obtain ⟨hlt, hat, hbefore⟩ := position_of_split pawn.bones pre b suf e
      have hin : HasId pawn id := ⟨b, List.getElem?_mem hat, hb⟩
      refine ⟨⟨fun h => ?_, fun h => absurd hin h⟩, Or.inr ⟨pre.length, hfind, hlt, ⟨b, hat, hb⟩,
        fun j c hj hc => hpre c (hbefore j c hj hc)⟩⟩
      rw [hfind] at h
      omega
  · rcases pawnFindBoneName_split pawn name with ⟨h1, h2⟩ | ⟨pre, b, suf, e, hb, hpre, hfind⟩
    · exact ⟨⟨fun _ => h2, fun _ => h1⟩, Or.inl h1⟩
    · obtain ⟨hlt, hat, hbefore⟩ := position_of_split pawn.bones pre b suf e
      have hin : HasName pawn name := ⟨b, List.getElem?_mem hat, hb⟩
      refine ⟨⟨fun h => ?_, fun h => absurd hin h⟩, Or.inr ⟨pre.length, hfind, hlt, ⟨b, hat, hb⟩,
        fun j c hj hc => hpre c (hbefore j c hj hc)⟩⟩
      rw [hfind] at h
      omega

/-- C34: for every graph and parent id `p`, `pawnGetBoneChildren` returns a
strictly increasing list of valid positions, and a position is in the list
exactly when the bone there has parent `p`. -/
theorem children_positions (pawn : BonePawn) (parent : ID) :
    List.Pairwise (fun i j => i < j) (pawnGetBoneChildren pawn parent) ∧
    (∀ i ∈ pawnGetBoneChildren pawn parent, 0 ≤ i ∧ i < (pawn.bones.length : Int)) ∧
    (∀ i : Int, i ∈ pawnGetBoneChildren pawn parent ↔
      ∃ b, boneAt pawn.bones i = some b ∧ b.parent = parent) := by
  have hmem : ∀ i : Int, i ∈ pawnGetBoneChildren pawn parent ↔
      ∃ k : Nat, i = (k : Int) ∧ ∃ b, pawn.bones[k]? = some b ∧ b.parent = parent := by
    intro i
    unfold pawnGetBoneChildren
    rw [mem_childrenFrom]
    simp only [zero_add]
  refine ⟨childrenFrom_increasing parent pawn.bones 0, ?_, ?_⟩
  · intro i hi
    obtain ⟨k, hk, b, hb, _⟩ := (hmem i).1 hi
    have hlt : k < pawn.bones.length := (List.getElem?_eq_some.1 hb).1
    omega
  · intro i
    rw [hmem]
    constructor
    · rintro ⟨k, rfl, b, hb, hp⟩
      exact ⟨b, by rw [boneAt_ofNat]; exact hb, hp⟩
    · rintro ⟨b, hb, hp⟩
      obtain ⟨k, hk, hbk⟩ := boneAt_some pawn.bones i b hb
      exact ⟨k, hk, b, hbk, hp⟩

/-- C35: for every graph whose ids are positive and pairwise distinct, whose every
parent is `-1` or the id of a bone of the graph and whose parent relation is
acyclic, a bone command whose parent argument (for `add_bone` and `set_parent`)
is `-1` or the id of an existing bone leaves a graph with the same properties,
also when `add_bone` throws. -/
theorem tree_shape_preserved (L : Lib) (m m1 : PoseModel) (c : Cmd)
    (hb : c.isBoneCmd = true) (hk : c.parentPresent m.m_BonePawn)
    (hd : DistinctIds m.m_BonePawn) (hpos : ∀ b ∈ m.m_BonePawn.bones, 1 ≤ b.id)
    (hc : ParentsClosed m.m_BonePawn) (ha : Acyclic m.m_BonePawn)
    (he : c.exec L m = .ok m1 ∨ c.exec L m = .error m1) :
    DistinctIds m1.m_BonePawn ∧ (∀ b ∈ m1.m_BonePawn.bones, 1 ≤ b.id) ∧
      ParentsClosed m1.m_BonePawn ∧ Acyclic m1.m_BonePawn := by
  have hw : WellFormed m.m_BonePawn := by
    refine ⟨hd, hpos, ?_, ha⟩
    intro b hbm
    rcases hc b hbm with h | h
    · left
      rw [h]
      decide
    · exact Or.inr h
  rcases he with he | he
  · have hw1 := wellFormed_exec L m m1 c hb (cmd_parentKnown_of_present _ c hk) hw he
    exact ⟨hw1.1, hw1.2.1, parentsClosed_exec L m m1 c hb hk hw hc he, hw1.2.2.2⟩
  · have hsame : m.m_BonePawn.bones = m1.m_BonePawn.bones := by
      cases c with
      | boneAdd parentid =>
        simp only [Cmd.exec] at he
        rw [cmdBoneAdd_error L m m1 parentid he]
        rfl
      | setPawn _ => cases he
      | setFilePath _ => cases he
      | setFileName _ => cases he
      | setLoaded _ => cases he
      | setSaved _ => cases he
      | boneRemove _ => cases he
      | boneMoveUp _ => cases he
      | boneMoveDown _ => cases he
      | boneSetRotation _ _ => cases he
      | boneSetName _ _ => cases he
      | boneSetParent _ _ => cases he
    refine ⟨distinctIds_congr _ _ hsame hd, ?_, parentsClosed_congr _ _ hsame hc,
      (acyclic_congr _ _ hsame).1 ha⟩
    rw [← hsame]
    exact hpos

/-- C35, witness: `add_bone(1)` on the two-bone chain. -/
theorem tree_shape_preserved_witness :
    ∃ m1, Cmd.exec sampleLib sampleChain (Cmd.boneAdd 1) = .ok m1 ∧
      m1.m_BonePawn.bones.length = 3 ∧
      DistinctIds m1.m_BonePawn ∧ (∀ b ∈ m1.m_BonePawn.bones, 1 ≤ b.id) ∧
      ParentsClosed m1.m_BonePawn ∧ Acyclic m1.m_BonePawn :=
  have hrun : Cmd.exec sampleLib sampleChain (Cmd.boneAdd 1) = .ok _ := rfl
  ⟨_, hrun, rfl,
    tree_shape_preserved sampleLib sampleChain _ (Cmd.boneAdd 1) rfl (by decide) (by decide)
      (by decide) (by decide)
      (acyclic_of_tests sampleChain.m_BonePawn (by decide)) (Or.inl hrun)⟩

/-- C36: with the bone sequence `pre ++ a :: b :: suf` (fewer than `2 ^ 64`
bones), `move_up(id)` followed by `move_down(id)` restores the sequence when `b`
is the first bone with the id, and `move_down(id)` followed by `move_up(id)`
restores it when `a` is the first bone with the id and the ids are pairwise
distinct. -/
theorem move_there_and_back (m : PoseModel) (boneid : ID)
    (pre : List BoneData) (a b : BoneData) (suf : List BoneData)
    (e : m.m_BonePawn.bones = pre ++ a :: b :: suf)
    (hsize : m.m_BonePawn.bones.length < 2 ^ 64) :
    (b.id = boneid → (∀ c ∈ pre ++ [a], c.id ≠ boneid) →
      (cmdBoneMoveDown (cmdBoneMoveUp m boneid) boneid).m_BonePawn.bones = m.m_BonePawn.bones) ∧
    (a.id = boneid → (∀ c ∈ pre, c.id ≠ boneid) → DistinctIds m.m_BonePawn →
      (cmdBoneMoveUp (cmdBoneMoveDown m boneid) boneid).m_BonePawn.bones = m.m_BonePawn.bones) := by
  refine ⟨fun hb hpre => moveUp_then_moveDown m boneid pre a b suf e hb hpre hsize, ?_⟩
  intro ha hpre hd
  have hne : a.id ≠ b.id := by
    unfold DistinctIds at hd
    rw [e] at hd
    exact ne_of_distinct_neighbours pre a b suf hd
  exact moveDown_then_moveUp m boneid pre a b suf e ha hpre hsize
    (fun hb => hne (ha.trans hb.symm))

/-- C36, witness: on the sequence hip, knee, `move_up(2)` then `move_down(2)` and
`move_down(1)` then `move_up(1)` both give hip, knee again. -/
theorem move_there_and_back_witness :
    sampleNamed.m_BonePawn.bones =
      [] ++ newBone sampleLib 1 (-1) "hip" :: newBone sampleLib 2 1 "knee" :: [] ∧
    (cmdBoneMoveDown (cmdBoneMoveUp sampleNamed 2) 2).m_BonePawn.bones =
      sampleNamed.m_BonePawn.bones ∧
    (cmdBoneMoveUp (cmdBoneMoveDown sampleNamed 1) 1).m_BonePawn.bones =
      sampleNamed.m_BonePawn.bones :=
  ⟨rfl,
    (move_there_and_back sampleNamed 2 [] _ _ [] rfl (by decide)).1 rfl (by decide),
    (move_there_and_back sampleNamed 1 [] _ _ [] rfl (by decide)).2 rfl (by decide)
      (by decide)⟩

/-- C37: for every string `p`, `addExtension p` ends with `.csv`, and applying
`addExtension` again returns the same string. -/
theorem add_extension_idempotent (p : String) :
    (∃ s : String, addExtension p = s ++ ".csv") ∧
    (∃ s : List Char, (addExtension p).toList = s ++ ['.', 'c', 's', 'v']) ∧
    addExtension (addExtension p) = addExtension p := by
  obtain ⟨s, hs⟩ := addExtension_shape p
  refine ⟨⟨String.mk s, hs⟩, ⟨s, ?_⟩, ?_⟩
  · rw [hs]
    show (String.mk s ++ ".csv").data = _
    rw [String.data_append, csv_data]
  · rw [hs, addExtension_of_csv]

/-- C38: a text with an empty line (one of its lines is empty: the text starts
with a newline, or holds two newlines in a row, also after valid bone lines) is
decoded to the failed graph, with no bones and `loaded = false`; a single newline
after a last line that is not empty changes nothing in the result. -/
theorem empty_line_fails_decode (L : Lib) (text path : String) :
    (([] : List Char) ∈ readLines text.toList [] →
      openFile L (some text) path = LOAD_FAILED path) ∧
    (∀ rest, text.toList = Char.ofNat 10 :: rest →
      openFile L (some text) path = LOAD_FAILED path) ∧
    (∀ pre rest, text.toList = pre ++ Char.ofNat 10 :: Char.ofNat 10 :: rest →
      openFile L (some text) path = LOAD_FAILED path) ∧
    ((LOAD_FAILED path).bones = [] ∧ (LOAD_FAILED path).loaded = false) ∧
    (text.toList ≠ [] → text.toList.getLast? ≠ some (Char.ofNat 10) →
      openFile L (some (text ++ newline)) path = openFile L (some text) path) := by
  have hfail : ([] : List Char) ∈ readLines text.toList [] →
      openFile L (some text) path = LOAD_FAILED path :=
    fun h => openFile_rejected L text path [] h (parseLine_nil L)
  refine ⟨hfail, ?_, ?_, ⟨rfl, rfl⟩, ?_⟩
  · intro rest h
    apply hfail
    rw [h]
    exact readLines_leading_newline rest
  · intro pre rest h
    apply hfail
    rw [h]
    exact readLines_blank_line pre rest []
  · intro hne hlast
    apply openFile_congr_lines
    rw [toList_append_final_newline]
    exact readLines_final_newline text.toList [] hlast (Or.inl hne)

/-- C39: for a line (a byte text) whose first six fields are accepted (two
integers, four floats, no comma inside a field), decoding the line fails when it
ends right after the sixth comma, and succeeds with the empty display name when
exactly one character `c`, one byte other than the comma, follows the sixth
comma; a graph of one bone with the empty display name is written and read back
with the empty name. -/
theorem seventh_field_of_one_character (L : Lib) (f0 f1 f2 f3 f4 f5 : List Char) (c : Char)
    (id parent : ID) (g0 g1 g2 g3 : Float32)
    (h0 : ',' ∉ f0) (h1 : ',' ∉ f1) (h2 : ',' ∉ f2) (h3 : ',' ∉ f3) (h4 : ',' ∉ f4)
    (h5 : ',' ∉ f5)
    (hc : ByteText (f0 ++ f1 ++ f2 ++ f3 ++ f4 ++ f5 ++ [c]) ∧ c ≠ ',')
    (e0 : stoi (String.mk f0) = some id) (e1 : stoi (String.mk f1) = some parent)
    (e2 : L.stof (String.mk f2) = some g0) (e3 : L.stof (String.mk f3) = some g1)
    (e4 : L.stof (String.mk f4) = some g2) (e5 : L.stof (String.mk f5) = some g3) :
    parseLine L (f0 ++ ',' :: (f1 ++ ',' :: (f2 ++ ',' :: (f3 ++ ',' :: (f4 ++ ',' ::
      (f5 ++ ',' :: [])))))) = none ∧
    parseLine L (f0 ++ ',' :: (f1 ++ ',' :: (f2 ++ ',' :: (f3 ++ ',' :: (f4 ++ ',' ::
      (f5 ++ ',' :: [c])))))) =
      some { id := id, parent := parent, quaternion := ⟨g0, g1, g2, g3⟩
             eulerRotation := quatToEuler L ⟨g0, g1, g2, g3⟩, displayName := "" } ∧
    (∀ (b : BoneData) (path : String), b.displayName = "" → BoneWritable L b →
      ∃ b1, openFile L (saveFile L true { bones := [b] } path).2 path =
          { bones := [b1], originalFilePath := path, originalFileName := parseFilename path
            loaded := true, saved := true } ∧
        b1.displayName = "" ∧ ReadBackOf L b b1) := by
  refine ⟨?_, ?_, ?_⟩
  · cases hp : parseLine L (f0 ++ ',' :: (f1 ++ ',' :: (f2 ++ ',' :: (f3 ++ ',' :: (f4 ++ ',' ::
        (f5 ++ ',' :: [])))))) with
    | none => rfl
    | some bone =>
      exfalso
      obtain ⟨a0, a1, a2, a3, a4, a5, a6, rest, d, hs, _, _, _, _, _, _, h6, _⟩ :=
        (parseLine_eq_some_iff L _ bone).1 hp
      rw [splitComma_six f0 f1 f2 f3 f4 f5 [] h0 h1 h2 h3 h4 h5 (by simp)] at hs
      simp only [List.cons.injEq] at hs
      rw [← hs.2.2.2.2.2.2.1] at h6
      cases h6
  · rw [parseLine_eq_some_iff]
    refine ⟨f0, f1, f2, f3, f4, f5, [c], [], c, ?_, e0, e1, e2, e3, e4, e5, rfl, rfl⟩
    exact splitComma_six f0 f1 f2 f3 f4 f5 [c] h0 h1 h2 h3 h4 h5
      (by simpa using fun h => hc.2 h.symm)
  · intro b path hname hw
    obtain ⟨bones, hopen, hback⟩ :=
      openFile_saveFileText L { bones := [b] } path (by simp)
        (fun x hx => by rw [List.mem_singleton.1 hx]; exact hw)
    rw [saveFile_writable]
    cases hback with
    | cons hb1 hrest =>
      cases hrest
      rename_i b1
      exact ⟨b1, hopen, hb1.2.2.1.trans hname, hb1⟩

/-- C39, witness: the line `1, -1, 0, 0, 0, 1,` is rejected and the same line
with one blank after the last comma decodes to bone 1 with the empty name. -/
theorem seventh_field_of_one_character_witness :
    parseLine sampleLib "1, -1, 0, 0, 0, 1,".toList = none ∧
    parseLine sampleLib "1, -1, 0, 0, 0, 1, ".toList =
      some { id := 1, parent := -1
             quaternion := ⟨Float32.zero, Float32.zero, Float32.zero, Float32.one⟩
             eulerRotation := quatToEuler sampleLib
               ⟨Float32.zero, Float32.zero, Float32.zero, Float32.one⟩
             displayName := "" } :=
  have h := seventh_field_of_one_character sampleLib "1".toList " -1".toList " 0".toList
    " 0".toList " 0".toList " 1".toList ' ' 1 (-1) Float32.zero Float32.zero Float32.zero
    Float32.one (by decide) (by decide) (by decide) (by decide) (by decide) (by decide)
    ⟨by decide, by decide⟩ (by decide) (by decide) (by decide) (by decide) (by decide)
    (by decide)
  ⟨h.1, h.2.1⟩

/-- C40: from a state with the dirty flag raised, every model command (the five
setters and the seven bone commands, `add_bone` also when it throws) leaves the
flag raised; `clear_dirty` lowers it and leaves the graph (bones, metadata,
`loaded`, `saved`) unchanged. -/
theorem dirty_flag_stays_raised (L : Lib) (m : PoseModel) (c : Cmd) (hd : m.m_Delta = true) :
    Cmd.keepsDirty L m c ∧
    (resetDelta m).m_Delta = false ∧ (resetDelta m).m_BonePawn = m.m_BonePawn := by
  refine ⟨?_, rfl, rfl⟩
  unfold Cmd.keepsDirty
  cases c with
  | setPawn pawn => rfl
  | setFilePath path => rfl
  | setFileName name => rfl
  | setLoaded arg => rfl
  | setSaved arg => rfl
  | boneAdd parentid =>
    simp only [Cmd.exec]
    cases h : cmdBoneAdd L m parentid with
    | ok m1 =>
      obtain ⟨id, name, _, _, hcase⟩ := cmdBoneAdd_ok L m m1 parentid h
      rcases hcase with ⟨_, pre, b, suf, _, _, _, rfl⟩ | ⟨_, rfl⟩ <;> rfl
    | error e =>
      rw [cmdBoneAdd_error L m e parentid h]
      rfl
  | boneRemove boneid =>
    simp only [Cmd.exec]
    exact dirty_after_remove m boneid hd
  | boneMoveUp boneid =>
    simp only [Cmd.exec]
    apply dirty_of_same_or_delta m _ hd
    rcases cmdBoneMoveUp_shape m boneid with h | ⟨pre, a, b, suf, _, _, _, h⟩
    · exact Or.inl h
    · exact Or.inr ⟨_, h⟩
  | boneMoveDown boneid =>
    simp only [Cmd.exec]
    apply dirty_of_same_or_delta m _ hd
    rcases cmdBoneMoveDown_shape m boneid with h | ⟨pre, a, b, suf, _, _, _, h⟩
    · exact Or.inl h
    · exact Or.inr ⟨_, h⟩
  | boneSetRotation boneid euler =>
    simp only [Cmd.exec]
    apply dirty_of_same_or_delta m _ hd
    rcases cmdBoneSetRotation_shape L m boneid euler with ⟨_, h⟩ | ⟨pre, b, suf, _, _, _, h⟩
    · exact Or.inl h
    · exact Or.inr ⟨_, h⟩
  | boneSetName boneid name =>
    simp only [Cmd.exec]
    apply dirty_of_same_or_delta m _ hd
    rcases cmdBoneSetName_shape m boneid name with h | ⟨pre, b, suf, _, _, _, _, h⟩
    · exact Or.inl h
    · exact Or.inr ⟨_, h⟩
  | boneSetParent boneid parentid =>
    simp only [Cmd.exec]
    apply dirty_of_same_or_delta m _ hd
    rw [cmdBoneSetParent_eq]
    split
    · exact Or.inr ⟨_, rfl⟩
    · exact Or.inl rfl

/-- C40, witness: with the flag raised on the two-bone chain, a rejected
`set_parent(1, 2)` leaves it raised, and `clear_dirty` lowers it. -/
theorem dirty_flag_stays_raised_witness :
    (cmdSetSaved sampleChain false).m_Delta = true ∧
    Cmd.keepsDirty sampleLib (cmdSetSaved sampleChain false) (Cmd.boneSetParent 1 2) ∧
    (resetDelta (cmdSetSaved sampleChain false)).m_Delta = false :=
  ⟨rfl,
    (dirty_flag_stays_raised sampleLib (cmdSetSaved sampleChain false) (Cmd.boneSetParent 1 2)
      rfl).1,
    (dirty_flag_stays_raised sampleLib (cmdSetSaved sampleChain false) (Cmd.boneSetParent 1 2)
      rfl).2.1⟩

end PoseEditor
